import Mathlib

/-!
# TaskFlow: the task collection engine of `script.js` (class `TodoApp`)

A shallow embedding of the in-memory task collection of `TodoApp` and of the
methods that read and change it, followed by theorems about them.

Modelling conventions.

* A JavaScript value stored in a task field is a `JVal`: `undefined`, `null`,
  a boolean, a number or a string.  Arrays and objects nested inside a task
  field are outside the model; numbers are integers.
* `this.tasks` is a `List Task`; the methods mutate it in place, the model
  passes the `Store` explicitly and returns the new one.
* Host facilities (clock, `Math.random`, the `Date` constructor, `confirm`,
  `toLowerCase`, `localeCompare`) are fields of `Env`.  All clock reads made
  by one event handler return the same instant.
* `Array.prototype.sort` is carried out as V8 does on an array of fewer than
  64 elements: the run at the start of the array is counted and made
  ascending, then the other elements are put in by binary insertion; the
  only test made on a comparator result is `order < 0`, a result of `NaN`
  counting as `0`.  A longer array is sorted by V8 in several such runs that
  are merged; when the comparator is consistent the result is the same, the
  sorted array in stable order.
-/

namespace TaskFlow

/-! ## JavaScript values -/

/-- A JavaScript value as it occurs in a task field. -/
inductive JVal where
  | undefined
  | null
  | bool (b : Bool)
  | num (n : Int)
  | str (s : String)
  deriving DecidableEq, Repr

namespace JVal

/-- JavaScript truthiness (`!!v`). -/
def truthy : JVal → Bool
  | undefined => false
  | null => false
  | bool b => b
  | num n => n != 0
  | str s => s != ""

/-- The expression `v || d`. -/
def orElse (v d : JVal) : JVal := if v.truthy then v else d

/-- A field is present when it is neither `undefined` nor `null`. -/
def present : JVal → Bool
  | undefined => false
  | null => false
  | _ => true

end JVal

/-! ## Strings -/

/-- White space and line terminators removed by `String.prototype.trim`. -/
def isJsWhitespace (c : Char) : Bool :=
  let n := c.toNat
  n == 0x9 || n == 0xA || n == 0xB || n == 0xC || n == 0xD || n == 0x20 || n == 0xA0 ||
  n == 0x1680 || (0x2000 ≤ n && n ≤ 0x200A) || n == 0x2028 || n == 0x2029 ||
  n == 0x202F || n == 0x205F || n == 0x3000 || n == 0xFEFF

/-- The method `String.prototype.trim`. -/
def jsTrim (s : String) : String :=
  String.mk ((s.data.dropWhile isJsWhitespace).reverse.dropWhile isJsWhitespace).reverse

/-- The property `.length` of a string: the number of UTF-16 code units. -/
def jsLength (s : String) : Nat :=
  (s.data.map (fun c => if c.toNat < 0x10000 then 1 else 2)).sum

/-- The method `String.prototype.includes`. -/
def jsIncludes (s q : String) : Bool := decide (q.data <:+: s.data)

/-- The expression `iso.split('T')[0]`. -/
def beforeT (iso : String) : String := String.mk (iso.data.takeWhile (fun c => c != 'T'))

/-! ## Tasks and the store -/

/-- A task object held in `this.tasks`.  Every path into the collection checks
that `text` is a string and `completed` a boolean (`handleAddTask`,
`loadTasks`, `importTasks`); the other fields hold whatever was stored. -/
structure Task where
  id : JVal
  text : String
  priority : JVal
  dueDate : JVal
  category : JVal
  completed : Bool
  completedAt : JVal
  createdAt : JVal
  updatedAt : JVal
  extra : List (String × JVal) := []
  deriving DecidableEq, Repr

/-- An object read from JSON (an element of an import file or of the persisted
array), before any check; an absent key reads as `undefined`. -/
structure Raw where
  id : JVal := .undefined
  text : JVal := .undefined
  priority : JVal := .undefined
  dueDate : JVal := .undefined
  category : JVal := .undefined
  completed : JVal := .undefined
  completedAt : JVal := .undefined
  createdAt : JVal := .undefined
  updatedAt : JVal := .undefined
  extra : List (String × JVal) := []
  deriving DecidableEq, Repr

/-- An element of a JSON array: an object, or anything else (`null`, a
primitive, an array), on which `.text` reads `undefined`. -/
inductive Elem where
  | other (v : JVal)
  | record (r : Raw)
  deriving DecidableEq, Repr

/-- The host environment of one event handler. -/
structure Env where
  /-- The value of `Date.now()`. -/
  nowMs : Int
  /-- The method `Date.prototype.toISOString`, on a time value. -/
  toISOString : Int → String
  /-- The time value of `new Date(v)`; `none` is an invalid date (`NaN`). -/
  dateOf : JVal → Option Int
  /-- Local time minus UTC, in milliseconds. -/
  tzOffsetMs : Int
  /-- The k-th `Math.random().toString(36).substr(2, 9)` drawn by the handler. -/
  random : Nat → String
  /-- The method `String.prototype.toLowerCase`. -/
  toLowerCase : String → String
  /-- The method `String.prototype.localeCompare`. -/
  localeCompare : String → String → Int
  /-- The answer given to `confirm(...)`. -/
  confirm : Bool

/-- The expression `new Date().toISOString()`. -/
def Env.nowISO (env : Env) : String := env.toISOString env.nowMs

/-- The state of `TodoApp` that the collection engine reads and writes. -/
structure Store where
  tasks : List Task
  currentFilter : String := "all"
  currentCategory : JVal := .str "all"
  currentSort : String := "created"
  searchQuery : String := ""
  selectedTasks : List JVal := []
  deriving DecidableEq, Repr

/-- The method `generateId`, on its k-th call within a handler. -/
def generateId (env : Env) (k : Nat) : String :=
  "task_" ++ toString env.nowMs ++ "_" ++ env.random k

/-! ## Queries: `isOverdue`, `getFilteredTasks`, `sortTasks`, `render` -/

/-- Milliseconds in a day. -/
def msPerDay : Int := 86400000

/-- The expression `new Date().setHours(0, 0, 0, 0)`: the time value of the
local midnight that starts the current local day. -/
def localMidnight (env : Env) : Int :=
  let localMs := env.nowMs + env.tzOffsetMs
  localMs - localMs % msPerDay - env.tzOffsetMs

/-- The current local calendar day, counted from 1970-01-01. -/
def localDay (env : Env) : Int := (env.nowMs + env.tzOffsetMs) / msPerDay

/-- The method `isOverdue`. -/
def isOverdue (env : Env) (task : Task) : Bool :=
  if !task.dueDate.truthy || task.completed then false
  else
    match env.dateOf task.dueDate with
    | none => false
    | some due => decide (due < localMidnight env)

/-- The method `getFilteredTasks`; the flag tells whether the returned array
is `this.tasks` itself (`true`) or a fresh array made by `filter`. -/
def getFilteredTasks (env : Env) (s : Store) : List Task × Bool :=
  if s.currentFilter = "active" then (s.tasks.filter (fun t => !t.completed), false)
  else if s.currentFilter = "completed" then (s.tasks.filter (fun t => t.completed), false)
  else if s.currentFilter = "overdue" then (s.tasks.filter (fun t => isOverdue env t), false)
  else (s.tasks, true)

/-- The table `priorityOrder` read at a key; `none` is `undefined`. -/
def priorityOrder : JVal → Option Int
  | .str s => if s = "high" then some 0 else if s = "medium" then some 1
              else if s = "low" then some 2 else none
  | _ => none

/-- A numeric difference `x - y`, with `NaN` (an operand that is `none`)
read as `0`, as `Array.prototype.sort` reads it. -/
def diffOrZero : Option Int → Option Int → Int
  | some x, some y => x - y
  | _, _ => 0

/-- The comparator passed to `sort` in `sortTasks`. -/
def compareTasks (env : Env) (sortKey : String) (a b : Task) : Int :=
  if sortKey = "due" then
    if !a.dueDate.truthy && !b.dueDate.truthy then 0
    else if !a.dueDate.truthy then 1
    else if !b.dueDate.truthy then -1
    else diffOrZero (env.dateOf a.dueDate) (env.dateOf b.dueDate)
  else if sortKey = "priority" then
    diffOrZero (priorityOrder a.priority) (priorityOrder b.priority)
  else if sortKey = "alphabetical" then
    env.localeCompare a.text b.text
  else
    diffOrZero (env.dateOf b.createdAt) (env.dateOf a.createdAt)

/-- The test `order < 0` that the sort makes on the result of the comparator
for `a` and `b`. -/
def sortsBefore (env : Env) (sortKey : String) (a b : Task) : Bool :=
  decide (compareTasks env sortKey a b < 0)

/-- The loop of `CountAndMakeRun` in the sort of the engine: the number of
elements after `previous` that continue the run, ascending (no element tests
before its predecessor) or strictly descending (each does). -/
def runTail {α : Type} (lt : α → α → Bool) (descending : Bool) : α → List α → Nat
  | _, [] => 0
  | previous, current :: rest =>
    if lt current previous = descending then runTail lt descending current rest + 1 else 0

/-- The step `CountAndMakeRun` of the sort of the engine: the run at the
start of the array, reversed when it is descending, and the elements after
it. -/
def countAndMakeRun {α : Type} (lt : α → α → Bool) : List α → List α × List α
  | first :: second :: rest =>
    let descending := lt second first
    let runLength := runTail lt descending second rest + 2
    let run := (first :: second :: rest).take runLength
    (if descending then run.reverse else run, (first :: second :: rest).drop runLength)
  | tasks => (tasks, [])

/-- The binary search of `BinaryInsertionSort` in the sort of the engine: the
index `left` when the loop `while (left < right)` ends.  The loop runs at most
`right - left` times, which `fuel` covers. -/
def insertionPoint {α : Type} (lt : α → α → Bool) (pivot : α) (sorted : List α) :
    Nat → Nat → Nat → Nat
  | 0, left, _ => left
  | fuel + 1, left, right =>
    if left < right then
      let mid := left + (right - left) / 2
      match sorted[mid]? with
      | some x =>
        if lt pivot x then insertionPoint lt pivot sorted fuel left mid
        else insertionPoint lt pivot sorted fuel (mid + 1) right
      | none => left
    else left

/-- One round of `BinaryInsertionSort`: the pivot is put at its insertion
point in the part sorted so far. -/
def binaryInsert {α : Type} (lt : α → α → Bool) (sorted : List α) (pivot : α) : List α :=
  let left := insertionPoint lt pivot sorted sorted.length 0 sorted.length
  sorted.take left ++ pivot :: sorted.drop left

/-- The method `Array.prototype.sort` as V8 carries it out on an array of
fewer than 64 elements, `lt a b` being the test `comparefn(a, b) < 0`:
`CountAndMakeRun` on the whole array, then `BinaryInsertionSort` of the
elements after the run. -/
def arraySort {α : Type} (lt : α → α → Bool) (array : List α) : List α :=
  (countAndMakeRun lt array).2.foldl (binaryInsert lt) (countAndMakeRun lt array).1

/-- The method `sortTasks`: the array after `tasks.sort(...)`, which sorts in
place and returns the same array. -/
def sortTasks (env : Env) (sortKey : String) (tasks : List Task) : List Task :=
  arraySort (sortsBefore env sortKey) tasks

/-- The search predicate of `render`; `none` is the `TypeError` raised by
`task.category.toLowerCase` when the category is truthy and not a string. -/
def searchMatch (env : Env) (q : String) (t : Task) : Option Bool :=
  if jsIncludes (env.toLowerCase t.text) q then some true
  else
    match t.category with
    | .str c => if c = "" then some false else some (jsIncludes (env.toLowerCase c) q)
    | v => if v.truthy then none else some false

/-- The method `Array.prototype.filter` with a callback that may throw. -/
def filterThrowing (p : Task → Option Bool) : List Task → Option (List Task)
  | [] => some []
  | t :: ts =>
    match p t with
    | none => none
    | some b =>
      match filterThrowing p ts with
      | none => none
      | some rest => some (if b then t :: rest else rest)

/-- The method `createTaskHtml`, as far as it can fail: the list item built
for a task stands for the task itself; `none` is the `TypeError` raised by
`task.priority.toUpperCase()` when the priority is not a string. -/
def createTaskHtml (task : Task) : Option Task :=
  match task.priority with
  | .str _ => some task
  | _ => none

/-- The method `Array.prototype.map` with a callback that may throw. -/
def mapThrowing (f : Task → Option Task) : List Task → Option (List Task)
  | [] => some []
  | t :: ts =>
    match f t with
    | none => none
    | some item =>
      match mapThrowing f ts with
      | none => none
      | some rest => some (item :: rest)

/-- The result of `render`: the store afterwards and the displayed sequence
(`none` when the search filter or `createTaskHtml` threw, in which case the
task list on the page is not rewritten). -/
structure Rendered where
  store : Store
  view : Option (List Task)

/-- The method `render`, as far as the collection is concerned: status filter,
search filter, category filter, then `sortTasks` on the resulting array, then
`createTaskHtml` on each of its elements.  When no filter made a fresh array,
the array sorted in place is `this.tasks`; the sort is done before the first
call of `createTaskHtml`. -/
def render (env : Env) (s : Store) : Rendered :=
  let base := getFilteredTasks env s
  let searched : Option (List Task × Bool) :=
    if s.searchQuery ≠ "" then
      (filterThrowing (searchMatch env s.searchQuery) base.1).map (fun l => (l, false))
    else some base
  match searched with
  | none => { store := s, view := none }
  | some found =>
    let byCategory : List Task × Bool :=
      if s.currentCategory ≠ .str "all" then
        (found.1.filter (fun t => t.category = s.currentCategory), false)
      else found
    let sorted := sortTasks env s.currentSort byCategory.1
    { store := if byCategory.2 then { s with tasks := sorted } else s,
      view := mapThrowing createTaskHtml sorted }

/-- The store after a call of `render`. -/
def afterRender (env : Env) (s : Store) : Store := (render env s).store

/-! ## Mutating methods -/

/-- In-place update of the object returned by `this.tasks.find(p)`: the first
task satisfying `p` is replaced by `f` of it. -/
def modifyFirst (p : Task → Bool) (f : Task → Task) : List Task → List Task
  | [] => []
  | t :: ts => if p t then f t :: ts else t :: modifyFirst p f ts

/-- The expression `this.tasks.find(t => t.id === taskId)`. -/
def findTask (tasks : List Task) (taskId : JVal) : Option Task :=
  tasks.find? (fun t => decide (t.id = taskId))

/-- The values read from the add form. -/
structure AddInput where
  text : String
  priority : JVal
  dueDate : String
  category : String
  deriving DecidableEq, Repr

/-- The expression `s || null` on a string. -/
def strOrNull (s : String) : JVal := (JVal.str s).orElse .null

/-- The task object built by `handleAddTask` from the trimmed text. -/
def newTask (env : Env) (text : String) (inp : AddInput) : Task :=
  { id := .str (generateId env 0)
    text := text
    priority := inp.priority
    dueDate := strOrNull inp.dueDate
    category := strOrNull (jsTrim inp.category)
    completed := false
    completedAt := .null
    createdAt := .str env.nowISO
    updatedAt := .str env.nowISO }

/-- The method `handleAddTask`; an error carries the text of the error toast. -/
def handleAddTask (env : Env) (s : Store) (inp : AddInput) : Store × Except String Task :=
  let text := jsTrim inp.text
  if text = "" then (s, .error "Please enter a task description")
  else if jsLength text > 200 then
    (s, .error "Task description is too long (max 200 characters)")
  else
    let task := newTask env text inp
    (afterRender env { s with tasks := task :: s.tasks }, .ok task)

/-- The field updates made by `toggleTask` on the task it found. -/
def toggled (env : Env) (t : Task) : Task :=
  if !t.completed then
    { t with completed := true, updatedAt := .str env.nowISO, completedAt := .str env.nowISO }
  else
    { t with completed := false, updatedAt := .str env.nowISO, completedAt := .null }

/-- The method `toggleTask`. -/
def toggleTask (env : Env) (s : Store) (taskId : JVal) : Store :=
  match findTask s.tasks taskId with
  | none => s
  | some _ =>
    let updated := modifyFirst (fun t => decide (t.id = taskId)) (toggled env) s.tasks
    afterRender env { s with tasks := updated }

/-- The method `saveEdit`, given the content of the edit input; an error
carries the text of the error toast. -/
def saveEdit (env : Env) (s : Store) (taskId : JVal) (input : String) :
    Store × Except String Unit :=
  let newText := jsTrim input
  if newText = "" then (s, .error "Task description cannot be empty")
  else if jsLength newText > 200 then
    (s, .error "Task description is too long (max 200 characters)")
  else
    match findTask s.tasks taskId with
    | none => (s, .ok ())
    | some _ =>
      let edited := modifyFirst (fun t => decide (t.id = taskId))
        (fun t => { t with text := newText, updatedAt := .str env.nowISO }) s.tasks
      (afterRender env { s with tasks := edited }, .ok ())

/-- The method `deleteTask`, its deferred removal included. -/
def deleteTask (env : Env) (s : Store) (taskId : JVal) : Store :=
  match findTask s.tasks taskId with
  | none => s
  | some _ => afterRender env { s with tasks := s.tasks.filter (fun t => t.id ≠ taskId) }

/-- The method `clearCompleted`, with the count it reports (0 when nothing
was removed). -/
def clearCompleted (env : Env) (s : Store) : Store × Nat :=
  let completedCount := (s.tasks.filter (fun t => t.completed)).length
  if completedCount = 0 then (s, 0)
  else if env.confirm then
    let kept := s.tasks.filter (fun t => !t.completed)
    (afterRender env { s with tasks := kept, selectedTasks := [] }, completedCount)
  else (s, 0)

/-- One round of the `forEach` of `bulkAction('complete')`. -/
def bulkCompleteStep (env : Env) (acc : List Task × Nat) (taskId : JVal) : List Task × Nat :=
  match findTask acc.1 taskId with
  | none => acc
  | some task =>
    if !task.completed then
      let mark : Task → Task := fun t =>
        { t with completed := true, completedAt := .str env.nowISO, updatedAt := .str env.nowISO }
      (modifyFirst (fun t => decide (t.id = taskId)) mark acc.1, acc.2 + 1)
    else acc

/-- One round of the `forEach` of `bulkAction('incomplete')`. -/
def bulkIncompleteStep (env : Env) (acc : List Task × Nat) (taskId : JVal) : List Task × Nat :=
  match findTask acc.1 taskId with
  | none => acc
  | some task =>
    if task.completed then
      let unmark : Task → Task := fun t =>
        { t with completed := false, completedAt := .null, updatedAt := .str env.nowISO }
      (modifyFirst (fun t => decide (t.id = taskId)) unmark acc.1, acc.2 + 1)
    else acc

/-- The `switch` of `bulkAction`: the collection and `actionCount` after it. -/
def bulkSwitch (env : Env) (s : Store) (action : String) : List Task × Nat :=
  if action = "complete" then s.selectedTasks.foldl (bulkCompleteStep env) (s.tasks, 0)
  else if action = "incomplete" then s.selectedTasks.foldl (bulkIncompleteStep env) (s.tasks, 0)
  else if action = "delete" then
    if env.confirm then
      (s.tasks.filter (fun t => decide (t.id ∉ s.selectedTasks)), s.selectedTasks.length)
    else (s.tasks, 0)
  else (s.tasks, 0)

/-- The method `bulkAction`, with its `actionCount`. -/
def bulkAction (env : Env) (s : Store) (action : String) : Store × Nat :=
  if s.selectedTasks.length = 0 then (s, 0)
  else
    let result := bulkSwitch env s action
    if result.2 > 0 then
      (afterRender env { s with tasks := result.1, selectedTasks := [] }, result.2)
    else ({ s with tasks := result.1 }, result.2)

/-- The expression `this.tasks.findIndex(t => t.id === taskId)`; `none` is -1. -/
def findIndex (tasks : List Task) (taskId : JVal) : Option Nat :=
  tasks.findIdx? (fun t => decide (t.id = taskId))

/-- The call `arr.splice(i, 0, x)`. -/
def spliceInsert (i : Nat) (x : Task) (arr : List Task) : List Task :=
  arr.take i ++ x :: arr.drop i

/-- The two `splice` calls of `reorderTask`. -/
def moveTask (draggedIndex targetIndex : Nat) (tasks : List Task) : List Task :=
  match tasks[draggedIndex]? with
  | none => tasks
  | some draggedTask => spliceInsert targetIndex draggedTask (tasks.eraseIdx draggedIndex)

/-- The method `reorderTask`. -/
def reorderTask (env : Env) (s : Store) (draggedTaskId targetTaskId : JVal) : Store :=
  match findIndex s.tasks draggedTaskId, findIndex s.tasks targetTaskId with
  | some draggedIndex, some targetIndex =>
    afterRender env { s with tasks := moveTask draggedIndex targetIndex s.tasks }
  | _, _ => s

/-- A built-in template: name and task texts (the icon is presentation). -/
structure Template where
  name : String
  tasks : List String

/-- The table `this.templates`. -/
def templates : List Template :=
  [ { name := "Daily Tasks", tasks := ["Check emails", "Review calendar", "Plan day priorities"] },
    { name := "Work Project",
      tasks := ["Project planning", "Team meeting", "Code review", "Documentation"] },
    { name := "Health & Fitness",
      tasks := ["Morning workout", "Drink 8 glasses of water", "Take vitamins"] },
    { name := "Home & Family", tasks := ["Grocery shopping", "Clean house", "Family time"] },
    { name := "Learning",
      tasks := ["Read for 30 minutes", "Practice new skill", "Take online course"] },
    { name := "Shopping List", tasks := ["Milk", "Bread", "Eggs", "Fruits"] } ]

/-- The task objects built by `addTasksFromTemplate`, the first of them with
the k-th generated id. -/
def templateTasks (env : Env) (name : String) : Nat → List String → List Task
  | _, [] => []
  | k, taskText :: rest =>
    { id := .str (generateId env k)
      text := taskText
      priority := .str "medium"
      dueDate := .null
      category := .str name
      completed := false
      completedAt := .null
      createdAt := .str env.nowISO
      updatedAt := .str env.nowISO } :: templateTasks env name (k + 1) rest

/-- The method `addTasksFromTemplate`. -/
def addTasksFromTemplate (env : Env) (s : Store) (templateName : String) : Store :=
  match templates.find? (fun t => decide (t.name = templateName)) with
  | none => s
  | some template =>
    let newTasks := templateTasks env template.name 0 template.tasks
    afterRender env { s with tasks := newTasks ++ s.tasks }

/-! ## Persistence: samples, load, export, import -/

/-- The method `addSampleTasks`: the three literal objects, which carry no
`completedAt` and no `updatedAt` key. -/
def addSampleTasks (env : Env) (s : Store) : Store :=
  let sampleTasks : List Task :=
    [ { id := .str (generateId env 0)
        text := "Complete project presentation"
        completed := false
        priority := .str "high"
        category := .str "Work"
        dueDate := .str (beforeT (env.toISOString (env.nowMs + 2 * 24 * 60 * 60 * 1000)))
        createdAt := .str env.nowISO
        completedAt := .undefined
        updatedAt := .undefined },
      { id := .str (generateId env 1)
        text := "Reply to important emails"
        completed := true
        priority := .str "medium"
        category := .str "Work"
        dueDate := .null
        createdAt := .str (env.toISOString (env.nowMs - 24 * 60 * 60 * 1000))
        completedAt := .undefined
        updatedAt := .undefined },
      { id := .str (generateId env 2)
        text := "Go for a morning run"
        completed := false
        priority := .str "low"
        category := .str "Health"
        dueDate := .str (beforeT env.nowISO)
        createdAt := .str env.nowISO
        completedAt := .undefined
        updatedAt := .undefined } ]
  { s with tasks := sampleTasks }

/-- What `localStorage.getItem('todoTasks')` holds: nothing (or the empty
string), a text whose parse is an array, or a text that does not parse or
parses to something that has no `filter` method. -/
inductive Persisted where
  | absent
  | broken
  | array (elems : List Elem)
  deriving DecidableEq, Repr

/-- The filter of `loadTasks`: elements with a string `id`, a string `text`
and a boolean `completed`, kept as they are. -/
def wellFormed : Elem → Option Task
  | .other _ => none
  | .record r =>
    match r.id, r.text, r.completed with
    | .str _, .str text, .bool completed =>
      some { id := r.id, text := text, priority := r.priority, dueDate := r.dueDate,
             category := r.category, completed := completed, completedAt := r.completedAt,
             createdAt := r.createdAt, updatedAt := r.updatedAt, extra := r.extra }
    | _, _, _ => none

/-- The method `loadTasks`. -/
def loadTasks (env : Env) (s : Store) (saved : Persisted) : Store :=
  match saved with
  | .absent => addSampleTasks env s
  | .broken => addSampleTasks env { s with tasks := [] }
  | .array elems => { s with tasks := elems.filterMap wellFormed }

/-- The object a task becomes after `JSON.stringify` and `JSON.parse`: keys
whose value is `undefined` are dropped, and read back as `undefined`. -/
def toRaw (t : Task) : Raw :=
  { id := t.id, text := .str t.text, priority := t.priority, dueDate := t.dueDate,
    category := t.category, completed := .bool t.completed, completedAt := t.completedAt,
    createdAt := t.createdAt, updatedAt := t.updatedAt, extra := t.extra }

/-- The parsed content of an import file: the text does not parse; it parses
to `null`; it parses to a value whose `tasks` is falsy or not an array; or it
parses to an object with an array `tasks`. -/
inductive Payload where
  | unparsable
  | nullValue
  | noTasksArray
  | tasks (elems : List Elem)
  deriving DecidableEq, Repr

/-- The `tasks` array of the file written by `exportTasks`, read back. -/
def exportTasks (s : Store) : Payload := .tasks (s.tasks.map (fun t => Elem.record (toRaw t)))

/-- The errors caught by the `catch` of `importTasks`: the `SyntaxError` of
`JSON.parse`, the `TypeError` of reading `tasks` of `null`, the two errors
thrown by the callback itself, and the `TypeError` raised by the call of
`render` that follows the merge. -/
inductive ImportError where
  | syntaxError
  | typeError
  | invalidFileFormat
  | noValidTasks
  | renderTypeError
  deriving DecidableEq, Repr

/-- The filter of `importTasks`: objects with a string `text` and a boolean
`completed`. -/
def validRecord : Elem → Option (Raw × String × Bool)
  | .other _ => none
  | .record r =>
    match r.text, r.completed with
    | .str text, .bool completed => some (r, text, completed)
    | _, _ => none

/-- The object built by the `map` of `importTasks` from a valid record, with
`newId` the value of `task.id || this.generateId()`. -/
def fillDefaults (env : Env) (newId : JVal) (r : Raw) (text : String) (completed : Bool) : Task :=
  { id := newId
    text := text
    priority := r.priority.orElse (.str "medium")
    dueDate := r.dueDate.orElse .null
    category := r.category.orElse .null
    completed := completed
    completedAt := r.completedAt.orElse .null
    createdAt := r.createdAt.orElse (.str env.nowISO)
    updatedAt := r.updatedAt.orElse (.str env.nowISO)
    extra := r.extra }

/-- The `map` of `importTasks`; `k` counts the calls of `generateId` so far. -/
def importMap (env : Env) : Nat → List (Raw × String × Bool) → List Task
  | _, [] => []
  | k, (r, text, completed) :: rest =>
    if r.id.truthy then fillDefaults env r.id r text completed :: importMap env k rest
    else fillDefaults env (.str (generateId env k)) r text completed
           :: importMap env (k + 1) rest

/-- The callback `reader.onload` of `importTasks`, on the parsed file; on
success it reports the number of imported tasks.  The call of `render` sits
inside the `try`: when it throws, the merge has been made and saved, and the
error toast is shown. -/
def importTasks (env : Env) (s : Store) (data : Payload) : Store × Except ImportError Nat :=
  match data with
  | .unparsable => (s, .error .syntaxError)
  | .nullValue => (s, .error .typeError)
  | .noTasksArray => (s, .error .invalidFileFormat)
  | .tasks elems =>
    let validTasks := importMap env 0 (elems.filterMap validRecord)
    if validTasks.length = 0 then (s, .error .noValidTasks)
    else
      let existingIds : List JVal := s.tasks.map (fun t => t.id)
      let newTasks := validTasks.filter (fun (t : Task) => decide (t.id ∉ existingIds))
      let merged : Store := { s with tasks := newTasks ++ s.tasks }
      (afterRender env merged,
       match (render env merged).view with
       | some _ => .ok newTasks.length
       | none => .error .renderTypeError)

/-! ## Statistics: `getStats`, `getDetailedStats`

The completion rate `(completed / total) * 100` is computed as JavaScript
computes it, in IEEE 754 double arithmetic: the quotient is rounded to the
nearest double, then the product is.  The doubles met here are zero or
positive and far below `2 ^ 53`; they are kept as a significand and a binary
scale.  The day counts of `getDetailedStats` and their average are quotients
of integers and are computed exactly. -/

/-- The integer nearest to `a / b`, a tie going to the even one: the rounding
of a significand in IEEE 754 arithmetic. -/
def roundHalfEven (a b : Nat) : Nat :=
  if 2 * (a % b) < b then a / b
  else if b < 2 * (a % b) then a / b + 1
  else if a / b % 2 = 0 then a / b
  else a / b + 1

/-- The least `k`, searched upwards from `k` in at most `fuel` steps, for
which `a * 2 ^ k / b` is at least `2 ^ 52`: the binary scale at which the
quotient has a significand of 53 bits.  With 1074 steps from 0 the search
ends at the scale of the subnormal doubles. -/
def scaleFrom (a b : Nat) : Nat → Nat → Nat
  | 0, k => k
  | fuel + 1, k => if 2 ^ 52 * b ≤ a * 2 ^ k then k else scaleFrom a b fuel (k + 1)

/-- A double that is zero or positive and below `2 ^ 53`: its value is
`sig / 2 ^ scale`. -/
structure Double where
  sig : Nat
  scale : Nat
  deriving DecidableEq, Repr

/-- The double nearest to the quotient `a / b` of two naturals, `b` positive
and the quotient below `2 ^ 53`: the result of the division `a / b` of two
integers held as doubles. -/
def Double.ofQuotient (a b : Nat) : Double :=
  if a = 0 then { sig := 0, scale := 0 }
  else
    let k := scaleFrom a b 1074 0
    { sig := roundHalfEven (a * 2 ^ k) b, scale := k }

/-- The product `x * n` of a double and a natural number, rounded to the
nearest double. -/
def Double.mulNat (x : Double) (n : Nat) : Double :=
  Double.ofQuotient (x.sig * n) (2 ^ x.scale)

/-- The value `Math.round(x)`: the nearest integer to the double, a tie going
up. -/
def Double.round (x : Double) : Nat := (2 * x.sig + 2 ^ x.scale) / (2 * 2 ^ x.scale)

/-- The integer `n` for which `n / 10 - x` is as close to zero as possible,
the larger one of two: the digits written by `x.toFixed(1)`. -/
def Double.tenths (x : Double) : Nat := (20 * x.sig + 2 ^ x.scale) / (2 * 2 ^ x.scale)

/-- The string `x.toFixed(1)`. -/
def Double.toFixed1 (x : Double) : String :=
  toString (x.tenths / 10) ++ "." ++ toString (x.tenths % 10)

/-- The expression `(completed / total) * 100`. -/
def percentage (completed total : Nat) : Double :=
  (Double.ofQuotient completed total).mulNat 100

/-- The value `Math.round(a / b)` for an integer `a` and positive `b`. -/
def roundDivInt (a : Int) (b : Nat) : Int := (2 * a + b) / (2 * b)

/-- The value `Math.ceil(a / b)` for an integer `a` and positive `b`. -/
def ceilDiv (a b : Int) : Int := -((-a) / b)

/-- The object returned by `getStats`. -/
structure Stats where
  total : Nat
  completed : Nat
  active : Nat
  completionRate : String
  deriving DecidableEq, Repr

/-- The method `getStats`. -/
def getStats (s : Store) : Stats :=
  let totalTasks := s.tasks.length
  let completedTasks := (s.tasks.filter (fun task => task.completed)).length
  let activeTasks := totalTasks - completedTasks
  let completionRate :=
    if totalTasks > 0 then (percentage completedTasks totalTasks).toFixed1 else "0"
  { total := totalTasks
    completed := completedTasks
    active := activeTasks
    completionRate := completionRate ++ "%" }

/-- The object returned by `getDetailedStats`, without the distributions by
priority and by category.  In `avgCompletionDays`, `none` is `null` and
`some none` is `NaN`. -/
structure DetailedStats where
  total : Nat
  completed : Nat
  active : Nat
  overdue : Nat
  completionRate : String
  avgCompletionDays : Option (Option Int)
  deriving DecidableEq, Repr

/-- The number `days` computed for one task in the `reduce` of
`getDetailedStats`; `none` is `NaN`. -/
def elapsedDays (env : Env) (task : Task) : Option Int :=
  match env.dateOf task.createdAt, env.dateOf task.completedAt with
  | some created, some completed => some (ceilDiv (completed - created) (1000 * 60 * 60 * 24))
  | _, _ => none

/-- The `reduce` of `getDetailedStats`: the sum of the days, `NaN` as soon as
one of them is. -/
def sumDays (env : Env) : List Task → Option Int
  | [] => some 0
  | task :: rest =>
    match elapsedDays env task, sumDays env rest with
    | some days, some sum => some (days + sum)
    | _, _ => none

/-- The tasks averaged by `getDetailedStats`. -/
def timedTasks (s : Store) : List Task :=
  s.tasks.filter (fun t => t.completed && t.completedAt.truthy)

/-- The method `getDetailedStats`. -/
def getDetailedStats (env : Env) (s : Store) : DetailedStats :=
  let total := s.tasks.length
  let completed := (s.tasks.filter (fun t => t.completed)).length
  let active := total - completed
  let overdue := (s.tasks.filter (fun t => isOverdue env t)).length
  let completionRate :=
    if total > 0 then toString (percentage completed total).round ++ "%" else "0%"
  let completedTasks := timedTasks s
  let avgCompletionDays : Option (Option Int) :=
    if completedTasks.length > 0 then
      some ((sumDays env completedTasks).map (fun totalDays =>
        roundDivInt totalDays completedTasks.length))
    else none
  { total := total
    completed := completed
    active := active
    overdue := overdue
    completionRate := completionRate
    avgCompletionDays := avgCompletionDays }

/-! ## Operations of the store as a transition system -/

/-- The operations that change the collection. -/
inductive Op where
  | add (inp : AddInput)
  | toggle (taskId : JVal)
  | edit (taskId : JVal) (input : String)
  | delete (taskId : JVal)
  | bulk (action : String)
  | clearCompleted
  | template (name : String)
  | importMerge (data : Payload)
  | reorder (draggedTaskId targetTaskId : JVal)

/-- The store after one operation. -/
def step (env : Env) (s : Store) : Op → Store
  | .add inp => (handleAddTask env s inp).1
  | .toggle taskId => toggleTask env s taskId
  | .edit taskId input => (saveEdit env s taskId input).1
  | .delete taskId => deleteTask env s taskId
  | .bulk action => (bulkAction env s action).1
  | .clearCompleted => (clearCompleted env s).1
  | .template name => addTasksFromTemplate env s name
  | .importMerge data => (importTasks env s data).1
  | .reorder draggedTaskId targetTaskId => reorderTask env s draggedTaskId targetTaskId

/-- The stores reachable from `loadTasks`, run on the state set up by the
constructor, through the operations. -/
inductive Reachable : Store → Prop where
  | load (env : Env) (saved : Persisted) : Reachable (loadTasks env { tasks := [] } saved)
  | step (env : Env) (s : Store) (op : Op) : Reachable s → Reachable (step env s op)

/-- The invariant on one task: `completedAt` is present iff `completed`. -/
def completionCoherent (t : Task) : Prop := t.completedAt.present = t.completed

/-- The condition on an import: every valid incoming record has a truthy
`completedAt` exactly when its `completed` is `true`. -/
def importCoherent : Op → Prop
  | .importMerge (.tasks elems) =>
    ∀ e ∈ elems, ∀ r text completed,
      validRecord e = some (r, text, completed) → r.completedAt.truthy = completed
  | _ => True

/-- The invariant on one task: its text is not empty and has at most 200
characters. -/
def textValid (t : Task) : Prop := t.text ≠ "" ∧ jsLength t.text ≤ 200

/-- The condition on an import: every valid incoming record has a text that
is not empty and has at most 200 characters. -/
def importTextValid : Op → Prop
  | .importMerge (.tasks elems) =>
    ∀ e ∈ elems, ∀ r text completed,
      validRecord e = some (r, text, completed) → text ≠ "" ∧ jsLength text ≤ 200
  | _ => True

/-- The array `newTasks` of `importTasks`: the valid records of the file, with
their defaults, whose id is not in the collection. -/
def importedTasks (env : Env) (s : Store) (elems : List Elem) : List Task :=
  (importMap env 0 (elems.filterMap validRecord)).filter
    (fun (t : Task) => decide (t.id ∉ s.tasks.map (fun u => u.id)))

/-- The condition on an import file: every valid record carries a truthy
(hence non-empty) id. -/
def idsGiven : Payload → Prop
  | .tasks elems =>
    ∀ e ∈ elems, ∀ r text completed,
      validRecord e = some (r, text, completed) → r.id.truthy = true
  | _ => True

/-- The task as `bulkAction('complete')` leaves it, for the selected ids
`selected`: marked completed now when its id is selected and it was not
completed, and untouched otherwise. -/
def bulkCompleted (env : Env) (selected : List JVal) (t : Task) : Task :=
  if t.id ∈ selected ∧ t.completed = false then
    { t with completed := true, completedAt := .str env.nowISO, updatedAt := .str env.nowISO }
  else t

/-! ### The display pipeline as the specification words it -/

/-- A category that is text or absent: a string, or a falsy value. -/
def categoryIsText (t : Task) : Prop := t.category.truthy = true → ∃ c, t.category = .str c

/-- A priority that is text: `createTaskHtml` can write it in upper case. -/
def priorityIsText (t : Task) : Prop := ∃ p, t.priority = .str p

/-- The status stage: "active" keeps the tasks not completed, "completed" the
completed ones, "overdue" the overdue ones, any other value keeps all. -/
def specStatus (env : Env) (status : String) (tasks : List Task) : List Task :=
  if status = "active" then tasks.filter (fun t => !t.completed)
  else if status = "completed" then tasks.filter (fun t => t.completed)
  else if status = "overdue" then tasks.filter (fun t => isOverdue env t)
  else tasks

/-- The search stage keeps a task when its text, or its category if it has
one, contains the query, both taken in lower case. -/
def specSearchMatch (env : Env) (query : String) (t : Task) : Bool :=
  jsIncludes (env.toLowerCase t.text) (env.toLowerCase query) ||
  (match t.category with
   | .str c => c != "" && jsIncludes (env.toLowerCase c) (env.toLowerCase query)
   | _ => false)

/-- The category stage keeps the tasks whose category is the selected one;
the selection "all" keeps all. -/
def specCategory (selected : JVal) (tasks : List Task) : List Task :=
  if selected = .str "all" then tasks else tasks.filter (fun t => t.category = selected)

/-- The rendered view of the specification: status, search, category, sort. -/
def specView (env : Env) (s : Store) (query : String) : List Task :=
  sortTasks env s.currentSort
    (specCategory s.currentCategory
      ((specStatus env s.currentFilter s.tasks).filter (specSearchMatch env query)))

/-- A comparator that is consistent on a list, as `Array.prototype.sort`
asks: of two elements one comes before the other exactly when the other
comes after it, and "does not come after" is transitive. -/
def comparatorConsistent (env : Env) (sortKey : String) (l : List Task) : Prop :=
  (∀ a ∈ l, ∀ b ∈ l, compareTasks env sortKey a b < 0 ↔ 0 < compareTasks env sortKey b a) ∧
  (∀ a ∈ l, ∀ b ∈ l, ∀ c ∈ l, compareTasks env sortKey a b ≤ 0 →
    compareTasks env sortKey b c ≤ 0 → compareTasks env sortKey a c ≤ 0)

/-- A field that is `null` or truthy: `v || null` gives it back. -/
def nullOrTruthy (v : JVal) : Bool := decide (v = .null) || v.truthy

/-- A task all of whose fields survive the defaults of `importTasks`: truthy
`id`, `priority`, `createdAt` and `updatedAt`, and `dueDate`, `category` and
`completedAt` each `null` or truthy (as `handleAddTask` builds its tasks). -/
def fullyPopulated (t : Task) : Bool :=
  t.id.truthy && t.priority.truthy && t.createdAt.truthy && t.updatedAt.truthy &&
  nullOrTruthy t.dueDate && nullOrTruthy t.category && nullOrTruthy t.completedAt

/-- Whether the array that `render` sorts is `this.tasks` itself: no status
filter, no search query and no category filter made a fresh array. -/
def aliasesStore (s : Store) : Bool :=
  decide (s.currentFilter ≠ "active") && decide (s.currentFilter ≠ "completed") &&
  decide (s.currentFilter ≠ "overdue") && decide (s.searchQuery = "") &&
  decide (s.currentCategory = .str "all")

/-! ## Concrete hosts and collections used in the evaluations below -/

/-- A host: a clock reading, a time-zone offset, and the host functions on the
values used below (2024-03-15T17:00:00.000Z is time value 1710522000000). -/
def hostAt (nowMs tzOffsetMs : Int) : Env :=
  { nowMs := nowMs
    tzOffsetMs := tzOffsetMs
    toISOString := fun t =>
      if t = 1710522000000 then "2024-03-15T17:00:00.000Z"
      else if t = 1710522005000 then "2024-03-15T17:00:05.000Z"
      else if t = 1710435600000 then "2024-03-14T17:00:00.000Z"
      else if t = 1710694800000 then "2024-03-17T17:00:00.000Z"
      else ""
    dateOf := fun v =>
      if v = .str "2024-03-15" then some 1710460800000
      else if v = .str "2024-03-14" then some 1710374400000
      else if v = .str "2024-03-15T17:00:00.000Z" then some 1710522000000
      else if v = .str "2024-03-15T17:00:05.000Z" then some 1710522005000
      else if v = .str "2024-03-14T17:00:00.000Z" then some 1710435600000
      else none
    random := fun k => if k = 0 then "k3v9x0q2a" else if k = 1 then "b7w1m4z8c" else "p5d2r6y0e"
    toLowerCase := fun s => String.mk (s.data.map Char.toLower)
    localeCompare := fun a b => if a.data < b.data then -1 else if a = b then 0 else 1
    confirm := true }

/-- The host at 2024-03-15T17:00:00.000Z, in UTC. -/
def utcHost : Env := hostAt 1710522000000 0

/-- The host five seconds later. -/
def laterHost : Env := hostAt 1710522005000 0

/-- Local noon of 2024-03-15, five hours west of UTC. -/
def westHost : Env := hostAt 1710522000000 (-18000000)

/-- A task as `handleAddTask` builds it, created on 2024-03-14. -/
def plainTask (id text priority : String) : Task :=
  { id := .str id
    text := text
    priority := .str priority
    dueDate := .null
    category := .null
    completed := false
    completedAt := .null
    createdAt := .str "2024-03-14T17:00:00.000Z"
    updatedAt := .str "2024-03-14T17:00:00.000Z" }

/-- An active task due on 2024-03-15. -/
def dueTodayTask : Task := { plainTask "t1" "Pay rent" "medium" with dueDate := .str "2024-03-15" }

/-- A task completed on 2024-03-14. -/
def doneTask : Task :=
  { plainTask "t1" "Pay rent" "medium" with
    completed := true, completedAt := .str "2024-03-14T17:00:00.000Z" }

/-- A store holding one completed task. -/
def doneStore : Store := { tasks := [doneTask] }

/-- The scenario collection: task A of low priority, task B of high
priority created a day later. -/
def scenarioTasks : List Task :=
  [ plainTask "a" "A" "low",
    { plainTask "b" "B" "high" with createdAt := .str "2024-03-15T17:00:00.000Z",
                                    updatedAt := .str "2024-03-15T17:00:00.000Z" } ]

/-- Three active tasks in manual order a, b, c. -/
def threeTasks : List Task :=
  [plainTask "a" "A" "medium", plainTask "b" "B" "medium", plainTask "c" "C" "medium"]

/-- A store that shows all tasks sorted by priority and holds one task of
high priority. -/
def priorityView : Store :=
  { tasks := [plainTask "h" "File taxes" "high"], currentSort := "priority" }

/-- An add form holding a task of low priority. -/
def lowInput : AddInput :=
  { text := "  Buy milk ", priority := .str "low", dueDate := "", category := "" }

/-- An add form holding only blanks. -/
def blankInput : AddInput :=
  { text := " \t  ", priority := .str "medium", dueDate := "", category := "" }

/-- An add form holding 201 characters. -/
def longInput : AddInput :=
  { text := String.mk (List.replicate 201 'x'), priority := .str "medium", dueDate := "",
    category := "" }

/-- An import file with one record, completed and without `completedAt`. -/
def completedRecordFile : Payload :=
  .tasks [.record { text := .str "Water plants", completed := .bool true }]

/-- An import file with one record, completed on 2024-03-14. -/
def datedRecordFile : Payload :=
  .tasks [.record { text := .str "Water plants", completed := .bool true,
                    completedAt := .str "2024-03-14T17:00:00.000Z" }]

/-- An import file whose two records carry the same id. -/
def repeatedIdFile : Payload :=
  .tasks [ .record { id := .str "n1", text := .str "First", completed := .bool false },
           .record { id := .str "n1", text := .str "Second", completed := .bool false } ]

/-- The store right after a first start: nothing persisted, samples seeded. -/
def firstStart : Store := loadTasks utcHost { tasks := [] } .absent

/-- Four tasks, three of them completed. -/
def fourTasks : List Task :=
  [doneTask, { doneTask with id := .str "t2" }, { doneTask with id := .str "t3" },
   plainTask "t4" "Call the bank" "low"]

/-- Four tasks of priority medium, high, "urgent" (which is no key of the
table `priorityOrder`) and high. -/
def urgentTasks : List Task :=
  [plainTask "a" "A" "medium", plainTask "b" "B" "high", plainTask "c" "C" "urgent",
   plainTask "d" "D" "high"]

/-- Three tasks due 2024-03-15, "soon" (which is no date) and 2024-03-14. -/
def unreadableDueTasks : List Task :=
  [ { plainTask "d2" "Later" "medium" with dueDate := .str "2024-03-15" },
    { plainTask "g" "Some day" "medium" with dueDate := .str "soon" },
    { plainTask "d1" "Sooner" "medium" with dueDate := .str "2024-03-14" } ]

/-- An import file with one record, whose text is empty. -/
def emptyTextFile : Payload :=
  .tasks [.record { id := .str "n1", text := .str "", completed := .bool false }]

/-- A persisted array with a number, an object without id and an object whose
`completed` is a string. -/
def malformedArray : Persisted :=
  .array [ .other (.num 7),
           .record { text := .str "No id", completed := .bool false },
           .record { id := .str "x", text := .str "Odd", completed := .str "yes" } ]

/-- An import file with one record of low priority. -/
def lowRecordFile : Payload :=
  .tasks [.record { id := .str "n1", text := .str "Buy milk", completed := .bool false,
                    priority := .str "low" }]

/-- An import file with one record whose category is the number 5. -/
def numericCategoryFile : Payload :=
  .tasks [.record { id := .str "n1", text := .str "Pay rent", completed := .bool false,
                    category := .num 5 }]

/-- Forty tasks, 23 of them completed. -/
def fortyTasks : List Task :=
  List.replicate 23 doneTask ++ List.replicate 17 (plainTask "a" "A" "medium")

/-- An import file with one record whose priority is the number 5. -/
def numericPriorityFile : Payload :=
  .tasks [.record { id := .str "n1", text := .str "Pay rent", completed := .bool false,
                    priority := .num 5 }]

/-- An empty store in which the search box holds "milk". -/
def searchingStore : Store := { tasks := [], searchQuery := "milk" }

/-- A store shown through the filter "active", holding an active task and a
completed task, in which both and an absent id are selected. -/
def selectionStore : Store :=
  { tasks := [plainTask "a" "A" "medium", doneTask]
    currentFilter := "active"
    selectedTasks := [.str "a", .str "t1", .str "gone"] }

/-- A store holding two active tasks with the same id, which is selected. -/
def twinStore : Store :=
  { tasks := [plainTask "x" "First" "medium", plainTask "x" "Second" "medium"]
    currentFilter := "active"
    selectedTasks := [.str "x"] }

/-- A store shown through the filter "active", in which task a and the id of
a task deleted earlier are selected. -/
def staleSelectionStore : Store :=
  { tasks := [plainTask "a" "A" "medium", plainTask "b" "B" "medium"]
    currentFilter := "active"
    selectedTasks := [.str "a", .str "gone"] }

/-- A persisted array in manual order: a task created 2024-03-14, a completed
task, a task created 2024-03-15. -/
def manualOrderArray : Persisted :=
  .array ([ plainTask "a" "A" "medium", doneTask,
            { plainTask "b" "B" "medium" with createdAt := .str "2024-03-15T17:00:00.000Z" } ].map
    (fun t => Elem.record (toRaw t)))

/-- The store right after `loadTasks` read `manualOrderArray`, before the
first call of `render` (which `init` defers). -/
def justLoaded : Store := loadTasks utcHost { tasks := [] } manualOrderArray

/-- A store in which the search box holds "milk" and the one task has the
number 5 as category. -/
def numericCategoryStore : Store :=
  { tasks := [{ plainTask "n1" "Pay rent" "medium" with category := .num 5 }]
    searchQuery := "milk" }

/-- A store whose one task has no priority, as `loadTasks` takes it from a
persisted record without that key; no search is active. -/
def noPriorityStore : Store :=
  { tasks := [{ plainTask "n1" "Pay rent" "medium" with priority := .undefined }] }

/-- A store with two tasks, one of category "Home", while the search box
holds "home" after the user typed "HOME". -/
def homeSearchStore : Store :=
  { tasks := [ { plainTask "a" "Clean windows" "medium" with category := .str "Home" },
               plainTask "b" "Call the bank" "medium" ]
    searchQuery := "home" }

/-! ## The sort of the engine -/

theorem insertionPoint_spec {α : Type} (lt : α → α → Bool) (pivot : α) (sorted : List α) :
    ∀ fuel left right, left ≤ right → right ≤ sorted.length → right - left ≤ fuel →
      (∀ x, left ≠ 0 → sorted[left - 1]? = some x → lt pivot x = false) →
      (∀ y, sorted[right]? = some y → lt pivot y = true) →
      insertionPoint lt pivot sorted fuel left right ≤ sorted.length ∧
      (∀ x, insertionPoint lt pivot sorted fuel left right ≠ 0 →
        sorted[insertionPoint lt pivot sorted fuel left right - 1]? = some x →
        lt pivot x = false) ∧
      (∀ y, sorted[insertionPoint lt pivot sorted fuel left right]? = some y →
        lt pivot y = true) := by
  intro fuel
  induction fuel with
  | zero =>
    intro left right h1 h2 h3 hl hr
    have : left = right := by omega
    subst this
    exact ⟨h2, hl, hr⟩
  | succ n ih =>
    intro left right h1 h2 h3 hl hr
    unfold insertionPoint
    by_cases hlt : left < right
    · rw [if_pos hlt]
      have hmid : left + (right - left) / 2 < sorted.length := by omega
      obtain ⟨x, hx⟩ : ∃ x, sorted[left + (right - left) / 2]? = some x :=
        ⟨_, List.getElem?_eq_getElem hmid⟩
      simp only [hx]
      by_cases hp : lt pivot x = true
      · rw [if_pos hp]
        apply ih left (left + (right - left) / 2) (by omega) (by omega) (by omega) hl
        intro y hy
        rw [hx] at hy
        cases hy
        exact hp
      · rw [if_neg hp]
        apply ih (left + (right - left) / 2 + 1) right (by omega) h2 (by omega) _ hr
        intro y _ hy
        simp only [Nat.add_sub_cancel] at hy
        rw [hx] at hy
        cases hy
        simpa using hp
    · rw [if_neg hlt]
      have : left = right := by omega
      subst this
      exact ⟨h2, hl, hr⟩

/-- The insertion point of `binaryInsert`: the element before it, if any, does
not come after the pivot by the test, and the element at it, if any, does. -/
theorem insertionPoint_neighbours {α : Type} (lt : α → α → Bool) (pivot : α) (sorted : List α) :
    insertionPoint lt pivot sorted sorted.length 0 sorted.length ≤ sorted.length ∧
    (∀ x ∈ (sorted.take (insertionPoint lt pivot sorted sorted.length 0 sorted.length)).getLast?,
      lt pivot x = false) ∧
    (∀ y ∈ (sorted.drop (insertionPoint lt pivot sorted sorted.length 0 sorted.length)).head?,
      lt pivot y = true) := by
  obtain ⟨h1, h2, h3⟩ := insertionPoint_spec lt pivot sorted sorted.length 0 sorted.length
    (Nat.zero_le _) le_rfl (by omega) (fun x h => absurd rfl h)
    (fun y hy => by simp at hy)
  generalize insertionPoint lt pivot sorted sorted.length 0 sorted.length = i at h1 h2 h3
  refine ⟨h1, ?_, ?_⟩
  · intro x hx
    rcases Nat.eq_zero_or_pos i with hi | hi
    · subst hi
      simp at hx
    · apply h2 x (by omega)
      have hlen : (sorted.take i).length = i := by simp [h1]
      rw [Option.mem_def, List.getLast?_eq_getElem?, hlen, List.getElem?_take_of_lt (by omega)] at hx
      exact hx
  · intro y hy
    apply h3
    rw [Option.mem_def, List.head?_drop] at hy
    exact hy


theorem binaryInsert_perm {α : Type} (lt : α → α → Bool) (sorted : List α) (pivot : α) :
    (binaryInsert lt sorted pivot).Perm (pivot :: sorted) := by
  unfold binaryInsert
  simp only
  refine List.perm_middle.trans (List.Perm.cons _ ?_)
  rw [List.take_append_drop]

theorem foldl_binaryInsert_perm {α : Type} (lt : α → α → Bool) :
    ∀ (rest run : List α), (rest.foldl (binaryInsert lt) run).Perm (run ++ rest) := by
  intro rest
  induction rest with
  | nil => intro run; simp
  | cons p rest ih =>
    intro run
    rw [List.foldl_cons]
    refine (ih _).trans ?_
    refine (List.Perm.append_right rest (binaryInsert_perm lt run p)).trans ?_
    simp only [List.cons_append]
    exact List.perm_middle.symm

theorem countAndMakeRun_perm {α : Type} (lt : α → α → Bool) (l : List α) :
    ((countAndMakeRun lt l).1 ++ (countAndMakeRun lt l).2).Perm l := by
  unfold countAndMakeRun
  split
  · simp only
    split
    · refine (List.Perm.append_right _ (List.reverse_perm _)).trans ?_
      rw [List.take_append_drop]
    · rw [List.take_append_drop]
  · simp

theorem arraySort_perm {α : Type} (lt : α → α → Bool) (l : List α) :
    (arraySort lt l).Perm l :=
  (foldl_binaryInsert_perm lt _ _).trans (countAndMakeRun_perm lt l)

/-- The run counted by `runTail` is a chain for the test made on neighbours. -/
theorem chain_take_runTail {α : Type} (lt : α → α → Bool) (d : Bool) :
    ∀ (rest : List α) (previous : α),
      List.Chain (fun x y => lt y x = d) previous (rest.take (runTail lt d previous rest)) := by
  intro rest
  induction rest with
  | nil => intro _; simp
  | cons c rest ih =>
    intro previous
    unfold runTail
    split
    · rename_i h
      rw [List.take_succ_cons]
      exact List.Chain.cons h (ih c)
    · simp

/-- What `countAndMakeRun` returns: the array is the run followed by the rest,
the run is a chain for the test made on its neighbours, and it is returned
reversed when that test was positive. -/
theorem countAndMakeRun_eq {α : Type} (lt : α → α → Bool) (l : List α) :
    ∃ (run : List α) (d : Bool), l = run ++ (countAndMakeRun lt l).2 ∧
      (countAndMakeRun lt l).1 = (if d = true then run.reverse else run) ∧
      run.Chain' (fun x y => lt y x = d) := by
  match l with
  | [] => exact ⟨[], false, rfl, rfl, List.chain'_nil⟩
  | [x] => exact ⟨[x], false, rfl, rfl, List.chain'_singleton x⟩
  | first :: second :: rest =>
    refine ⟨(first :: second :: rest).take (runTail lt (lt second first) second rest + 2),
      lt second first, ?_, ?_, ?_⟩
    · simp only [countAndMakeRun]
      rw [List.take_append_drop]
    · simp only [countAndMakeRun]
    · have hrun : (first :: second :: rest).take (runTail lt (lt second first) second rest + 2)
          = first :: second :: rest.take (runTail lt (lt second first) second rest) := by
        simp [List.take_succ_cons]
      rw [hrun]
      exact List.Chain.cons rfl (chain_take_runTail lt (lt second first) rest second)

theorem runTail_of_chain {α : Type} (lt : α → α → Bool) (d : Bool) :
    ∀ (rest : List α) (previous : α),
      List.Chain (fun x y => lt y x = d) previous rest → runTail lt d previous rest = rest.length := by
  intro rest
  induction rest with
  | nil => intro _ _; rfl
  | cons c rest ih =>
    intro previous h
    obtain ⟨h1, h2⟩ := List.chain_cons.mp h
    unfold runTail
    rw [if_pos h1, ih c h2]
    rfl

/-- An array that is a chain for "the second does not come before the first
by the test" is one ascending run: `countAndMakeRun` returns it whole. -/
theorem countAndMakeRun_of_chain {α : Type} (lt : α → α → Bool) (l : List α)
    (h : l.Chain' (fun x y => lt y x = false)) : countAndMakeRun lt l = (l, []) := by
  match l, h with
  | [], _ => rfl
  | [x], _ => rfl
  | first :: second :: rest, h =>
    obtain ⟨h1, h2⟩ := List.chain_cons.mp h
    simp only [countAndMakeRun, h1, runTail_of_chain lt false rest second h2]
    simp

theorem arraySort_of_chain {α : Type} (lt : α → α → Bool) (l : List α)
    (h : l.Chain' (fun x y => lt y x = false)) : arraySort lt l = l := by
  unfold arraySort
  rw [countAndMakeRun_of_chain lt l h]
  rfl

theorem binaryInsert_chain {α : Type} (lt : α → α → Bool) (sorted : List α) (pivot : α)
    (hasym : ∀ y ∈ sorted, lt pivot y = true → lt y pivot = false)
    (h : sorted.Chain' (fun x y => lt y x = false)) :
    (binaryInsert lt sorted pivot).Chain' (fun x y => lt y x = false) := by
  obtain ⟨-, h2, h3⟩ := insertionPoint_neighbours lt pivot sorted
  unfold binaryInsert
  simp only
  generalize insertionPoint lt pivot sorted sorted.length 0 sorted.length = i at h2 h3
  refine List.Chain'.append (h.take i) (List.Chain'.cons' (h.drop i) ?_) ?_
  · intro y hy
    have hmem : y ∈ sorted := List.mem_of_mem_drop (List.mem_of_mem_head? hy)
    exact hasym y hmem (h3 y hy)
  · intro x hx y hy
    simp only [List.head?_cons, Option.mem_def, Option.some.injEq] at hy
    subst hy
    exact h2 x hx

theorem foldl_binaryInsert_chain {α : Type} (lt : α → α → Bool) :
    ∀ (rest run : List α),
      (∀ a ∈ run ++ rest, ∀ b ∈ run ++ rest, lt a b = true → lt b a = false) →
      run.Chain' (fun x y => lt y x = false) →
      (rest.foldl (binaryInsert lt) run).Chain' (fun x y => lt y x = false) := by
  intro rest
  induction rest with
  | nil => intro run _ h; exact h
  | cons p rest ih =>
    intro run hasym h
    rw [List.foldl_cons]
    apply ih
    · intro a ha b hb
      have hperm : (binaryInsert lt run p ++ rest).Perm (run ++ p :: rest) :=
        (List.Perm.append_right rest (binaryInsert_perm lt run p)).trans
          (by simpa using List.perm_middle.symm)
      exact hasym a (hperm.mem_iff.mp ha) b (hperm.mem_iff.mp hb)
    · apply binaryInsert_chain lt run p _ h
      intro y hy
      exact hasym p (by simp) y (by simp [hy])

/-- The sorted array is a chain for "the second does not come before the
first by the test", as soon as the test never holds both ways. -/
theorem arraySort_chain {α : Type} (lt : α → α → Bool) (l : List α)
    (hasym : ∀ a ∈ l, ∀ b ∈ l, lt a b = true → lt b a = false) :
    (arraySort lt l).Chain' (fun x y => lt y x = false) := by
  obtain ⟨run, d, hl, h1, hch⟩ := countAndMakeRun_eq lt l
  unfold arraySort
  have hmem1 : ∀ x, x ∈ (countAndMakeRun lt l).1 ↔ x ∈ run := by
    intro x
    rw [h1]
    split <;> simp
  apply foldl_binaryInsert_chain
  · intro a ha b hb
    apply hasym
    · rw [hl]
      simpa [hmem1] using ha
    · rw [hl]
      simpa [hmem1] using hb
  · rw [h1]
    cases d
    · simpa using hch
    · simp only [if_true]
      rw [List.chain'_reverse]
      refine (List.Chain'.iff_mem.mp hch).imp ?_
      rintro x y ⟨hx, hy, hxy⟩
      have hx2 : x ∈ l := by rw [hl]; exact List.mem_append_left _ hx
      have hy2 : y ∈ l := by rw [hl]; exact List.mem_append_left _ hy
      exact hasym y hy2 x hx2 hxy

/-- Sorting a sorted array again changes nothing. -/
theorem arraySort_idem {α : Type} (lt : α → α → Bool) (l : List α)
    (hasym : ∀ a ∈ l, ∀ b ∈ l, lt a b = true → lt b a = false) :
    arraySort lt (arraySort lt l) = arraySort lt l :=
  arraySort_of_chain lt _ (arraySort_chain lt l hasym)

/-- One step of the binary insertion on an array sorted by a consistent test:
the array stays sorted, and the pivot lands behind every element that it does
not come before. -/
theorem binaryInsert_sorted {α : Type} (lt : α → α → Bool) (l sorted : List α) (pivot : α)
    (hasym : ∀ a ∈ l, ∀ b ∈ l, lt a b = true → lt b a = false)
    (htrans : ∀ a ∈ l, ∀ b ∈ l, ∀ c ∈ l, lt b a = false → lt c b = false → lt c a = false)
    (hmem : ∀ x ∈ sorted, x ∈ l) (hp : pivot ∈ l)
    (h : sorted.Pairwise (fun x y => lt y x = false)) :
    (binaryInsert lt sorted pivot).Pairwise (fun x y => lt y x = false) ∧
    sorted.Sublist (binaryInsert lt sorted pivot) ∧
    ∀ a ∈ sorted, lt pivot a = false → [a, pivot].Sublist (binaryInsert lt sorted pivot) := by
  obtain ⟨-, h2, h3⟩ := insertionPoint_neighbours lt pivot sorted
  unfold binaryInsert
  simp only
  generalize insertionPoint lt pivot sorted sorted.length 0 sorted.length = i at h2 h3
  have hsplit : sorted.take i ++ sorted.drop i = sorted := List.take_append_drop i sorted
  have hpw := h
  rw [← hsplit, List.pairwise_append] at hpw
  obtain ⟨hpt, hpd, hcross⟩ := hpw
  have hmt : ∀ x ∈ sorted.take i, x ∈ l := fun x hx => hmem x (List.mem_of_mem_take hx)
  have hmd : ∀ x ∈ sorted.drop i, x ∈ l := fun x hx => hmem x (List.mem_of_mem_drop hx)
  -- every element before the insertion point does not come after the pivot
  have hA : ∀ x ∈ sorted.take i, lt pivot x = false := by
    intro x hx
    cases hlast : (sorted.take i).getLast? with
    | none =>
      rw [List.getLast?_eq_none_iff] at hlast
      rw [hlast] at hx
      cases hx
    | some x0 =>
      have hx0 : lt pivot x0 = false := h2 x0 hlast
      have hdl := List.dropLast_append_getLast? x0 hlast
      have hx0m : x0 ∈ sorted.take i := by
        rw [← hdl]
        simp
      rw [← hdl] at hx hpt
      rcases List.mem_append.mp hx with hx | hx
      · have hr : lt x0 x = false :=
          (List.pairwise_append.mp hpt).2.2 x hx x0 (by simp)
        have hxl : x ∈ l := hmt x (by rw [← hdl]; exact List.mem_append_left _ hx)
        exact htrans x hxl x0 (hmt x0 hx0m) pivot hp hr hx0
      · simp only [List.mem_singleton] at hx
        rw [hx]
        exact hx0
  -- every element from the insertion point on comes after the pivot
  have hB : ∀ y ∈ sorted.drop i, lt pivot y = true := by
    intro y hy
    cases hdrop : sorted.drop i with
    | nil =>
      rw [hdrop] at hy
      cases hy
    | cons y0 tail =>
      have hy0 : lt pivot y0 = true := h3 y0 (by rw [hdrop]; rfl)
      rw [hdrop] at hy hpd
      rcases List.mem_cons.mp hy with hy | hy
      · rw [hy]
        exact hy0
      · have hr : lt y y0 = false := (List.pairwise_cons.mp hpd).1 y hy
        by_contra hcon
        have hcon2 : lt pivot y = false := by simpa using hcon
        have hy0l : y0 ∈ l := hmd y0 (by rw [hdrop]; simp)
        have hyl : y ∈ l := hmd y (by rw [hdrop]; exact List.mem_cons_of_mem _ hy)
        have := htrans y0 hy0l y hyl pivot hp hr hcon2
        rw [hy0] at this
        cases this
  refine ⟨?_, ?_, ?_⟩
  · rw [List.pairwise_append]
    refine ⟨hpt, ?_, ?_⟩
    · rw [List.pairwise_cons]
      refine ⟨?_, hpd⟩
      intro y hy
      exact hasym pivot hp y (hmd y hy) (hB y hy)
    · intro a ha b hb
      rcases List.mem_cons.mp hb with hb | hb
      · rw [hb]
        exact hA a ha
      · exact hcross a ha b hb
  · conv_lhs => rw [← hsplit]
    exact List.Sublist.append (List.Sublist.refl _) (List.sublist_cons_self _ _)
  · intro a ha hpa
    have hat : a ∈ sorted.take i := by
      rw [← hsplit] at ha
      rcases List.mem_append.mp ha with ha | ha
      · exact ha
      · have := hB a ha
        rw [hpa] at this
        cases this
    have h1 : [a].Sublist (sorted.take i) := List.singleton_sublist.mpr hat
    have h2 : [pivot].Sublist (pivot :: sorted.drop i) :=
      List.singleton_sublist.mpr (List.mem_cons_self _ _)
    exact List.Sublist.append h1 h2

/-- The binary insertion of the elements of `rest`, one after the other, into
an array that holds the elements of `front` sorted and in stable order. -/
theorem foldl_binaryInsert_sorted {α : Type} (lt : α → α → Bool) (l : List α)
    (hasym : ∀ a ∈ l, ∀ b ∈ l, lt a b = true → lt b a = false)
    (htrans : ∀ a ∈ l, ∀ b ∈ l, ∀ c ∈ l, lt b a = false → lt c b = false → lt c a = false) :
    ∀ (rest front sorted : List α), (∀ x ∈ front ++ rest, x ∈ l) →
      sorted.Perm front →
      sorted.Pairwise (fun x y => lt y x = false) →
      (∀ a b, [a, b].Sublist front → lt b a = false → [a, b].Sublist sorted) →
      (rest.foldl (binaryInsert lt) sorted).Pairwise (fun x y => lt y x = false) ∧
      ∀ a b, [a, b].Sublist (front ++ rest) → lt b a = false →
        [a, b].Sublist (rest.foldl (binaryInsert lt) sorted) := by
  intro rest
  induction rest with
  | nil =>
    intro front sorted _ _ hpw hst
    simpa using ⟨hpw, hst⟩
  | cons p rest ih =>
    intro front sorted hmem hperm hpw hst
    have hp : p ∈ l := hmem p (by simp)
    have hms : ∀ x ∈ sorted, x ∈ l := fun x hx =>
      hmem x (List.mem_append_left _ (hperm.mem_iff.mp hx))
    obtain ⟨h1, h2, h3⟩ := binaryInsert_sorted lt l sorted p hasym htrans hms hp hpw
    rw [List.foldl_cons]
    have hassoc : front ++ p :: rest = (front ++ [p]) ++ rest := by simp
    rw [hassoc]
    apply ih (front ++ [p]) (binaryInsert lt sorted p)
    · rw [← hassoc]
      exact hmem
    · exact (binaryInsert_perm lt sorted p).trans
        ((List.Perm.cons p hperm).trans (by simpa using (List.perm_append_singleton p front).symm))
    · exact h1
    · intro a b hab hr
      obtain ⟨l1, l2, heq, hl1, hl2⟩ := List.sublist_append_iff.mp hab
      rcases List.sublist_singleton.mp hl2 with hl2 | hl2
      · subst hl2
        rw [List.append_nil] at heq
        subst heq
        exact (hst a b hl1 hr).trans h2
      · subst hl2
        have hl1eq : l1 = [a] ∧ b = p := by
          match l1, heq with
          | [], h => simp at h
          | [x], h =>
            simp only [List.singleton_append, List.cons.injEq, and_true] at h
            exact ⟨by rw [h.1], h.2⟩
          | x :: y :: t, h => simp at h
        obtain ⟨h4, h5⟩ := hl1eq
        subst h4 h5
        have ha : a ∈ sorted := hperm.mem_iff.mpr (List.singleton_sublist.mp hl1)
        exact h3 a ha hr

/-- The sort of the engine on a list on which the test is consistent (it never holds
both ways, and "does not come before" is transitive): the result is sorted,
and two elements of which the second does not come before the first keep
their order. -/
theorem arraySort_sorted_stable {α : Type} (lt : α → α → Bool) (l : List α)
    (hasym : ∀ a ∈ l, ∀ b ∈ l, lt a b = true → lt b a = false)
    (htrans : ∀ a ∈ l, ∀ b ∈ l, ∀ c ∈ l, lt b a = false → lt c b = false → lt c a = false) :
    (arraySort lt l).Pairwise (fun x y => lt y x = false) ∧
    ∀ a b, [a, b].Sublist l → lt b a = false → [a, b].Sublist (arraySort lt l) := by
  obtain ⟨run, d, hl, h1, hch⟩ := countAndMakeRun_eq lt l
  have hrunl : ∀ x ∈ run, x ∈ l := by
    intro x hx
    rw [hl]
    exact List.mem_append_left _ hx
  unfold arraySort
  have key := foldl_binaryInsert_sorted lt l hasym htrans (countAndMakeRun lt l).2 run
    (countAndMakeRun lt l).1 (by rw [← hl]; exact fun x hx => hx)
  rw [← hl] at key
  apply key
  · rw [h1]
    split
    · exact List.reverse_perm run
    · exact List.Perm.refl run
  · rw [h1]
    cases d
    · simp only [Bool.false_eq_true, if_false]
      haveI : IsTrans α (fun x y => x ∈ l ∧ y ∈ l ∧ lt y x = false) :=
        ⟨fun a b c hab hbc => ⟨hab.1, hbc.2.1, htrans a hab.1 b hab.2.1 c hbc.2.1 hab.2.2 hbc.2.2⟩⟩
      have hch2 : run.Chain' (fun x y => x ∈ l ∧ y ∈ l ∧ lt y x = false) :=
        (List.Chain'.iff_mem.mp hch).imp (fun x y h => ⟨hrunl x h.1, hrunl y h.2.1, h.2.2⟩)
      exact (List.chain'_iff_pairwise.mp hch2).imp (fun h => h.2.2)
    · simp only [if_true]
      rw [List.pairwise_reverse]
      haveI : IsTrans α (fun x y => x ∈ l ∧ y ∈ l ∧ lt y x = true) := by
        refine ⟨fun a b c hab hbc => ⟨hab.1, hbc.2.1, ?_⟩⟩
        by_contra hcon
        have hca : lt c a = false := by simpa using hcon
        have hab2 : lt a b = false := hasym b hab.2.1 a hab.1 hab.2.2
        have := htrans b hab.2.1 a hab.1 c hbc.2.1 hab2 hca
        rw [hbc.2.2] at this
        cases this
      have hch2 : run.Chain' (fun x y => x ∈ l ∧ y ∈ l ∧ lt y x = true) :=
        (List.Chain'.iff_mem.mp hch).imp (fun x y h => ⟨hrunl x h.1, hrunl y h.2.1, h.2.2⟩)
      exact (List.chain'_iff_pairwise.mp hch2).imp
        (fun h => hasym _ h.2.1 _ h.1 h.2.2)
  · intro a b hab hr
    rw [h1]
    cases d
    · simpa using hab
    · exfalso
      haveI : IsTrans α (fun x y => x ∈ l ∧ y ∈ l ∧ lt y x = true) := by
        refine ⟨fun a b c hab hbc => ⟨hab.1, hbc.2.1, ?_⟩⟩
        by_contra hcon
        have hca : lt c a = false := by simpa using hcon
        have hab2 : lt a b = false := hasym b hab.2.1 a hab.1 hab.2.2
        have := htrans b hab.2.1 a hab.1 c hbc.2.1 hab2 hca
        rw [hbc.2.2] at this
        cases this
      have hch2 : run.Chain' (fun x y => x ∈ l ∧ y ∈ l ∧ lt y x = true) :=
        (List.Chain'.iff_mem.mp hch).imp (fun x y h => ⟨hrunl x h.1, hrunl y h.2.1, h.2.2⟩)
      have hpw := (List.chain'_iff_pairwise.mp hch2).sublist hab
      have := (List.pairwise_cons.mp hpw).1 b (by simp)
      rw [hr] at this
      cases this.2.2

/-! ## Lemmas on `render` -/

theorem sortTasks_perm (env : Env) (key : String) (l : List Task) :
    (sortTasks env key l).Perm l :=
  arraySort_perm _ l

theorem render_store (env : Env) (s : Store) :
    (render env s).store =
      if aliasesStore s then { s with tasks := sortTasks env s.currentSort s.tasks } else s := by
  by_cases hq : s.searchQuery = ""
  · by_cases hc : s.currentCategory = .str "all"
    · by_cases h1 : s.currentFilter = "active"
      · simp [render, getFilteredTasks, aliasesStore, hq, hc, h1]
      · by_cases h2 : s.currentFilter = "completed"
        · simp [render, getFilteredTasks, aliasesStore, hq, hc, h2]
        · by_cases h3 : s.currentFilter = "overdue"
          · simp [render, getFilteredTasks, aliasesStore, hq, hc, h3]
          · simp [render, getFilteredTasks, aliasesStore, hq, hc, h1, h2, h3]
    · simp [render, aliasesStore, hq, hc]
  · cases hf : filterThrowing (searchMatch env s.searchQuery) (getFilteredTasks env s).1 with
    | none => simp [render, aliasesStore, hq, hf]
    | some l =>
      by_cases hc : s.currentCategory = .str "all" <;> simp [render, aliasesStore, hq, hf, hc]

theorem afterRender_tasks_perm (env : Env) (s : Store) :
    (afterRender env s).tasks.Perm s.tasks := by
  unfold afterRender
  rw [render_store]
  split
  · exact sortTasks_perm env s.currentSort s.tasks
  · exact List.Perm.refl _

theorem mem_afterRender (env : Env) (s : Store) (t : Task) :
    t ∈ (afterRender env s).tasks ↔ t ∈ s.tasks :=
  (afterRender_tasks_perm env s).mem_iff

theorem afterRender_settings (env : Env) (s : Store) :
    (afterRender env s).currentFilter = s.currentFilter ∧
    (afterRender env s).currentCategory = s.currentCategory ∧
    (afterRender env s).currentSort = s.currentSort ∧
    (afterRender env s).searchQuery = s.searchQuery ∧
    (afterRender env s).selectedTasks = s.selectedTasks := by
  unfold afterRender
  rw [render_store]
  split <;> simp

theorem afterRender_of_fresh (env : Env) (s : Store) (h : aliasesStore s = false) :
    afterRender env s = s := by
  unfold afterRender
  rw [render_store, h]
  simp

/-! ## Display and ordering -/

/-- C1 (fails on the code): with no status filter, no search query and no
category filter, `render` sorts `this.tasks` itself; on the collection [A low,
B high] shown sorted by priority the store's collection becomes [B, A]. -/
theorem render_sorts_store_in_place (env : Env) :
    (render env { tasks := scenarioTasks, currentSort := "priority" }).store.tasks
      = scenarioTasks.reverse := by
  rfl

/-- Whenever a filter made a fresh array, `render` leaves the store as it is. -/
theorem render_store_of_fresh (env : Env) (s : Store) (h : aliasesStore s = false) :
    (render env s).store = s :=
  afterRender_of_fresh env s h

theorem moveTask_eq {l : List Task} {i : Nat} (j : Nat) (hi : i < l.length) :
    moveTask i j l = (l.eraseIdx i).take j ++ l[i] :: (l.eraseIdx i).drop j := by
  unfold moveTask spliceInsert
  rw [List.getElem?_eq_getElem hi]

/-- Moving a task up (its index is after the target) puts it at the index of
the target, and the target right behind it. -/
theorem moveTask_backward {l : List Task} {i j : Nat} (hji : j < i) (hi : i < l.length) :
    (moveTask i j l)[j]? = l[i]? ∧ (moveTask i j l)[j + 1]? = l[j]? := by
  have hlen : ((l.eraseIdx i).take j).length = j := by
    rw [List.length_take, List.length_eraseIdx_of_lt hi]
    omega
  rw [moveTask_eq j hi]
  constructor
  · rw [List.getElem?_append_right (by omega), hlen, List.getElem?_eq_getElem hi]
    simp
  · rw [List.getElem?_append_right (by omega), hlen]
    have h1 : j + 1 - j = 0 + 1 := by omega
    rw [h1, List.getElem?_cons_succ, List.getElem?_drop,
      List.getElem?_eraseIdx_of_lt _ _ _ (by omega), Nat.add_zero]

/-- Moving a task down (its index is before the target) puts it at the index
the target had, and the target right before it. -/
theorem moveTask_forward {l : List Task} {i j : Nat} (hij : i < j) (hj : j < l.length) :
    (moveTask i j l)[j]? = l[i]? ∧ (moveTask i j l)[j - 1]? = l[j]? := by
  have hi : i < l.length := by omega
  have hlen : ((l.eraseIdx i).take j).length = j := by
    rw [List.length_take, List.length_eraseIdx_of_lt hi]
    omega
  rw [moveTask_eq j hi]
  constructor
  · rw [List.getElem?_append_right (by omega), hlen, List.getElem?_eq_getElem hi]
    simp
  · rw [List.getElem?_append_left (by omega), List.getElem?_take_of_lt (by omega),
      List.getElem?_eraseIdx_of_ge _ _ _ (by omega)]
    congr 1
    omega

/-- C2 (fails on the code): moving a task that stands before the target puts
it right after the target; on [a, b, c], `reorderTask(a, c)` gives [b, c, a]. -/
theorem reorderTask_forward_lands_after (env : Env) :
    (reorderTask env { tasks := threeTasks, currentFilter := "active" }
        (.str "a") (.str "c")).tasks
      = [plainTask "b" "B" "medium", plainTask "c" "C" "medium", plainTask "a" "A" "medium"] := by
  rfl

/-! ## Adding a task -/

/-- C5 (fails on the code): in a view sorted by priority, the task added by
`handleAddTask` with low priority ends behind the task of high priority. -/
theorem handleAddTask_not_at_front (env : Env) :
    (handleAddTask env priorityView lowInput).1.tasks
      = [plainTask "h" "File taxes" "high", newTask env "Buy milk" lowInput] := by
  rfl

/-- When `render` works on a fresh array, the added task is at the front and
the rest of the collection is as before. -/
theorem handleAddTask_front_of_fresh (env : Env) (s : Store) (inp : AddInput)
    (hne : jsTrim inp.text ≠ "") (hlen : jsLength (jsTrim inp.text) ≤ 200)
    (h : aliasesStore s = false) :
    handleAddTask env s inp =
      ({ s with tasks := newTask env (jsTrim inp.text) inp :: s.tasks },
       .ok (newTask env (jsTrim inp.text) inp)) := by
  have hn : ¬ 200 < jsLength (jsTrim inp.text) := Nat.not_lt.mpr hlen
  simp only [handleAddTask, hne, hn, if_false, gt_iff_lt]
  rw [afterRender_of_fresh]
  simpa [aliasesStore] using h

/-- C6: an add whose trimmed text is empty or longer than 200 characters is
rejected with an error message and leaves the store unchanged. -/
theorem handleAddTask_rejects (env : Env) (s : Store) (inp : AddInput)
    (h : jsTrim inp.text = "" ∨ 200 < jsLength (jsTrim inp.text)) :
    ∃ msg, handleAddTask env s inp = (s, .error msg) := by
  unfold handleAddTask
  by_cases he : jsTrim inp.text = ""
  · exact ⟨"Please enter a task description", by simp [he]⟩
  · rcases h with h | h
    · exact absurd h he
    · exact ⟨"Task description is too long (max 200 characters)", by simp [he, h]⟩

set_option maxRecDepth 20000 in
/-- The rejection at a form of blanks and at a form of 201 characters. -/
theorem handleAddTask_rejects_witness :
    (jsTrim blankInput.text = "" ∨ 200 < jsLength (jsTrim blankInput.text)) ∧
    (∃ msg, handleAddTask westHost priorityView blankInput = (priorityView, .error msg)) ∧
    (jsTrim longInput.text = "" ∨ 200 < jsLength (jsTrim longInput.text)) ∧
    (∃ msg, handleAddTask westHost priorityView longInput = (priorityView, .error msg)) :=
  ⟨Or.inl (by decide), handleAddTask_rejects westHost priorityView blankInput (Or.inl (by decide)),
   Or.inr (by decide), handleAddTask_rejects westHost priorityView longInput (Or.inr (by decide))⟩

/-! ## Overdue -/

/-- C8 (fails on the code): five hours west of UTC, at local noon of
2024-03-15, an active task due 2024-03-15 is overdue, although the day of its
due date is the current local day. -/
theorem isOverdue_due_today_west_of_utc :
    isOverdue westHost dueTodayTask = true ∧
    dueTodayTask.completed = false ∧
    westHost.dateOf dueTodayTask.dueDate = some (localDay westHost * msPerDay) := by
  decide

/-- For a due date that reads as the UTC midnight of day `d`, and a local
time that is not behind UTC, `isOverdue` is the comparison of calendar days. -/
theorem isOverdue_iff_of_east (env : Env) (task : Task) (d : Int)
    (hdue : env.dateOf task.dueDate = some (d * msPerDay))
    (h0 : 0 ≤ env.tzOffsetMs) (h1 : env.tzOffsetMs < msPerDay) :
    isOverdue env task = true ↔
      task.completed = false ∧ task.dueDate.truthy = true ∧ d < localDay env := by
  unfold isOverdue
  by_cases hc : task.completed = true
  · simp [hc]
  · by_cases ht : task.dueDate.truthy = true
    · simp only [Bool.not_eq_true] at hc
      simp only [ht, hc, hdue, Bool.not_true, Bool.or_self, Bool.false_eq_true, if_false,
        decide_eq_true_eq, true_and]
      simp only [localMidnight, localDay, msPerDay] at *
      omega
    · simp [ht]

/-- For a due date that reads as the UTC midnight of the current local day,
and a local time behind UTC, an active task is overdue. -/
theorem isOverdue_due_today_of_west (env : Env) (task : Task)
    (hdue : env.dateOf task.dueDate = some (localDay env * msPerDay))
    (htz : env.tzOffsetMs < 0) (hc : task.completed = false)
    (ht : task.dueDate.truthy = true) :
    isOverdue env task = true := by
  unfold isOverdue
  simp only [ht, hc, hdue, Bool.not_true, Bool.or_self, Bool.false_eq_true, if_false,
    decide_eq_true_eq]
  simp only [localMidnight, localDay, msPerDay] at *
  omega

/-- C9: a completed task is never overdue, whatever its due date and
whatever the current date. -/
theorem isOverdue_completed (env : Env) (task : Task) (h : task.completed = true) :
    isOverdue env task = false := by
  simp [isOverdue, h]

/-- A completed task due today, at local noon west of UTC, is not overdue. -/
theorem isOverdue_completed_witness :
    ({ dueTodayTask with completed := true } : Task).completed = true ∧
    isOverdue westHost { dueTodayTask with completed := true } = false :=
  ⟨rfl, isOverdue_completed westHost { dueTodayTask with completed := true } rfl⟩

/-! ## Lemmas on the list operations -/

theorem mem_modifyFirst {p : Task → Bool} {f : Task → Task} {l : List Task} {t : Task}
    (h : t ∈ modifyFirst p f l) : t ∈ l ∨ ∃ u ∈ l, t = f u := by
  induction l with
  | nil => simp [modifyFirst] at h
  | cons a l ih =>
    unfold modifyFirst at h
    split at h
    · rcases List.mem_cons.mp h with h | h
      · exact Or.inr ⟨a, List.mem_cons_self _ _, h⟩
      · exact Or.inl (List.mem_cons_of_mem _ h)
    · rcases List.mem_cons.mp h with h | h
      · exact Or.inl (h ▸ List.mem_cons_self _ _)
      · rcases ih h with h | ⟨u, hu, h⟩
        · exact Or.inl (List.mem_cons_of_mem _ h)
        · exact Or.inr ⟨u, List.mem_cons_of_mem _ hu, h⟩

theorem forall_modifyFirst (P : Task → Prop) {p : Task → Bool} {f : Task → Task}
    {l : List Task} (hl : ∀ t ∈ l, P t) (hf : ∀ t, P t → P (f t)) :
    ∀ t ∈ modifyFirst p f l, P t := by
  intro t ht
  rcases mem_modifyFirst ht with h | ⟨u, hu, h⟩
  · exact hl t h
  · exact h ▸ hf u (hl u hu)

theorem mem_moveTask {i j : Nat} {l : List Task} {t : Task} (h : t ∈ moveTask i j l) :
    t ∈ l := by
  unfold moveTask at h
  split at h
  · exact h
  · rename_i x hx
    unfold spliceInsert at h
    rcases List.mem_append.mp h with h | h
    · exact List.mem_of_mem_eraseIdx (List.mem_of_mem_take h)
    · rcases List.mem_cons.mp h with h | h
      · exact h ▸ List.getElem?_mem hx
      · exact List.mem_of_mem_eraseIdx (List.mem_of_mem_drop h)

/-! ## Completion timestamps -/

theorem forall_bulkComplete (env : Env) (P : Task → Prop)
    (hf : ∀ t, P t → P { t with completed := true, completedAt := .str env.nowISO,
                                updatedAt := .str env.nowISO })
    (ids : List JVal) :
    ∀ acc : List Task × Nat, (∀ t ∈ acc.1, P t) →
      ∀ t ∈ (ids.foldl (bulkCompleteStep env) acc).1, P t := by
  induction ids with
  | nil => intro acc h; simpa using h
  | cons i ids ih =>
    intro acc h
    rw [List.foldl_cons]
    apply ih
    unfold bulkCompleteStep
    split
    · exact h
    · split
      · exact forall_modifyFirst P h hf
      · exact h

theorem forall_bulkIncomplete (env : Env) (P : Task → Prop)
    (hf : ∀ t, P t → P { t with completed := false, completedAt := .null,
                                updatedAt := .str env.nowISO })
    (ids : List JVal) :
    ∀ acc : List Task × Nat, (∀ t ∈ acc.1, P t) →
      ∀ t ∈ (ids.foldl (bulkIncompleteStep env) acc).1, P t := by
  induction ids with
  | nil => intro acc h; simpa using h
  | cons i ids ih =>
    intro acc h
    rw [List.foldl_cons]
    apply ih
    unfold bulkIncompleteStep
    split
    · exact h
    · split
      · exact forall_modifyFirst P h hf
      · exact h

theorem templateTasks_coherent (env : Env) (name : String) (texts : List String) :
    ∀ k, ∀ t ∈ templateTasks env name k texts, completionCoherent t := by
  induction texts with
  | nil => intro k t h; simp [templateTasks] at h
  | cons x xs ih =>
    intro k t h
    unfold templateTasks at h
    rcases List.mem_cons.mp h with h | h
    · subst h; rfl
    · exact ih _ t h

theorem present_orElse_null (v : JVal) : (v.orElse .null).present = v.truthy := by
  cases v with
  | undefined => rfl
  | null => rfl
  | bool b => cases b <;> rfl
  | num n => by_cases h : n = 0 <;> simp [JVal.orElse, JVal.truthy, JVal.present, h]
  | str s => by_cases h : s = "" <;> simp [JVal.orElse, JVal.truthy, JVal.present, h]

theorem importMap_coherent (env : Env) (recs : List (Raw × String × Bool))
    (h : ∀ x ∈ recs, x.1.completedAt.truthy = x.2.2) :
    ∀ k, ∀ t ∈ importMap env k recs, completionCoherent t := by
  induction recs with
  | nil => intro k t ht; simp [importMap] at ht
  | cons x xs ih =>
    intro k t ht
    obtain ⟨r, text, completed⟩ := x
    have hx : r.completedAt.truthy = completed := h (r, text, completed) (List.mem_cons_self _ _)
    have hxs : ∀ y ∈ xs, y.1.completedAt.truthy = y.2.2 :=
      fun y hy => h y (List.mem_cons_of_mem _ hy)
    unfold importMap at ht
    split at ht
    · rcases List.mem_cons.mp ht with ht | ht
      · subst ht
        simp [completionCoherent, fillDefaults, present_orElse_null, hx]
      · exact ih hxs _ t ht
    · rcases List.mem_cons.mp ht with ht | ht
      · subst ht
        simp [completionCoherent, fillDefaults, present_orElse_null, hx]
      · exact ih hxs _ t ht

/-- C3 (as amended): every operation of the store keeps the property that
each task has `completedAt` present iff `completed`, an import under the
condition that each valid incoming record has a truthy `completedAt` exactly
when its `completed` is `true`. -/
theorem step_preserves_completionCoherent (env : Env) (s : Store) (op : Op)
    (hs : ∀ t ∈ s.tasks, completionCoherent t) (hop : importCoherent op) :
    ∀ t ∈ (step env s op).tasks, completionCoherent t := by
  cases op with
  | add inp =>
    intro t ht
    simp only [step, handleAddTask] at ht
    split at ht
    · exact hs t ht
    · split at ht
      · exact hs t ht
      · rw [mem_afterRender] at ht
        rcases List.mem_cons.mp ht with ht | ht
        · subst ht; rfl
        · exact hs t ht
  | toggle taskId =>
    intro t ht
    simp only [step, toggleTask] at ht
    split at ht
    · exact hs t ht
    · rw [mem_afterRender] at ht
      refine forall_modifyFirst completionCoherent hs ?_ t ht
      intro u _
      unfold toggled
      split <;> rfl
  | edit taskId input =>
    intro t ht
    simp only [step, saveEdit] at ht
    split at ht
    · exact hs t ht
    · split at ht
      · exact hs t ht
      · split at ht
        · exact hs t ht
        · rw [mem_afterRender] at ht
          refine forall_modifyFirst completionCoherent hs ?_ t ht
          intro u hu
          exact hu
  | delete taskId =>
    intro t ht
    simp only [step, deleteTask] at ht
    split at ht
    · exact hs t ht
    · rw [mem_afterRender] at ht
      exact hs t (List.mem_of_mem_filter ht)
  | bulk action =>
    intro t ht
    have key : ∀ u ∈ (bulkSwitch env s action).1, completionCoherent u := by
      unfold bulkSwitch
      split
      · exact forall_bulkComplete env completionCoherent (fun _ _ => rfl) _ _ hs
      · split
        · exact forall_bulkIncomplete env completionCoherent (fun _ _ => rfl) _ _ hs
        · split
          · split
            · exact fun u hu => hs u (List.mem_of_mem_filter hu)
            · exact hs
          · exact hs
    simp only [step, bulkAction] at ht
    split at ht
    · exact hs t ht
    · split at ht
      · rw [mem_afterRender] at ht
        exact key t ht
      · exact key t ht
  | clearCompleted =>
    intro t ht
    simp only [step, clearCompleted] at ht
    split at ht
    · exact hs t ht
    · split at ht
      · rw [mem_afterRender] at ht
        exact hs t (List.mem_of_mem_filter ht)
      · exact hs t ht
  | template name =>
    intro t ht
    simp only [step, addTasksFromTemplate] at ht
    split at ht
    · exact hs t ht
    · rw [mem_afterRender] at ht
      rcases List.mem_append.mp ht with ht | ht
      · exact templateTasks_coherent env _ _ _ t ht
      · exact hs t ht
  | importMerge data =>
    intro t ht
    cases data with
    | unparsable => exact hs t ht
    | nullValue => exact hs t ht
    | noTasksArray => exact hs t ht
    | tasks elems =>
      simp only [step, importTasks] at ht
      split at ht
      · exact hs t ht
      · rw [mem_afterRender] at ht
        rcases List.mem_append.mp ht with ht | ht
        · refine importMap_coherent env _ ?_ 0 t (List.mem_of_mem_filter ht)
          intro x hx
          obtain ⟨e, he, hex⟩ := List.mem_filterMap.mp hx
          exact hop e he x.1 x.2.1 x.2.2 hex
        · exact hs t ht
  | reorder a b =>
    intro t ht
    simp only [step, reorderTask] at ht
    split at ht
    · rw [mem_afterRender] at ht
      exact hs t (mem_moveTask ht)
    · exact hs t ht

/-- The invariant across the import of a record completed on 2024-03-14. -/
theorem step_preserves_completionCoherent_witness :
    (∀ t ∈ priorityView.tasks, completionCoherent t) ∧
    importCoherent (.importMerge datedRecordFile) ∧
    ∀ t ∈ (step utcHost priorityView (.importMerge datedRecordFile)).tasks,
      completionCoherent t :=
  have hs : ∀ t ∈ priorityView.tasks, completionCoherent t := by
    intro t ht
    simp only [priorityView, List.mem_singleton] at ht
    subst ht
    rfl
  have hop : importCoherent (.importMerge datedRecordFile) := by
    intro e he r text completed hv
    simp only [List.mem_singleton] at he
    subst he
    simp only [validRecord, Option.some.injEq, Prod.mk.injEq] at hv
    obtain ⟨h1, -, h3⟩ := hv
    subst h1 h3
    rfl
  ⟨hs, hop, step_preserves_completionCoherent utcHost priorityView _ hs hop⟩

/-- C3 (fails on the code): importing a record that is completed and has no
`completedAt` into the store loaded from an empty persisted array gives a
task with `completed = true` and `completedAt = null`. -/
theorem import_completed_without_completedAt :
    Reachable (step utcHost (loadTasks utcHost { tasks := [] } (.array []))
      (.importMerge completedRecordFile)) ∧
    (step utcHost (loadTasks utcHost { tasks := [] } (.array []))
      (.importMerge completedRecordFile)).tasks.map
        (fun t => (t.text, t.completed, t.completedAt))
      = [("Water plants", true, .null)] :=
  ⟨Reachable.step _ _ _ (Reachable.load _ _), by decide⟩

/-! ## Unique ids -/

/-- C4 (fails on the code): importing a file whose two records carry the same
id into an empty store keeps both, so the collection holds the id twice. -/
theorem import_keeps_repeated_id :
    (importTasks utcHost { tasks := [] } repeatedIdFile).2 = .ok 2 ∧
    (importTasks utcHost { tasks := [] } repeatedIdFile).1.tasks.map (fun t => (t.id, t.text))
      = [(.str "n1", "First"), (.str "n1", "Second")] :=
  ⟨rfl, by decide⟩

/-! ## Toggling -/

theorem findTask_eq_some_iff {l : List Task} {taskId : JVal} {t : Task}
    (hn : (l.map (fun u => u.id)).Nodup) :
    findTask l taskId = some t ↔ t ∈ l ∧ t.id = taskId := by
  induction l with
  | nil => simp [findTask]
  | cons a l ih =>
    rw [List.map_cons, List.nodup_cons] at hn
    unfold findTask at ih ⊢
    by_cases ha : a.id = taskId
    · rw [List.find?_cons_of_pos _ (by simpa using ha)]
      constructor
      · intro h
        cases h
        exact ⟨List.mem_cons_self _ _, ha⟩
      · rintro ⟨hm, hid⟩
        rcases List.mem_cons.mp hm with h | h
        · rw [h]
        · exact absurd (List.mem_map.mpr ⟨t, h, hid.trans ha.symm⟩) hn.1
    · rw [List.find?_cons_of_neg _ (by simpa using ha), ih hn.2]
      constructor
      · rintro ⟨hm, hid⟩
        exact ⟨List.mem_cons_of_mem _ hm, hid⟩
      · rintro ⟨hm, hid⟩
        rcases List.mem_cons.mp hm with h | h
        · exact absurd (h ▸ hid) ha
        · exact ⟨h, hid⟩

theorem findTask_perm {l l2 : List Task} (taskId : JVal)
    (hn : (l.map (fun u => u.id)).Nodup) (hp : l2.Perm l) :
    findTask l2 taskId = findTask l taskId := by
  have hn2 : (l2.map (fun u => u.id)).Nodup := (hp.map _).nodup_iff.mpr hn
  cases h : findTask l taskId with
  | some t =>
    rw [findTask_eq_some_iff hn] at h
    rw [findTask_eq_some_iff hn2]
    exact ⟨hp.mem_iff.mpr h.1, h.2⟩
  | none =>
    cases h2 : findTask l2 taskId with
    | none => rfl
    | some t =>
      rw [findTask_eq_some_iff hn2] at h2
      have : findTask l taskId = some t := (findTask_eq_some_iff hn).mpr ⟨hp.mem_iff.mp h2.1, h2.2⟩
      rw [h] at this
      cases this

theorem map_id_modifyFirst (p : Task → Bool) (f : Task → Task) (hf : ∀ t, (f t).id = t.id)
    (l : List Task) :
    (modifyFirst p f l).map (fun u => u.id) = l.map (fun u => u.id) := by
  induction l with
  | nil => rfl
  | cons a l ih =>
    unfold modifyFirst
    split
    · simp [hf]
    · simp [ih]

theorem findTask_modifyFirst (taskId : JVal) (f : Task → Task) (hf : ∀ t, (f t).id = t.id)
    (l : List Task) :
    findTask (modifyFirst (fun t => decide (t.id = taskId)) f l) taskId
      = (findTask l taskId).map f := by
  induction l with
  | nil => rfl
  | cons a l ih =>
    unfold findTask at ih ⊢
    unfold modifyFirst
    by_cases ha : a.id = taskId
    · simp [ha, hf]
    · simp [ha, ih]

theorem toggled_id (env : Env) (t : Task) : (toggled env t).id = t.id := by
  unfold toggled
  split <;> rfl

/-- One call of `toggleTask` on a collection with pairwise distinct ids: the
ids stay pairwise distinct and the task found under the id is the toggled one. -/
theorem toggleTask_spec (env : Env) (s : Store) (taskId : JVal) (t : Task)
    (hn : (s.tasks.map (fun u => u.id)).Nodup) (hfind : findTask s.tasks taskId = some t) :
    ((toggleTask env s taskId).tasks.map (fun u => u.id)).Nodup ∧
    findTask (toggleTask env s taskId).tasks taskId = some (toggled env t) := by
  unfold toggleTask
  rw [hfind]
  simp only
  have hp := afterRender_tasks_perm env
    { s with tasks := modifyFirst (fun t => decide (t.id = taskId)) (toggled env) s.tasks }
  have hn1 : ((modifyFirst (fun t => decide (t.id = taskId)) (toggled env) s.tasks).map
      (fun u => u.id)).Nodup := by
    rw [map_id_modifyFirst _ _ (toggled_id env)]
    exact hn
  refine ⟨(hp.map _).nodup_iff.mpr hn1, ?_⟩
  rw [findTask_perm taskId hn1 hp, findTask_modifyFirst _ _ (toggled_id env), hfind]
  rfl

/-- C7 (as amended): on a collection with pairwise distinct ids, toggling a
task twice returns `completed` to its original value; `completedAt` is `null`
again when the task started active, and is the time of the second toggle when
the task started completed; `updatedAt` is the time of the second toggle and
no other field changes. -/
theorem toggleTask_twice (env1 env2 : Env) (s : Store) (taskId : JVal) (t : Task)
    (hn : (s.tasks.map (fun u => u.id)).Nodup) (hfind : findTask s.tasks taskId = some t) :
    findTask (toggleTask env2 (toggleTask env1 s taskId) taskId).tasks taskId =
      some { t with
        updatedAt := .str env2.nowISO
        completedAt := if t.completed then .str env2.nowISO else .null } := by
  obtain ⟨hn1, h1⟩ := toggleTask_spec env1 s taskId t hn hfind
  obtain ⟨-, h2⟩ := toggleTask_spec env2 _ taskId _ hn1 h1
  rw [h2]
  cases hc : t.completed <;> simp [toggled, hc]

/-- Two toggles of the one task of `doneStore`, five seconds apart. -/
theorem toggleTask_twice_witness :
    (doneStore.tasks.map (fun u => u.id)).Nodup ∧
    findTask doneStore.tasks (.str "t1") = some doneTask ∧
    findTask (toggleTask laterHost (toggleTask utcHost doneStore (.str "t1")) (.str "t1")).tasks
        (.str "t1") =
      some { doneTask with
        updatedAt := .str laterHost.nowISO
        completedAt := if doneTask.completed then .str laterHost.nowISO else .null } :=
  ⟨by decide, by decide,
   toggleTask_twice utcHost laterHost doneStore (.str "t1") doneTask (by decide) (by decide)⟩

/-- C7 (fails on the code): a task completed on 2024-03-14 and toggled twice
on 2024-03-15 is completed again, with `completedAt` the time of the second
toggle instead of its original value. -/
theorem toggleTask_twice_resets_completedAt :
    (findTask doneStore.tasks (.str "t1")).map (fun t => (t.completed, t.completedAt))
      = some (true, .str "2024-03-14T17:00:00.000Z") ∧
    (findTask (toggleTask laterHost (toggleTask utcHost doneStore (.str "t1")) (.str "t1")).tasks
        (.str "t1")).map (fun t => (t.completed, t.completedAt))
      = some (true, .str "2024-03-15T17:00:05.000Z") := by
  decide

/-! ## Export and import -/

theorem orElse_of_truthy {v : JVal} (d : JVal) (h : v.truthy = true) : v.orElse d = v := by
  simp [JVal.orElse, h]

theorem orElse_null_of_nullOrTruthy {v : JVal} (h : nullOrTruthy v = true) :
    v.orElse .null = v := by
  unfold nullOrTruthy at h
  rcases Bool.or_eq_true_iff.mp h with h | h
  · have hv : v = .null := of_decide_eq_true h
    subst hv
    rfl
  · exact orElse_of_truthy _ h

theorem filterMap_validRecord_export (tasks : List Task) :
    (tasks.map (fun t => Elem.record (toRaw t))).filterMap validRecord
      = tasks.map (fun t => (toRaw t, t.text, t.completed)) := by
  induction tasks with
  | nil => rfl
  | cons a l ih =>
    have ha : validRecord (Elem.record (toRaw a)) = some (toRaw a, a.text, a.completed) := rfl
    rw [List.map_cons, List.filterMap_cons, ha, List.map_cons, ih]

theorem importMap_export (env : Env) (tasks : List Task)
    (h : ∀ t ∈ tasks, fullyPopulated t = true) :
    ∀ k, importMap env k (tasks.map (fun t => (toRaw t, t.text, t.completed))) = tasks := by
  induction tasks with
  | nil => intro k; rfl
  | cons a l ih =>
    intro k
    have ha := h a (List.mem_cons_self _ _)
    simp only [fullyPopulated, Bool.and_eq_true] at ha
    obtain ⟨⟨⟨⟨⟨⟨h1, h2⟩, h3⟩, h4⟩, h5⟩, h6⟩, h7⟩ := ha
    have hid : (toRaw a).id.truthy = true := h1
    rw [List.map_cons]
    unfold importMap
    rw [if_pos hid, ih (fun t ht => h t (List.mem_cons_of_mem _ ht)) k]
    congr 1
    simp only [fillDefaults, toRaw, orElse_of_truthy _ h2, orElse_of_truthy _ h3,
      orElse_of_truthy _ h4, orElse_null_of_nullOrTruthy h5, orElse_null_of_nullOrTruthy h6,
      orElse_null_of_nullOrTruthy h7]

/-- C10 (as amended): for a collection in which every task has truthy `id`,
`priority`, `createdAt` and `updatedAt`, and `dueDate`, `category` and
`completedAt` each `null` or truthy, importing the exported tasks into an
empty store yields the same tasks, each with the same field values, up to
their order. -/
theorem export_import_roundtrip (env : Env) (fresh orig : Store)
    (hfresh : fresh.tasks = []) (hpop : ∀ t ∈ orig.tasks, fullyPopulated t = true) :
    (importTasks env fresh (exportTasks orig)).1.tasks.Perm orig.tasks := by
  simp only [importTasks, exportTasks, filterMap_validRecord_export,
    importMap_export env orig.tasks hpop 0]
  split
  · rename_i h0
    rw [hfresh, List.length_eq_zero.mp h0]
  · refine (afterRender_tasks_perm env _).trans ?_
    simp [hfresh]

/-- The round trip of `doneStore`, whose task has all its fields. -/
theorem export_import_roundtrip_witness :
    ({ tasks := [] } : Store).tasks = [] ∧
    (∀ t ∈ doneStore.tasks, fullyPopulated t = true) ∧
    (importTasks laterHost { tasks := [] } (exportTasks doneStore)).1.tasks.Perm doneStore.tasks :=
  ⟨rfl, by decide, export_import_roundtrip laterHost { tasks := [] } doneStore rfl (by decide)⟩

/-- C10 (fails on the code): the sample tasks seeded at a first start have
pairwise distinct ids and carry no `updatedAt`; exported and imported into an
empty store, they come back with `updatedAt` set to the time of the import. -/
theorem export_import_changes_samples :
    (firstStart.tasks.map (fun t => t.id)).Nodup ∧
    firstStart.tasks.map (fun t => (t.text, t.updatedAt))
      = [("Complete project presentation", .undefined),
         ("Reply to important emails", .undefined),
         ("Go for a morning run", .undefined)] ∧
    (importTasks laterHost { tasks := [] } (exportTasks firstStart)).1.tasks.map
        (fun t => (t.text, t.updatedAt))
      = [("Complete project presentation", .str "2024-03-15T17:00:05.000Z"),
         ("Go for a morning run", .str "2024-03-15T17:00:05.000Z"),
         ("Reply to important emails", .str "2024-03-15T17:00:05.000Z")] := by
  decide


/-! ## Statistics -/

theorem roundHalfEven_spec (a b : Nat) (hb : 0 < b) :
    2 * (roundHalfEven a b * b) ≤ 2 * a + b ∧ 2 * a ≤ 2 * (roundHalfEven a b * b) + b := by
  unfold roundHalfEven
  have h1 := Nat.div_add_mod a b
  have h2 := Nat.mod_lt a hb
  generalize a / b = q at h1 ⊢
  generalize a % b = r at h1 h2 ⊢
  have h3 : (q + 1) * b = b * q + b := by ring
  have h4 : q * b = b * q := by ring
  split_ifs <;> constructor <;> omega

theorem scaleFrom_le (a b : Nat) : ∀ fuel k, scaleFrom a b fuel k ≤ k + fuel := by
  intro fuel
  induction fuel with
  | zero => intro k; simp [scaleFrom]
  | succ n ih =>
    intro k
    unfold scaleFrom
    split
    · omega
    · have := ih (k + 1)
      omega

theorem scaleFrom_spec (a b : Nat) :
    ∀ fuel k, (∃ j, k ≤ j ∧ j ≤ k + fuel ∧ 2 ^ 52 * b ≤ a * 2 ^ j) →
      2 ^ 52 * b ≤ a * 2 ^ scaleFrom a b fuel k := by
  intro fuel
  induction fuel with
  | zero =>
    rintro k ⟨j, h1, h2, h3⟩
    have : j = k := by omega
    subst this
    simpa [scaleFrom] using h3
  | succ n ih =>
    rintro k ⟨j, h1, h2, h3⟩
    unfold scaleFrom
    split
    · assumption
    · rename_i hk
      apply ih
      refine ⟨j, ?_, by omega, h3⟩
      by_contra hlt
      have : j = k := by omega
      subst this
      exact hk h3

/-- The relative error of one rounding is at most `2 ^ -53`. -/
theorem ofQuotient_error (a b : Nat) (ha : 0 < a) (hb : 0 < b)
    (hk : ∃ j, j ≤ 1074 ∧ 2 ^ 52 * b ≤ a * 2 ^ j) :
    2 ^ 52 ≤ (Double.ofQuotient a b).sig ∧
    (Double.ofQuotient a b).scale ≤ 1074 ∧
    |((Double.ofQuotient a b).sig : ℚ) / 2 ^ (Double.ofQuotient a b).scale - a / b|
      ≤ (a / b) / 2 ^ 53 := by
  obtain ⟨j, hj, hP⟩ := hk
  have hP' := scaleFrom_spec a b 1074 0 ⟨j, Nat.zero_le _, by omega, hP⟩
  have hle := scaleFrom_le a b 1074 0
  have hne : a ≠ 0 := by omega
  simp only [Double.ofQuotient, hne, if_false]
  generalize scaleFrom a b 1074 0 = k at hP' hle ⊢
  obtain ⟨h1, h2⟩ := roundHalfEven_spec (a * 2 ^ k) b hb
  generalize roundHalfEven (a * 2 ^ k) b = s at h1 h2 ⊢
  have hK : (0 : ℚ) < 2 ^ k := by positivity
  have hbq : (0 : ℚ) < b := by exact_mod_cast hb
  have h1q : (2 : ℚ) * (s * b) ≤ 2 * (a * 2 ^ k) + b := by exact_mod_cast h1
  have h2q : (2 : ℚ) * (a * 2 ^ k) ≤ 2 * (s * b) + b := by exact_mod_cast h2
  have hPq : (2 : ℚ) ^ 52 * b ≤ a * 2 ^ k := by exact_mod_cast hP'
  refine ⟨?_, by omega, ?_⟩
  · -- (2 s + 1) b ≥ 2^53 b
    have h5 : 2 ^ 53 * b ≤ (2 * s + 1) * b := by
      have : (2 * s + 1) * b = 2 * (s * b) + b := by ring
      rw [this]
      have : 2 ^ 53 * b = 2 * (2 ^ 52 * b) := by ring
      rw [this]
      omega
    have := Nat.le_of_mul_le_mul_right h5 hb
    omega
  · have e1 : (s : ℚ) / 2 ^ k - a / b = (s * b - a * 2 ^ k) / (2 ^ k * b) := by
      field_simp
      ring
    have e2 : (a : ℚ) / b / 2 ^ 53 = (a * 2 ^ k / 2 ^ 53) / (2 ^ k * b) := by
      field_simp
      ring
    rw [e1, e2, abs_div, abs_of_pos (mul_pos hK hbq)]
    apply div_le_div_of_nonneg_right _ (le_of_lt (mul_pos hK hbq))
    rw [abs_le]
    have : (2:ℚ) ^ 53 = 2 * 2 ^ 52 := by norm_num
    constructor
    · have : (b : ℚ) / 2 ≤ a * 2 ^ k / 2 ^ 53 := by
        rw [div_le_div_iff₀ (by norm_num) (by positivity)]
        nlinarith
      linarith
    · have : (b : ℚ) / 2 ≤ a * 2 ^ k / 2 ^ 53 := by
        rw [div_le_div_iff₀ (by norm_num) (by positivity)]
        nlinarith
      linarith


/-- The double computed for `(completed / total) * 100` lies within
`201 / 2 ^ 53` of the exact percentage. -/
theorem percentage_error (c t : Nat) (ht : 0 < t) (hct : c ≤ t) (hbound : t < 2 ^ 32) :
    |((percentage c t).sig : ℚ) / 2 ^ (percentage c t).scale - 100 * c / t| ≤ 201 / 2 ^ 53 := by
  have htq : (0 : ℚ) < t := by exact_mod_cast ht
  rcases Nat.eq_zero_or_pos c with hc | hc
  · subst hc
    simp [percentage, Double.mulNat, Double.ofQuotient]
    positivity
  · have hk1 : ∃ j, j ≤ 1074 ∧ 2 ^ 52 * t ≤ c * 2 ^ j := by
      refine ⟨84, by norm_num, ?_⟩
      norm_num at hbound ⊢
      omega
    obtain ⟨hs1, hsc1, he1⟩ := ofQuotient_error c t hc ht hk1
    unfold percentage Double.mulNat
    generalize Double.ofQuotient c t = x1 at hs1 hsc1 he1 ⊢
    have hk2 : ∃ j, j ≤ 1074 ∧ 2 ^ 52 * 2 ^ x1.scale ≤ x1.sig * 100 * 2 ^ j := by
      refine ⟨x1.scale, hsc1, ?_⟩
      apply Nat.mul_le_mul_right
      omega
    have hpos1 : 0 < x1.sig * 100 := by omega
    obtain ⟨-, -, he2⟩ := ofQuotient_error (x1.sig * 100) (2 ^ x1.scale) hpos1 (by positivity) hk2
    generalize Double.ofQuotient (x1.sig * 100) (2 ^ x1.scale) = x2 at he2 ⊢
    push_cast at he2
    have hq1 : (c : ℚ) / t ≤ 1 := by
      rw [div_le_one htq]
      exact_mod_cast hct
    have hq0 : (0 : ℚ) ≤ c / t := by positivity
    have e100 : (x1.sig : ℚ) * 100 / 2 ^ x1.scale = 100 * (x1.sig / 2 ^ x1.scale) := by ring
    have ec : (100 : ℚ) * c / t = 100 * (c / t) := by ring
    rw [e100] at he2
    rw [ec]
    generalize (x1.sig : ℚ) / 2 ^ x1.scale = v1 at he1 he2
    generalize (x2.sig : ℚ) / 2 ^ x2.scale = v2 at he2 ⊢
    generalize (c : ℚ) / t = q at he1 hq1 hq0 ⊢
    rw [abs_le] at he1 he2 ⊢
    obtain ⟨a1, a2⟩ := he1
    obtain ⟨b1, b2⟩ := he2
    have hp : (2 : ℚ) ^ 53 = 9007199254740992 := by norm_num
    rw [hp] at a1 a2 b1 b2 ⊢
    constructor <;> linarith

/-- The nearest-integer property of `Math.round` on the computed percentage:
the result is a nearest integer to the exact percentage. -/
theorem round_percentage (c t : Nat) (ht : 0 < t) (hct : c ≤ t) (hbound : t < 2 ^ 32) :
    2 * ((percentage c t).round * t) ≤ 200 * c + t ∧
    200 * c ≤ 2 * ((percentage c t).round * t) + t := by
  have herr := percentage_error c t ht hct hbound
  unfold Double.round
  generalize percentage c t = x at herr ⊢
  have hKpos : 0 < 2 * 2 ^ x.scale := by positivity
  have h1 := Nat.div_add_mod (2 * x.sig + 2 ^ x.scale) (2 * 2 ^ x.scale)
  have h2 := Nat.mod_lt (2 * x.sig + 2 ^ x.scale) hKpos
  generalize (2 * x.sig + 2 ^ x.scale) / (2 * 2 ^ x.scale) = n at h1 ⊢
  generalize (2 * x.sig + 2 ^ x.scale) % (2 * 2 ^ x.scale) = r at h1 h2
  have htq : (0 : ℚ) < t := by exact_mod_cast ht
  have hK : (0 : ℚ) < 2 ^ x.scale := by positivity
  have h1q : (2 : ℚ) * 2 ^ x.scale * n + r = 2 * x.sig + 2 ^ x.scale := by exact_mod_cast h1
  have h2q : (r : ℚ) < 2 * 2 ^ x.scale := by exact_mod_cast h2
  have hr0 : (0 : ℚ) ≤ r := by positivity
  have hv : (x.sig : ℚ) = (x.sig / 2 ^ x.scale) * 2 ^ x.scale := by
    field_simp
  generalize (x.sig : ℚ) / 2 ^ x.scale = v at herr hv
  rw [hv] at h1q
  -- n ≤ v + 1/2 < n + 1
  have hn1 : (n : ℚ) ≤ v + 1 / 2 := by
    by_contra hcon
    push_neg at hcon
    nlinarith
  have hn2 : v + 1 / 2 < (n : ℚ) + 1 := by
    by_contra hcon
    push_neg at hcon
    nlinarith
  rw [abs_le] at herr
  obtain ⟨e1, e2⟩ := herr
  have hp : (2 : ℚ) ^ 53 = 9007199254740992 := by norm_num
  rw [hp] at e1 e2
  have hcq : (100 : ℚ) * c / t * t = 100 * c := by field_simp
  have htb : (t : ℚ) < 4294967296 := by exact_mod_cast hbound
  constructor
  · have : (2 : ℚ) * (n * t) < 200 * c + t + 1 := by
      have h3 : (n : ℚ) * t ≤ (100 * c / t + 201 / 9007199254740992 + 1 / 2) * t :=
        mul_le_mul_of_nonneg_right (by linarith) (le_of_lt htq)
      have h4 : (100 * (c : ℚ) / t + 201 / 9007199254740992 + 1 / 2) * t
          = 100 * c + (201 / 9007199254740992 + 1 / 2) * t := by
        rw [add_assoc, add_mul, hcq]
      rw [h4] at h3
      linarith
    have : 2 * (n * t) < 200 * c + t + 1 := by exact_mod_cast this
    omega
  · have : (200 : ℚ) * c < 2 * (n * t) + t + 1 := by
      have h3 : (100 * (c : ℚ) / t - 201 / 9007199254740992 - 1 / 2) * t ≤ (n : ℚ) * t :=
        mul_le_mul_of_nonneg_right (by linarith) (le_of_lt htq)
      have h4 : (100 * (c : ℚ) / t - 201 / 9007199254740992 - 1 / 2) * t
          = 100 * c - (201 / 9007199254740992 + 1 / 2) * t := by
        rw [sub_sub, sub_mul, hcq]
      rw [h4] at h3
      linarith
    have : 200 * c < 2 * (n * t) + t + 1 := by exact_mod_cast this
    omega

/-- The integer written by `toFixed(1)` for the computed percentage is a
nearest integer to ten times the exact percentage. -/
theorem tenths_percentage (c t : Nat) (ht : 0 < t) (hct : c ≤ t) (hbound : t < 2 ^ 32) :
    2 * ((percentage c t).tenths * t) ≤ 2000 * c + t ∧
    2000 * c ≤ 2 * ((percentage c t).tenths * t) + t := by
  have herr := percentage_error c t ht hct hbound
  unfold Double.tenths
  generalize percentage c t = x at herr ⊢
  have hKpos : 0 < 2 * 2 ^ x.scale := by positivity
  have h1 := Nat.div_add_mod (20 * x.sig + 2 ^ x.scale) (2 * 2 ^ x.scale)
  have h2 := Nat.mod_lt (20 * x.sig + 2 ^ x.scale) hKpos
  generalize (20 * x.sig + 2 ^ x.scale) / (2 * 2 ^ x.scale) = n at h1 ⊢
  generalize (20 * x.sig + 2 ^ x.scale) % (2 * 2 ^ x.scale) = r at h1 h2
  have htq : (0 : ℚ) < t := by exact_mod_cast ht
  have hK : (0 : ℚ) < 2 ^ x.scale := by positivity
  have h1q : (2 : ℚ) * 2 ^ x.scale * n + r = 20 * x.sig + 2 ^ x.scale := by exact_mod_cast h1
  have h2q : (r : ℚ) < 2 * 2 ^ x.scale := by exact_mod_cast h2
  have hr0 : (0 : ℚ) ≤ r := by positivity
  have hv : (x.sig : ℚ) = (x.sig / 2 ^ x.scale) * 2 ^ x.scale := by
    field_simp
  generalize (x.sig : ℚ) / 2 ^ x.scale = v at herr hv
  rw [hv] at h1q
  have hn1 : (n : ℚ) ≤ 10 * v + 1 / 2 := by
    by_contra hcon
    push_neg at hcon
    nlinarith
  have hn2 : 10 * v + 1 / 2 < (n : ℚ) + 1 := by
    by_contra hcon
    push_neg at hcon
    nlinarith
  rw [abs_le] at herr
  obtain ⟨e1, e2⟩ := herr
  have hp : (2 : ℚ) ^ 53 = 9007199254740992 := by norm_num
  rw [hp] at e1 e2
  have hcq : (100 : ℚ) * c / t * t = 100 * c := by field_simp
  have htb : (t : ℚ) < 4294967296 := by exact_mod_cast hbound
  constructor
  · have : (2 : ℚ) * (n * t) < 2000 * c + t + 1 := by
      have h3 : (n : ℚ) * t ≤ (10 * (100 * c / t) + 2010 / 9007199254740992 + 1 / 2) * t :=
        mul_le_mul_of_nonneg_right (by linarith) (le_of_lt htq)
      have h4 : (10 * (100 * (c : ℚ) / t) + 2010 / 9007199254740992 + 1 / 2) * t
          = 1000 * c + (2010 / 9007199254740992 + 1 / 2) * t := by
        rw [add_assoc, add_mul, mul_assoc, hcq]
        ring
      rw [h4] at h3
      linarith
    have : 2 * (n * t) < 2000 * c + t + 1 := by exact_mod_cast this
    omega
  · have : (2000 : ℚ) * c < 2 * (n * t) + t + 1 := by
      have h3 : (10 * (100 * (c : ℚ) / t) - 2010 / 9007199254740992 - 1 / 2) * t ≤ (n : ℚ) * t :=
        mul_le_mul_of_nonneg_right (by linarith) (le_of_lt htq)
      have h4 : (10 * (100 * (c : ℚ) / t) - 2010 / 9007199254740992 - 1 / 2) * t
          = 1000 * c - (2010 / 9007199254740992 + 1 / 2) * t := by
        rw [sub_sub, sub_mul, mul_assoc, hcq]
        ring
      rw [h4] at h3
      linarith
    have : 2000 * c < 2 * (n * t) + t + 1 := by exact_mod_cast this
    omega

theorem roundDivInt_nearest (a : Int) (b : Nat) (hb : 0 < b) :
    2 * roundDivInt a b * b ≤ 2 * a + b ∧ 2 * a < 2 * roundDivInt a b * b + b := by
  unfold roundDivInt
  have hb2 : (0 : Int) < 2 * b := by omega
  have h1 := Int.ediv_add_emod (2 * a + b) (2 * b)
  have h2 := Int.emod_lt_of_pos (2 * a + b) hb2
  have h3 := Int.emod_nonneg (2 * a + b) (ne_of_gt hb2)
  generalize (2 * a + b) / (2 * (b : Int)) = q at h1 ⊢
  generalize (2 * a + b) % (2 * (b : Int)) = r at h1 h2 h3
  have h4 : 2 * (b : Int) * q = 2 * q * b := by ring
  constructor <;> omega

theorem ceilDiv_spec (a b : Int) (hb : 0 < b) :
    (ceilDiv a b - 1) * b < a ∧ a ≤ ceilDiv a b * b := by
  unfold ceilDiv
  have h1 := Int.ediv_add_emod (-a) b
  have h2 := Int.emod_lt_of_pos (-a) hb
  have h3 := Int.emod_nonneg (-a) (ne_of_gt hb)
  generalize (-a) / b = q at h1 ⊢
  generalize (-a) % b = r at h1 h2 h3
  have h4 : (-q - 1) * b = -(b * q) - b := by ring
  have h5 : -q * b = -(b * q) := by ring
  constructor <;> omega

/-- C21 (fails on the code): for 23 completed tasks out of 40 the rate is
exactly 57.5 per cent, which `Math.round` would take to 58; the double
computed for it lies below, and `getDetailedStats` reports "57%". -/
theorem getDetailedStats_rate_below_tie :
    fortyTasks.length = 40 ∧
    (fortyTasks.filter (fun t => t.completed)).length = 23 ∧
    2 * (100 * 23) = (2 * 57 + 1) * 40 ∧
    (getDetailedStats utcHost { tasks := fortyTasks }).completionRate = "57%" := by
  decide

/-- C21 (as amended): `getDetailedStats` counts the tasks, the completed
tasks, the active tasks as their difference and the overdue tasks; its
completion rate is "0%" for the empty collection and otherwise an integer
nearest to 100 * completed / total, either of the two when the percentage
lies halfway between them, followed by "%"; for three completed tasks out of
four it is "75%".  The collection has fewer than `2 ^ 32` tasks, as every
array has. -/
theorem getDetailedStats_counts (env : Env) (s : Store) (hlen : s.tasks.length < 2 ^ 32) :
    (getDetailedStats env s).total = s.tasks.length ∧
    (getDetailedStats env s).completed = (s.tasks.filter (fun t => t.completed)).length ∧
    (getDetailedStats env s).active =
      (getDetailedStats env s).total - (getDetailedStats env s).completed ∧
    (getDetailedStats env s).overdue = (s.tasks.filter (fun t => isOverdue env t)).length ∧
    (s.tasks = [] → (getDetailedStats env s).completionRate = "0%") ∧
    (s.tasks ≠ [] → ∃ n : Nat,
      (getDetailedStats env s).completionRate = toString n ++ "%" ∧
      2 * (n * s.tasks.length) ≤
        200 * (s.tasks.filter (fun t => t.completed)).length + s.tasks.length ∧
      200 * (s.tasks.filter (fun t => t.completed)).length ≤
        2 * (n * s.tasks.length) + s.tasks.length) ∧
    (getDetailedStats env { tasks := fourTasks }).completionRate = "75%" := by
  refine ⟨rfl, rfl, rfl, rfl, ?_, ?_, rfl⟩
  · intro h
    simp [getDetailedStats, h]
  · intro h
    have hpos : 0 < s.tasks.length := List.length_pos.mpr h
    refine ⟨(percentage (s.tasks.filter (fun t => t.completed)).length s.tasks.length).round,
      ?_, ?_⟩
    · simp [getDetailedStats, hpos]
    · exact round_percentage _ _ hpos (List.length_filter_le _ _) hlen

/-- The statistics of four tasks, three of them completed: the rate is "75%",
and 75 is the integer nearest to 100 * 3 / 4. -/
theorem getDetailedStats_counts_witness :
    fourTasks.length < 2 ^ 32 ∧
    (getDetailedStats utcHost { tasks := fourTasks }).total = 4 ∧
    (getDetailedStats utcHost { tasks := fourTasks }).completed = 3 ∧
    (getDetailedStats utcHost { tasks := fourTasks }).active = 1 ∧
    (getDetailedStats utcHost { tasks := fourTasks }).overdue = 0 ∧
    ∃ n : Nat, (getDetailedStats utcHost { tasks := fourTasks }).completionRate
        = toString n ++ "%" ∧
      2 * (n * 4) ≤ 200 * 3 + 4 ∧ 200 * 3 ≤ 2 * (n * 4) + 4 :=
  have h := getDetailedStats_counts utcHost { tasks := fourTasks } (by decide)
  ⟨by decide, h.1, h.2.1, by decide, by decide, h.2.2.2.2.2.1 (by decide)⟩

/-- C22 (fails on the code): for three completed tasks out of four `getStats`
reports the rate "75.0%", `getDetailedStats` reports "75%". -/
theorem getStats_rate_has_one_decimal :
    (getStats { tasks := fourTasks }).completionRate = "75.0%" ∧
    (getDetailedStats utcHost { tasks := fourTasks }).completionRate = "75%" := by
  decide

/-- C22 (as amended): `getStats` reports the same total, completed and active
counts as `getDetailedStats`; both rates are "0%" for the empty collection;
otherwise the rate of `getStats` is written with one decimal, its tenths an
integer nearest to 1000 * completed / total, either of the two when the
value lies halfway between them.  The collection has fewer than `2 ^ 32`
tasks, as every array has. -/
theorem getStats_agrees_on_counts (env : Env) (s : Store) (hlen : s.tasks.length < 2 ^ 32) :
    (getStats s).total = (getDetailedStats env s).total ∧
    (getStats s).completed = (getDetailedStats env s).completed ∧
    (getStats s).active = (getDetailedStats env s).active ∧
    (s.tasks = [] → (getStats s).completionRate = "0%" ∧
      (getDetailedStats env s).completionRate = "0%") ∧
    (s.tasks ≠ [] → ∃ n : Nat,
      (getStats s).completionRate = toString (n / 10) ++ "." ++ toString (n % 10) ++ "%" ∧
      2 * (n * s.tasks.length) ≤
        2000 * (s.tasks.filter (fun t => t.completed)).length + s.tasks.length ∧
      2000 * (s.tasks.filter (fun t => t.completed)).length ≤
        2 * (n * s.tasks.length) + s.tasks.length) := by
  refine ⟨rfl, rfl, rfl, ?_, ?_⟩
  · intro h
    simp [getStats, getDetailedStats, h]
  · intro h
    have hpos : 0 < s.tasks.length := List.length_pos.mpr h
    refine ⟨(percentage (s.tasks.filter (fun t => t.completed)).length s.tasks.length).tenths,
      ?_, ?_⟩
    · simp [getStats, Double.toFixed1, hpos]
    · exact tenths_percentage _ _ hpos (List.length_filter_le _ _) hlen

/-- The summary of the four tasks, three of them completed: the rate is
written with one decimal, and its tenths are nearest to 1000 * 3 / 4. -/
theorem getStats_agrees_on_counts_witness :
    fourTasks.length < 2 ^ 32 ∧
    (getStats { tasks := fourTasks }).total = 4 ∧
    (getStats { tasks := fourTasks }).completed = 3 ∧
    (getStats { tasks := fourTasks }).active = 1 ∧
    ∃ n : Nat, (getStats { tasks := fourTasks }).completionRate
        = toString (n / 10) ++ "." ++ toString (n % 10) ++ "%" ∧
      2 * (n * 4) ≤ 2000 * 3 + 4 ∧ 2000 * 3 ≤ 2 * (n * 4) + 4 :=
  have h := getStats_agrees_on_counts utcHost { tasks := fourTasks } (by decide)
  ⟨by decide, by decide, by decide, by decide, h.2.2.2.2 (by decide)⟩

theorem sumDays_eq_sum (env : Env) (l : List Task)
    (h : ∀ t ∈ l, (elapsedDays env t).isSome = true) :
    sumDays env l = some ((l.map (fun t => (elapsedDays env t).getD 0)).sum) := by
  induction l with
  | nil => rfl
  | cons a l ih =>
    have ha := h a (List.mem_cons_self _ _)
    obtain ⟨d, hd⟩ := Option.isSome_iff_exists.mp ha
    rw [sumDays, hd, ih (fun t ht => h t (List.mem_cons_of_mem _ ht))]
    simp [hd]

/-- The days counted for one task: the ceiling of the elapsed time in days. -/
theorem elapsedDays_spec (env : Env) (t : Task) (created completed : Int)
    (hc : env.dateOf t.createdAt = some created)
    (hd : env.dateOf t.completedAt = some completed) :
    ∃ days : Int, elapsedDays env t = some days ∧
      (days - 1) * msPerDay < completed - created ∧ completed - created ≤ days * msPerDay := by
  refine ⟨ceilDiv (completed - created) msPerDay, ?_, ceilDiv_spec _ _ (by decide)⟩
  simp [elapsedDays, hc, hd, msPerDay]

/-- C23 (fails on the code): at a first start one sample task is completed,
and the average days-to-completion is absent, since that task carries no
`completedAt`. -/
theorem avgCompletionDays_absent_for_samples :
    (firstStart.tasks.filter (fun t => t.completed)).map (fun t => (t.text, t.completedAt))
      = [("Reply to important emails", .undefined)] ∧
    (getDetailedStats utcHost firstStart).avgCompletionDays = none := by
  decide

/-- C23 (as amended): the average is absent exactly when no task is completed
with a truthy `completedAt`; otherwise, when `createdAt` and `completedAt` of
each such task read as dates, it is a nearest integer (a tie going up) to the
arithmetic mean, over these tasks, of the days counted by `elapsedDays`. -/
theorem avgCompletionDays_spec (env : Env) (s : Store) :
    ((getDetailedStats env s).avgCompletionDays = none ↔ timedTasks s = []) ∧
    (timedTasks s ≠ [] → (∀ t ∈ timedTasks s, (elapsedDays env t).isSome = true) →
      ∃ m : Int, (getDetailedStats env s).avgCompletionDays = some (some m) ∧
        2 * m * (timedTasks s).length ≤
          2 * ((timedTasks s).map (fun t => (elapsedDays env t).getD 0)).sum
            + (timedTasks s).length ∧
        2 * ((timedTasks s).map (fun t => (elapsedDays env t).getD 0)).sum <
          2 * m * (timedTasks s).length + (timedTasks s).length) := by
  constructor
  · unfold getDetailedStats
    by_cases h : timedTasks s = []
    · simp [h]
    · have hpos : 0 < (timedTasks s).length := List.length_pos.mpr h
      simp [h, hpos]
  · intro h hall
    have hpos : 0 < (timedTasks s).length := List.length_pos.mpr h
    refine ⟨roundDivInt ((timedTasks s).map (fun t => (elapsedDays env t).getD 0)).sum
      (timedTasks s).length, ?_, roundDivInt_nearest _ _ hpos⟩
    simp [getDetailedStats, hpos, sumDays_eq_sum env _ hall]

/-- The average for three tasks completed at the time of their creation and
one active task: 0 days. -/
theorem avgCompletionDays_spec_witness :
    timedTasks { tasks := fourTasks } ≠ [] ∧
    (∀ t ∈ timedTasks { tasks := fourTasks }, (elapsedDays utcHost t).isSome = true) ∧
    (getDetailedStats utcHost { tasks := fourTasks }).avgCompletionDays = some (some 0) ∧
    ∃ m : Int, (getDetailedStats utcHost { tasks := fourTasks }).avgCompletionDays
        = some (some m) ∧
      2 * m * (timedTasks { tasks := fourTasks }).length ≤
        2 * ((timedTasks { tasks := fourTasks }).map
          (fun t => (elapsedDays utcHost t).getD 0)).sum
          + (timedTasks { tasks := fourTasks }).length ∧
      2 * ((timedTasks { tasks := fourTasks }).map
          (fun t => (elapsedDays utcHost t).getD 0)).sum <
        2 * m * (timedTasks { tasks := fourTasks }).length
          + (timedTasks { tasks := fourTasks }).length :=
  ⟨by decide, by decide, by decide,
   (avgCompletionDays_spec utcHost { tasks := fourTasks }).2 (by decide) (by decide)⟩

/-! ## Sorting -/

/-- A priority among high, medium and low. -/
theorem priorityOrder_of_known {p : JVal}
    (h : p = .str "high" ∨ p = .str "medium" ∨ p = .str "low") :
    ∃ k, priorityOrder p = some k := by
  rcases h with h | h | h <;> subst h
  · exact ⟨0, rfl⟩
  · exact ⟨1, rfl⟩
  · exact ⟨2, rfl⟩

theorem compareTasks_priority (env : Env) (a b : Task) (i j : Int)
    (ha : priorityOrder a.priority = some i) (hb : priorityOrder b.priority = some j) :
    compareTasks env "priority" a b = i - j := by
  simp [compareTasks, ha, hb, diffOrZero]

/-- In the sort by priority, `b` does not test before `a` exactly when the
rank of `a` is at most the rank of `b`. -/
theorem notBefore_priority (env : Env) (a b : Task) (i j : Int)
    (ha : priorityOrder a.priority = some i) (hb : priorityOrder b.priority = some j) :
    sortsBefore env "priority" b a = false ↔ i ≤ j := by
  unfold sortsBefore
  rw [compareTasks_priority env b a j i hb ha]
  simp

/-- C18: for tasks whose priority is high, medium or low, `sortTasks` with key
"priority" returns a permutation in which no task is followed by a task of
smaller rank (high 0, medium 1, low 2): every high task precedes every medium
task and every medium task precedes every low task. -/
theorem sortTasks_priority (env : Env) (l : List Task)
    (h : ∀ t ∈ l, t.priority = .str "high" ∨ t.priority = .str "medium" ∨
      t.priority = .str "low") :
    (sortTasks env "priority" l).Perm l ∧
    (sortTasks env "priority" l).Pairwise (fun a b =>
      ∀ i j, priorityOrder a.priority = some i → priorityOrder b.priority = some j → i ≤ j) := by
  refine ⟨sortTasks_perm env _ l, ?_⟩
  have hk : ∀ t ∈ l, ∃ k, priorityOrder t.priority = some k :=
    fun t ht => priorityOrder_of_known (h t ht)
  have key := (arraySort_sorted_stable (sortsBefore env "priority") l
    (by
      intro a ha b hb hab
      obtain ⟨i, hi⟩ := hk a ha
      obtain ⟨j, hj⟩ := hk b hb
      rw [notBefore_priority env a b i j hi hj]
      by_contra hcon
      have : sortsBefore env "priority" a b = false :=
        (notBefore_priority env b a j i hj hi).mpr (by omega)
      rw [hab] at this
      cases this)
    (by
      intro a ha b hb c hc hab hbc
      obtain ⟨i, hi⟩ := hk a ha
      obtain ⟨j, hj⟩ := hk b hb
      obtain ⟨k, hk2⟩ := hk c hc
      rw [notBefore_priority env a b i j hi hj] at hab
      rw [notBefore_priority env b c j k hj hk2] at hbc
      rw [notBefore_priority env a c i k hi hk2]
      omega)).1
  refine List.Pairwise.imp ?_ key
  intro a b hab i j hi hj
  exact (notBefore_priority env a b i j hi hj).mp hab

/-- The scenario of C18: [A low, B high] becomes [B, A]. -/
theorem sortTasks_priority_witness :
    (∀ t ∈ scenarioTasks, t.priority = .str "high" ∨ t.priority = .str "medium" ∨
      t.priority = .str "low") ∧
    sortTasks utcHost "priority" scenarioTasks = scenarioTasks.reverse ∧
    (sortTasks utcHost "priority" scenarioTasks).Perm scenarioTasks ∧
    (sortTasks utcHost "priority" scenarioTasks).Pairwise (fun a b =>
      ∀ i j, priorityOrder a.priority = some i → priorityOrder b.priority = some j → i ≤ j) :=
  ⟨by decide, by decide, sortTasks_priority utcHost scenarioTasks (by decide)⟩

/-- The order of the sort by due date, when the due dates present read as
dates: `b` does not test before `a` exactly when a task without due date
does not stand before a task with one, and two tasks with due dates stand by
their dates. -/
theorem notBefore_due (env : Env) (a b : Task)
    (ha : a.dueDate.truthy = true → (env.dateOf a.dueDate).isSome = true)
    (hb : b.dueDate.truthy = true → (env.dateOf b.dueDate).isSome = true) :
    sortsBefore env "due" b a = false ↔
      (b.dueDate.truthy = true → a.dueDate.truthy = true ∧
        (env.dateOf a.dueDate).getD 0 ≤ (env.dateOf b.dueDate).getD 0) := by
  cases hta : a.dueDate.truthy <;> cases htb : b.dueDate.truthy
  · simp [sortsBefore, compareTasks, hta, htb]
  · simp [sortsBefore, compareTasks, hta, htb]
  · simp [sortsBefore, compareTasks, hta, htb]
  · obtain ⟨x, hx⟩ := Option.isSome_iff_exists.mp (ha hta)
    obtain ⟨y, hy⟩ := Option.isSome_iff_exists.mp (hb htb)
    simp [sortsBefore, compareTasks, hta, htb, hx, hy, diffOrZero]

/-- C19 (fails on the code): of three tasks due 2024-03-15, "soon" and
2024-03-14, in this order, none is moved by `sortTasks` with key "due": the
comparison with the unreadable date gives `NaN`, and the task due 2024-03-15
stays before the task due 2024-03-14. -/
theorem sortTasks_due_unreadable_date :
    sortTasks utcHost "due" unreadableDueTasks = unreadableDueTasks ∧
    unreadableDueTasks.map (fun t => (t.dueDate.truthy, utcHost.dateOf t.dueDate))
      = [(true, some 1710460800000), (true, none), (true, some 1710374400000)] := by
  decide

/-- C19 (as amended): for tasks whose due dates, where present, read as
dates, `sortTasks` with key "due" returns a permutation in which every task
with a due date precedes every task without one and the tasks with a due date
stand in non-decreasing order of their dates. -/
theorem sortTasks_due (env : Env) (l : List Task)
    (h : ∀ t ∈ l, t.dueDate.truthy = true → (env.dateOf t.dueDate).isSome = true) :
    (sortTasks env "due" l).Perm l ∧
    (sortTasks env "due" l).Pairwise (fun a b =>
      (b.dueDate.truthy = true → a.dueDate.truthy = true) ∧
      (∀ x y, a.dueDate.truthy = true → b.dueDate.truthy = true →
        env.dateOf a.dueDate = some x → env.dateOf b.dueDate = some y → x ≤ y)) := by
  refine ⟨sortTasks_perm env _ l, ?_⟩
  have htot : ∀ a ∈ l, ∀ b ∈ l, sortsBefore env "due" b a ≠ false →
      sortsBefore env "due" a b = false := by
    intro a ha b hb hab
    rw [Ne, notBefore_due env a b (h a ha) (h b hb)] at hab
    rw [notBefore_due env b a (h b hb) (h a ha)]
    intro hta
    by_cases htb : b.dueDate.truthy = true
    · refine ⟨htb, ?_⟩
      by_contra hlt
      exact hab (fun _ => ⟨hta, by omega⟩)
    · exact absurd (fun hb2 => absurd hb2 htb) hab
  have key := (arraySort_sorted_stable (sortsBefore env "due") l
    (by
      intro a ha b hb hab
      apply htot b hb a ha
      rw [hab]
      simp)
    (by
      intro a ha b hb c hc hab hbc
      rw [notBefore_due env a b (h a ha) (h b hb)] at hab
      rw [notBefore_due env b c (h b hb) (h c hc)] at hbc
      rw [notBefore_due env a c (h a ha) (h c hc)]
      intro htc
      obtain ⟨htb, h1⟩ := hbc htc
      obtain ⟨hta, h2⟩ := hab htb
      exact ⟨hta, le_trans h2 h1⟩)).1
  have hmem : ∀ t ∈ sortTasks env "due" l,
      t.dueDate.truthy = true → (env.dateOf t.dueDate).isSome = true :=
    fun t ht => h t ((sortTasks_perm env _ l).mem_iff.mp ht)
  refine (List.Pairwise.and_mem.mp key).imp ?_
  rintro a b ⟨hma, hmb, hab⟩
  rw [notBefore_due env a b (hmem a hma) (hmem b hmb)] at hab
  refine ⟨fun htb => (hab htb).1, ?_⟩
  intro x y _ htb hx hy
  have := (hab htb).2
  simpa [hx, hy] using this

/-- The sort by due date of a task without due date followed by the task
due 2024-03-15. -/
theorem sortTasks_due_witness :
    (∀ t ∈ [plainTask "a" "A" "low", dueTodayTask],
      t.dueDate.truthy = true → (utcHost.dateOf t.dueDate).isSome = true) ∧
    sortTasks utcHost "due" [plainTask "a" "A" "low", dueTodayTask]
      = [dueTodayTask, plainTask "a" "A" "low"] ∧
    (sortTasks utcHost "due" [plainTask "a" "A" "low", dueTodayTask]).Perm
      [plainTask "a" "A" "low", dueTodayTask] ∧
    (sortTasks utcHost "due" [plainTask "a" "A" "low", dueTodayTask]).Pairwise (fun a b =>
      (b.dueDate.truthy = true → a.dueDate.truthy = true) ∧
      (∀ x y, a.dueDate.truthy = true → b.dueDate.truthy = true →
        utcHost.dateOf a.dueDate = some x → utcHost.dateOf b.dueDate = some y → x ≤ y)) :=
  ⟨by decide, by decide,
   sortTasks_due utcHost [plainTask "a" "A" "low", dueTodayTask] (by decide)⟩

/-- The comparator by priority is consistent on tasks whose priority is high,
medium or low. -/
theorem comparatorConsistent_priority (env : Env) (l : List Task)
    (h : ∀ t ∈ l, t.priority = .str "high" ∨ t.priority = .str "medium" ∨
      t.priority = .str "low") :
    comparatorConsistent env "priority" l := by
  have hk : ∀ t ∈ l, ∃ k, priorityOrder t.priority = some k :=
    fun t ht => priorityOrder_of_known (h t ht)
  constructor
  · intro a ha b hb
    obtain ⟨i, hi⟩ := hk a ha
    obtain ⟨j, hj⟩ := hk b hb
    rw [compareTasks_priority env a b i j hi hj, compareTasks_priority env b a j i hj hi]
    omega
  · intro a ha b hb c hc
    obtain ⟨i, hi⟩ := hk a ha
    obtain ⟨j, hj⟩ := hk b hb
    obtain ⟨k, hk2⟩ := hk c hc
    rw [compareTasks_priority env a b i j hi hj, compareTasks_priority env b c j k hj hk2,
      compareTasks_priority env a c i k hi hk2]
    omega

/-- The comparator by creation time is consistent on tasks whose creation
time reads as a date. -/
theorem comparatorConsistent_created (env : Env) (l : List Task)
    (h : ∀ t ∈ l, (env.dateOf t.createdAt).isSome = true) :
    comparatorConsistent env "created" l := by
  have hc : ∀ a ∈ l, ∀ b ∈ l, ∃ x y, env.dateOf a.createdAt = some x ∧
      env.dateOf b.createdAt = some y ∧ compareTasks env "created" a b = y - x := by
    intro a ha b hb
    obtain ⟨x, hx⟩ := Option.isSome_iff_exists.mp (h a ha)
    obtain ⟨y, hy⟩ := Option.isSome_iff_exists.mp (h b hb)
    refine ⟨x, y, hx, hy, ?_⟩
    simp [compareTasks, hx, hy, diffOrZero]
  constructor
  · intro a ha b hb
    obtain ⟨x, y, hx, hy, e1⟩ := hc a ha b hb
    obtain ⟨y2, x2, hy2, hx2, e2⟩ := hc b hb a ha
    rw [hy] at hy2
    rw [hx] at hx2
    cases hy2
    cases hx2
    rw [e1, e2]
    omega
  · intro a ha b hb c hcm
    obtain ⟨x, y, hx, hy, e1⟩ := hc a ha b hb
    obtain ⟨y2, z, hy2, hz, e2⟩ := hc b hb c hcm
    obtain ⟨x2, z2, hx2, hz2, e3⟩ := hc a ha c hcm
    rw [hy] at hy2
    rw [hx] at hx2
    rw [hz] at hz2
    cases hy2
    cases hx2
    cases hz2
    rw [e1, e2, e3]
    omega

/-- The comparator by due date is consistent on tasks whose due dates, where
present, read as dates. -/
theorem comparatorConsistent_due (env : Env) (l : List Task)
    (h : ∀ t ∈ l, t.dueDate.truthy = true → (env.dateOf t.dueDate).isSome = true) :
    comparatorConsistent env "due" l := by
  have hc : ∀ a ∈ l, ∀ b ∈ l,
      compareTasks env "due" a b =
        if a.dueDate.truthy = false ∧ b.dueDate.truthy = false then 0
        else if a.dueDate.truthy = false then 1
        else if b.dueDate.truthy = false then -1
        else (env.dateOf a.dueDate).getD 0 - (env.dateOf b.dueDate).getD 0 := by
    intro a ha b hb
    cases hta : a.dueDate.truthy <;> cases htb : b.dueDate.truthy
    · simp [compareTasks, hta, htb]
    · simp [compareTasks, hta, htb]
    · simp [compareTasks, hta, htb]
    · obtain ⟨x, hx⟩ := Option.isSome_iff_exists.mp (h a ha hta)
      obtain ⟨y, hy⟩ := Option.isSome_iff_exists.mp (h b hb htb)
      simp [compareTasks, hta, htb, hx, hy, diffOrZero]
  constructor
  · intro a ha b hb
    rw [hc a ha b hb, hc b hb a ha]
    cases a.dueDate.truthy <;> cases b.dueDate.truthy <;> simp
  · intro a ha b hb c hcm
    rw [hc a ha b hb, hc b hb c hcm, hc a ha c hcm]
    cases a.dueDate.truthy <;> cases b.dueDate.truthy <;> cases c.dueDate.truthy <;> simp
    omega

/-- C20 (fails on the code): in the sort by priority of four tasks of
priority medium, high, "urgent" and high, task c ("urgent") and task d
(high) compare equal, the comparator giving `NaN`, and c stands before d in
the input; in the output d stands before c. -/
theorem sortTasks_unstable_on_unknown_priority :
    urgentTasks.map (fun t => t.id) = [.str "a", .str "b", .str "c", .str "d"] ∧
    compareTasks utcHost "priority" (plainTask "c" "C" "urgent") (plainTask "d" "D" "high") = 0 ∧
    [plainTask "c" "C" "urgent", plainTask "d" "D" "high"].Sublist urgentTasks ∧
    (sortTasks utcHost "priority" urgentTasks).map (fun t => t.id)
      = [.str "b", .str "d", .str "a", .str "c"] := by
  decide

/-- C20 (as amended): on a list on which the comparator is consistent,
`sortTasks` is stable for every sort key: two tasks that compare equal and
stand in the input in the order a, b stand in the output in the order a, b. -/
theorem sortTasks_stable (env : Env) (sortKey : String) (l : List Task) (a b : Task)
    (hcons : comparatorConsistent env sortKey l)
    (hab : compareTasks env sortKey a b = 0) (h : [a, b].Sublist l) :
    [a, b].Sublist (sortTasks env sortKey l) := by
  obtain ⟨hanti, htrans⟩ := hcons
  have hnot : ∀ x ∈ l, ∀ y ∈ l,
      (sortsBefore env sortKey y x = false ↔ compareTasks env sortKey x y ≤ 0) := by
    intro x hx y hy
    unfold sortsBefore
    rw [decide_eq_false_iff_not, hanti y hy x hx]
    omega
  have ha : a ∈ l := h.subset (by simp)
  have hb : b ∈ l := h.subset (by simp)
  refine (arraySort_sorted_stable (sortsBefore env sortKey) l ?_ ?_).2 a b h ?_
  · intro x hx y hy hxy
    rw [hnot x hx y hy]
    have : compareTasks env sortKey x y < 0 := by simpa [sortsBefore] using hxy
    omega
  · intro x hx y hy z hz hxy hyz
    rw [hnot x hx y hy] at hxy
    rw [hnot y hy z hz] at hyz
    rw [hnot x hx z hz]
    exact htrans x hx y hy z hz hxy hyz
  · rw [hnot a ha b hb]
    omega

/-- Two tasks of medium priority keep their order in the sort by priority. -/
theorem sortTasks_stable_witness :
    comparatorConsistent utcHost "priority" threeTasks ∧
    compareTasks utcHost "priority" (plainTask "a" "A" "medium") (plainTask "b" "B" "medium") = 0 ∧
    [plainTask "a" "A" "medium", plainTask "b" "B" "medium"].Sublist threeTasks ∧
    [plainTask "a" "A" "medium", plainTask "b" "B" "medium"].Sublist
      (sortTasks utcHost "priority" threeTasks) :=
  have hcons : comparatorConsistent utcHost "priority" threeTasks :=
    comparatorConsistent_priority utcHost threeTasks (by decide)
  ⟨hcons, by decide, by decide,
   sortTasks_stable utcHost "priority" threeTasks _ _ hcons (by decide) (by decide)⟩

/-! ## Loading -/

theorem wellFormed_some (e : Elem) (t : Task) (h : wellFormed e = some t) :
    ∃ r i, e = .record r ∧ r.id = .str i ∧ r.text = .str t.text ∧
      r.completed = .bool t.completed ∧ t.id = r.id ∧ t.priority = r.priority ∧
      t.dueDate = r.dueDate ∧ t.category = r.category ∧ t.completedAt = r.completedAt ∧
      t.createdAt = r.createdAt ∧ t.updatedAt = r.updatedAt ∧ t.extra = r.extra := by
  cases e with
  | other v => simp [wellFormed] at h
  | record r =>
    cases hid : r.id <;> cases htext : r.text <;> cases hcompleted : r.completed <;>
      simp [wellFormed, hid, htext, hcompleted] at h
    subst h
    exact ⟨r, _, rfl, hid, by simp [htext], by simp [hcompleted], by simp [hid],
      rfl, rfl, rfl, rfl, rfl, rfl, rfl⟩

/-- C16 (fails on the code): a persisted empty array, and a persisted array of
malformed elements only, leave the collection empty; the sample tasks are not
seeded. -/
theorem loadTasks_empty_array_stays_empty :
    (loadTasks utcHost { tasks := [] } (.array [])).tasks = [] ∧
    (loadTasks utcHost { tasks := [] } malformedArray).tasks = [] := by
  decide

/-- C16 (as amended): `loadTasks` is total; on a persisted array the collection
becomes the well-formed elements (string `id`, string `text`, boolean
`completed`) in their order, kept as they are, also when none is left; on a
persisted value that does not parse or is no array the collection becomes the
three sample tasks. -/
theorem loadTasks_spec (env : Env) (s : Store) :
    (∀ elems, (loadTasks env s (.array elems)).tasks = elems.filterMap wellFormed) ∧
    (∀ elems, ∀ t ∈ (loadTasks env s (.array elems)).tasks,
      ∃ r i, Elem.record r ∈ elems ∧ r.id = .str i ∧ r.text = .str t.text ∧
        r.completed = .bool t.completed) ∧
    (loadTasks env s .broken).tasks = (addSampleTasks env s).tasks ∧
    ((loadTasks env s .broken).tasks.map (fun t => t.text))
      = ["Complete project presentation", "Reply to important emails",
         "Go for a morning run"] := by
  refine ⟨fun _ => rfl, ?_, rfl, rfl⟩
  intro elems t ht
  obtain ⟨e, he, hwf⟩ := List.mem_filterMap.mp ht
  obtain ⟨r, i, hr, hid, htext, hcompleted, -⟩ := wellFormed_some e t hwf
  exact ⟨r, i, hr ▸ he, hid, htext, hcompleted⟩

/-! ## Text validity -/

theorem templateTasks_forall (env : Env) (name : String) (P : Task → Prop)
    (hP : ∀ t : Task, (t.text ≠ "" ∧ jsLength t.text ≤ 200) → P t) (texts : List String)
    (h : ∀ x ∈ texts, x ≠ "" ∧ jsLength x ≤ 200) :
    ∀ k, ∀ t ∈ templateTasks env name k texts, P t := by
  induction texts with
  | nil => intro k t ht; simp [templateTasks] at ht
  | cons x xs ih =>
    intro k t ht
    unfold templateTasks at ht
    rcases List.mem_cons.mp ht with ht | ht
    · subst ht
      exact hP _ (h x (List.mem_cons_self _ _))
    · exact ih (fun y hy => h y (List.mem_cons_of_mem _ hy)) _ t ht

set_option maxRecDepth 20000 in
theorem templates_textValid :
    ∀ tpl ∈ templates, ∀ x ∈ tpl.tasks, x ≠ "" ∧ jsLength x ≤ 200 := by
  decide

theorem importMap_textValid (env : Env) (recs : List (Raw × String × Bool))
    (h : ∀ x ∈ recs, x.2.1 ≠ "" ∧ jsLength x.2.1 ≤ 200) :
    ∀ k, ∀ t ∈ importMap env k recs, textValid t := by
  induction recs with
  | nil => intro k t ht; simp [importMap] at ht
  | cons x xs ih =>
    intro k t ht
    obtain ⟨r, text, completed⟩ := x
    have hx := h (r, text, completed) (List.mem_cons_self _ _)
    have hxs : ∀ y ∈ xs, y.2.1 ≠ "" ∧ jsLength y.2.1 ≤ 200 :=
      fun y hy => h y (List.mem_cons_of_mem _ hy)
    unfold importMap at ht
    split at ht
    · rcases List.mem_cons.mp ht with ht | ht
      · subst ht
        exact hx
      · exact ih hxs _ t ht
    · rcases List.mem_cons.mp ht with ht | ht
      · subst ht
        exact hx
      · exact ih hxs _ t ht

/-- C17 (fails on the code): importing a record whose text is the empty string
puts a task with empty text into the collection. -/
theorem import_accepts_empty_text :
    (importTasks utcHost { tasks := [] } emptyTextFile).1.tasks.map (fun t => (t.id, t.text))
      = [(.str "n1", "")] := by
  decide

/-- C17 (as amended): every operation of the store keeps the property that
each task has a text that is not empty and has at most 200 characters; for an
incoming file this holds under the condition that each valid record of the
file has such a text. -/
theorem step_preserves_textValid (env : Env) (s : Store) (op : Op)
    (hs : ∀ t ∈ s.tasks, textValid t) (hop : importTextValid op) :
    ∀ t ∈ (step env s op).tasks, textValid t := by
  cases op with
  | add inp =>
    intro t ht
    simp only [step, handleAddTask] at ht
    split at ht
    · exact hs t ht
    · rename_i hne
      split at ht
      · exact hs t ht
      · rename_i hlen
        rw [mem_afterRender] at ht
        rcases List.mem_cons.mp ht with ht | ht
        · subst ht
          exact ⟨hne, Nat.not_lt.mp hlen⟩
        · exact hs t ht
  | toggle taskId =>
    intro t ht
    simp only [step, toggleTask] at ht
    split at ht
    · exact hs t ht
    · rw [mem_afterRender] at ht
      refine forall_modifyFirst textValid hs ?_ t ht
      intro u hu
      unfold toggled
      split <;> exact hu
  | edit taskId input =>
    intro t ht
    simp only [step, saveEdit] at ht
    split at ht
    · exact hs t ht
    · rename_i hne
      split at ht
      · exact hs t ht
      · rename_i hlen
        split at ht
        · exact hs t ht
        · rw [mem_afterRender] at ht
          refine forall_modifyFirst textValid hs ?_ t ht
          intro u _
          exact ⟨hne, Nat.not_lt.mp hlen⟩
  | delete taskId =>
    intro t ht
    simp only [step, deleteTask] at ht
    split at ht
    · exact hs t ht
    · rw [mem_afterRender] at ht
      exact hs t (List.mem_of_mem_filter ht)
  | bulk action =>
    intro t ht
    have key : ∀ u ∈ (bulkSwitch env s action).1, textValid u := by
      unfold bulkSwitch
      split
      · exact forall_bulkComplete env textValid (fun _ h => h) _ _ hs
      · split
        · exact forall_bulkIncomplete env textValid (fun _ h => h) _ _ hs
        · split
          · split
            · exact fun u hu => hs u (List.mem_of_mem_filter hu)
            · exact hs
          · exact hs
    simp only [step, bulkAction] at ht
    split at ht
    · exact hs t ht
    · split at ht
      · rw [mem_afterRender] at ht
        exact key t ht
      · exact key t ht
  | clearCompleted =>
    intro t ht
    simp only [step, clearCompleted] at ht
    split at ht
    · exact hs t ht
    · split at ht
      · rw [mem_afterRender] at ht
        exact hs t (List.mem_of_mem_filter ht)
      · exact hs t ht
  | template name =>
    intro t ht
    simp only [step, addTasksFromTemplate] at ht
    split at ht
    · exact hs t ht
    · rename_i tpl hfind
      rw [mem_afterRender] at ht
      rcases List.mem_append.mp ht with ht | ht
      · exact templateTasks_forall env _ textValid (fun _ h => h) _
          (templates_textValid tpl (List.mem_of_find?_eq_some hfind)) _ t ht
      · exact hs t ht
  | importMerge data =>
    intro t ht
    cases data with
    | unparsable => exact hs t ht
    | nullValue => exact hs t ht
    | noTasksArray => exact hs t ht
    | tasks elems =>
      simp only [step, importTasks] at ht
      split at ht
      · exact hs t ht
      · rw [mem_afterRender] at ht
        rcases List.mem_append.mp ht with ht | ht
        · refine importMap_textValid env _ ?_ 0 t (List.mem_of_mem_filter ht)
          intro x hx
          obtain ⟨e, he, hex⟩ := List.mem_filterMap.mp hx
          exact hop e he x.1 x.2.1 x.2.2 hex
        · exact hs t ht
  | reorder a b =>
    intro t ht
    simp only [step, reorderTask] at ht
    split at ht
    · rw [mem_afterRender] at ht
      exact hs t (mem_moveTask ht)
    · exact hs t ht

/-- The text invariant across the add of "Buy milk". -/
theorem step_preserves_textValid_witness :
    (∀ t ∈ priorityView.tasks, textValid t) ∧
    importTextValid (.add lowInput) ∧
    ∀ t ∈ (step utcHost priorityView (.add lowInput)).tasks, textValid t :=
  have hs : ∀ t ∈ priorityView.tasks, textValid t := by
    intro t ht
    simp only [priorityView, List.mem_singleton] at ht
    subst ht
    exact ⟨by decide, by decide⟩
  ⟨hs, trivial, step_preserves_textValid utcHost priorityView _ hs trivial⟩

/-! ## Import -/

theorem importMap_length (env : Env) (recs : List (Raw × String × Bool)) :
    ∀ k, (importMap env k recs).length = recs.length := by
  induction recs with
  | nil => intro k; rfl
  | cons x xs ih =>
    intro k
    obtain ⟨r, text, completed⟩ := x
    unfold importMap
    split <;> simp [ih]

theorem mapThrowing_createTaskHtml :
    ∀ l : List Task, (∀ t ∈ l, priorityIsText t) → mapThrowing createTaskHtml l = some l := by
  intro l
  induction l with
  | nil => intro _; rfl
  | cons a l ih =>
    intro h
    obtain ⟨p, hp⟩ := h a (List.mem_cons_self _ _)
    have ha : createTaskHtml a = some a := by
      unfold createTaskHtml
      rw [hp]
    unfold mapThrowing
    rw [ha, ih (fun t ht => h t (List.mem_cons_of_mem _ ht))]

theorem searchMatch_isSome (env : Env) (sq : String) (t : Task) (h : categoryIsText t) :
    ∃ b, searchMatch env sq t = some b := by
  unfold searchMatch
  split
  · exact ⟨true, rfl⟩
  · cases hcat : t.category with
    | str c => by_cases hc : c = "" <;> simp [hc]
    | undefined => simp [JVal.truthy]
    | null => simp [JVal.truthy]
    | bool b =>
      cases b
      · simp [JVal.truthy]
      · obtain ⟨c, hc⟩ := h (by simp [hcat, JVal.truthy])
        rw [hcat] at hc
        cases hc
    | num n =>
      by_cases hn : n = 0
      · simp [JVal.truthy, hn]
      · obtain ⟨c, hc⟩ := h (by simp [hcat, JVal.truthy, hn])
        rw [hcat] at hc
        cases hc

theorem filterThrowing_searchMatch (env : Env) (sq : String) :
    ∀ l : List Task, (∀ t ∈ l, categoryIsText t) →
      ∃ r, filterThrowing (searchMatch env sq) l = some r ∧ ∀ t ∈ r, t ∈ l := by
  intro l
  induction l with
  | nil => intro _; exact ⟨[], rfl, fun t ht => ht⟩
  | cons a l ih =>
    intro h
    obtain ⟨b, hb⟩ := searchMatch_isSome env sq a (h a (List.mem_cons_self _ _))
    obtain ⟨r, hr, hsub⟩ := ih (fun t ht => h t (List.mem_cons_of_mem _ ht))
    unfold filterThrowing
    rw [hb, hr]
    cases b
    · exact ⟨r, rfl, fun t ht => List.mem_cons_of_mem _ (hsub t ht)⟩
    · refine ⟨a :: r, rfl, ?_⟩
      intro t ht
      rcases List.mem_cons.mp ht with ht | ht
      · exact ht ▸ List.mem_cons_self _ _
      · exact List.mem_cons_of_mem _ (hsub t ht)

theorem mem_getFilteredTasks (env : Env) (s : Store) (t : Task)
    (h : t ∈ (getFilteredTasks env s).1) : t ∈ s.tasks := by
  unfold getFilteredTasks at h
  split_ifs at h
  · exact List.mem_of_mem_filter h
  · exact List.mem_of_mem_filter h
  · exact List.mem_of_mem_filter h
  · exact h

/-- The call of `render` returns when every priority is a string and, in case
a search is active, every category is a string or absent. -/
theorem render_view_isSome (env : Env) (s : Store)
    (hprio : ∀ t ∈ s.tasks, priorityIsText t)
    (hcat : s.searchQuery = "" ∨ ∀ t ∈ s.tasks, categoryIsText t) :
    ∃ v, (render env s).view = some v := by
  have hmap : ∀ l : List Task, (∀ t ∈ l, t ∈ s.tasks) →
      mapThrowing createTaskHtml (sortTasks env s.currentSort l)
        = some (sortTasks env s.currentSort l) := by
    intro l hl
    apply mapThrowing_createTaskHtml
    intro t ht
    exact hprio t (hl t ((sortTasks_perm env _ l).mem_iff.mp ht))
  have hbase := mem_getFilteredTasks env s
  by_cases hs : s.searchQuery = ""
  · by_cases hc : s.currentCategory = .str "all"
    · refine ⟨sortTasks env s.currentSort (getFilteredTasks env s).1, ?_⟩
      simp only [render, hs, hc, ne_eq, not_true_eq_false, if_false]
      exact hmap _ hbase
    · refine ⟨sortTasks env s.currentSort
        ((getFilteredTasks env s).1.filter (fun t => t.category = s.currentCategory)), ?_⟩
      simp only [render, hs, hc, ne_eq, not_true_eq_false, not_false_eq_true, if_false,
        if_true]
      exact hmap _ (fun t ht => hbase t (List.mem_of_mem_filter ht))
  · have hcat2 : ∀ t ∈ s.tasks, categoryIsText t := hcat.resolve_left hs
    obtain ⟨r, hr, hsub⟩ := filterThrowing_searchMatch env s.searchQuery
      (getFilteredTasks env s).1 (fun t ht => hcat2 t (hbase t ht))
    by_cases hc : s.currentCategory = .str "all"
    · refine ⟨sortTasks env s.currentSort r, ?_⟩
      simp only [render, hs, hc, hr, ne_eq, not_true_eq_false, not_false_eq_true, if_false,
        if_true, Option.map_some']
      exact hmap _ (fun t ht => hbase t (hsub t ht))
    · refine ⟨sortTasks env s.currentSort
        (r.filter (fun t => t.category = s.currentCategory)), ?_⟩
      simp only [render, hs, hc, hr, ne_eq, not_false_eq_true, if_true, Option.map_some']
      exact hmap _ (fun t ht => hbase t (hsub t (List.mem_of_mem_filter ht)))

/-- The result of `importTasks` on a file with an array `tasks`. -/
theorem importTasks_tasks (env : Env) (s : Store) (elems : List Elem) :
    (elems.filterMap validRecord = [] →
      importTasks env s (.tasks elems) = (s, .error .noValidTasks)) ∧
    (elems.filterMap validRecord ≠ [] →
      (importTasks env s (.tasks elems)).1 =
        afterRender env { s with tasks := importedTasks env s elems ++ s.tasks } ∧
      (importTasks env s (.tasks elems)).2 =
        match (render env { s with tasks := importedTasks env s elems ++ s.tasks }).view with
        | some _ => .ok (importedTasks env s elems).length
        | none => .error .renderTypeError) := by
  constructor
  · intro h
    simp [importTasks, h, importMap]
  · intro h
    have hlen : (importMap env 0 (elems.filterMap validRecord)).length ≠ 0 := by
      rw [importMap_length]
      exact fun h0 => h (List.length_eq_zero.mp h0)
    simp only [importTasks, hlen, if_false, importedTasks]
    exact ⟨trivial, trivial⟩

/-- C11 (fails on the code): in a view sorted by priority that holds a task of
high priority, the import of one record of low priority reports one imported
task and leaves the collection as [h, n1]: the imported record is not in
front, the previous collection is not the rest. -/
theorem import_not_in_front :
    (importTasks utcHost priorityView lowRecordFile).2 = .ok 1 ∧
    (importTasks utcHost priorityView lowRecordFile).1.tasks.map (fun t => (t.id, t.priority))
      = [(.str "h", .str "high"), (.str "n1", .str "low")] :=
  ⟨rfl, by decide⟩

/-- When `render` works on a fresh array, an import with a valid record leaves
the imported records, in the order of the file, in front of the previous
collection, and a reported count is their number. -/
theorem importTasks_of_fresh (env : Env) (s : Store) (elems : List Elem)
    (hvalid : elems.filterMap validRecord ≠ []) (hfresh : aliasesStore s = false) :
    (importTasks env s (.tasks elems)).1 =
      { s with tasks := importedTasks env s elems ++ s.tasks } ∧
    ∀ n, (importTasks env s (.tasks elems)).2 = .ok n → n = (importedTasks env s elems).length := by
  obtain ⟨h1, h2⟩ := (importTasks_tasks env s elems).2 hvalid
  refine ⟨?_, ?_⟩
  · rw [h1, afterRender_of_fresh]
    simpa [aliasesStore] using hfresh
  · intro n hn
    rw [h2] at hn
    split at hn
    · cases hn
      rfl
    · cases hn

/-- C12 (fails on the code): while the search box holds "milk", the import of
a valid record whose category is the number 5 merges the record and then
reports a failure, the `TypeError` raised by `render`; so does, without any
search, the import of a valid record whose priority is the number 5. -/
theorem import_reports_failure_after_merge :
    (importTasks utcHost searchingStore numericCategoryFile).2 = .error .renderTypeError ∧
    (importTasks utcHost searchingStore numericCategoryFile).1.tasks.map
        (fun t => (t.id, t.text, t.category))
      = [(.str "n1", "Pay rent", .num 5)] ∧
    (importTasks utcHost { tasks := [] } numericPriorityFile).2 = .error .renderTypeError ∧
    (importTasks utcHost { tasks := [] } numericPriorityFile).1.tasks.map
        (fun t => (t.id, t.text, t.priority))
      = [(.str "n1", "Pay rent", .num 5)] :=
  ⟨rfl, by decide, rfl, by decide⟩

/-- C12 (as amended): `importTasks` fails and leaves the store unchanged when
the file does not parse (`SyntaxError`), parses to `null` (`TypeError`), has
no array `tasks` (invalid file format) or holds no valid record (no valid
tasks); in every other case the records are merged, and the import reports
their number unless the call of `render` that follows raises; it does not
raise when every task of the merged collection has a string as priority and,
in case a search is active, a category that is a string or absent. -/
theorem importTasks_outcome (env : Env) (s : Store) :
    importTasks env s .unparsable = (s, .error .syntaxError) ∧
    importTasks env s .nullValue = (s, .error .typeError) ∧
    importTasks env s .noTasksArray = (s, .error .invalidFileFormat) ∧
    (∀ elems, elems.filterMap validRecord = [] →
      importTasks env s (.tasks elems) = (s, .error .noValidTasks)) ∧
    (∀ elems, elems.filterMap validRecord ≠ [] →
      (importTasks env s (.tasks elems)).1.tasks.Perm (importedTasks env s elems ++ s.tasks) ∧
      ((importTasks env s (.tasks elems)).2 = .ok (importedTasks env s elems).length ∨
       (importTasks env s (.tasks elems)).2 = .error .renderTypeError) ∧
      ((∀ t ∈ importedTasks env s elems ++ s.tasks, priorityIsText t) →
        (s.searchQuery = "" ∨ ∀ t ∈ importedTasks env s elems ++ s.tasks, categoryIsText t) →
        (importTasks env s (.tasks elems)).2 = .ok (importedTasks env s elems).length)) := by
  refine ⟨rfl, rfl, rfl, fun elems => (importTasks_tasks env s elems).1, ?_⟩
  intro elems hvalid
  obtain ⟨h1, h2⟩ := (importTasks_tasks env s elems).2 hvalid
  refine ⟨?_, ?_, ?_⟩
  · rw [h1]
    exact afterRender_tasks_perm env _
  · rw [h2]
    split
    · exact Or.inl rfl
    · exact Or.inr rfl
  · intro hprio hcat
    rw [h2]
    obtain ⟨v, hv⟩ := render_view_isSome env
      { s with tasks := importedTasks env s elems ++ s.tasks } hprio hcat
    rw [hv]

/-- The import of the file with one record of low priority, into the store
that holds one task of high priority and shows all tasks, reports one
imported task: every priority is a string and no search is active. -/
theorem importTasks_outcome_witness :
    (∀ t ∈ importedTasks utcHost priorityView
        [.record { id := .str "n1", text := .str "Buy milk", completed := .bool false,
                   priority := .str "low" }] ++ priorityView.tasks, priorityIsText t) ∧
    priorityView.searchQuery = "" ∧
    (importTasks utcHost priorityView lowRecordFile).2 = .ok 1 :=
  have hprio : ∀ t ∈ importedTasks utcHost priorityView
      [.record { id := .str "n1", text := .str "Buy milk", completed := .bool false,
                 priority := .str "low" }] ++ priorityView.tasks, priorityIsText t := by
    intro t ht
    have hlist : importedTasks utcHost priorityView
        [.record { id := .str "n1", text := .str "Buy milk", completed := .bool false,
                   priority := .str "low" }] ++ priorityView.tasks
        = [fillDefaults utcHost (.str "n1")
            { id := .str "n1", text := .str "Buy milk", completed := .bool false,
              priority := .str "low" } "Buy milk" false,
           plainTask "h" "File taxes" "high"] := by decide
    rw [hlist] at ht
    simp only [List.mem_cons, List.mem_singleton, List.not_mem_nil, or_false] at ht
    rcases ht with ht | ht <;> subst ht <;> exact ⟨_, rfl⟩
  ⟨hprio, rfl,
   ((importTasks_outcome utcHost priorityView).2.2.2.2 _ (by decide)).2.2 hprio (Or.inl rfl)⟩

/-! ## Sorting twice -/

theorem diffOrZero_asymm (x y : Option Int) (h : diffOrZero x y < 0) :
    ¬ diffOrZero y x < 0 := by
  cases x <;> cases y <;> simp [diffOrZero] at h ⊢
  omega

/-- The test of the sort never holds both ways, as soon as that of
`localeCompare` does not. -/
theorem sortsBefore_asymm (env : Env) (sortKey : String)
    (hloc : ∀ a b, env.localeCompare a b < 0 → ¬ env.localeCompare b a < 0)
    (a b : Task) (h : sortsBefore env sortKey a b = true) :
    sortsBefore env sortKey b a = false := by
  unfold sortsBefore at *
  rw [decide_eq_true_iff] at h
  rw [decide_eq_false_iff_not]
  unfold compareTasks at *
  by_cases h1 : sortKey = "due"
  · simp only [h1, if_true] at h ⊢
    cases hta : a.dueDate.truthy <;> cases htb : b.dueDate.truthy <;>
      simp [hta, htb] at h ⊢
    exact not_lt.mp (diffOrZero_asymm _ _ h)
  · by_cases h2 : sortKey = "priority"
    · simp only [h1, h2, if_true, if_false] at h ⊢
      exact diffOrZero_asymm _ _ h
    · by_cases h3 : sortKey = "alphabetical"
      · simp only [h1, h2, h3, if_true, if_false] at h ⊢
        exact hloc _ _ h
      · simp only [h1, h2, h3, if_false] at h ⊢
        exact diffOrZero_asymm _ _ h

/-- Sorting a sorted array again changes nothing. -/
theorem sortTasks_idem (env : Env) (sortKey : String)
    (hloc : ∀ a b, env.localeCompare a b < 0 → ¬ env.localeCompare b a < 0)
    (l : List Task) :
    sortTasks env sortKey (sortTasks env sortKey l) = sortTasks env sortKey l :=
  arraySort_idem _ l (fun a _ b _ h => sortsBefore_asymm env sortKey hloc a b h)

theorem compareTasks_host (env1 env2 : Env) (hd : env2.dateOf = env1.dateOf)
    (hl : env2.localeCompare = env1.localeCompare) (sortKey : String) (a b : Task) :
    compareTasks env2 sortKey a b = compareTasks env1 sortKey a b := by
  simp [compareTasks, hd, hl]

theorem sortTasks_host (env1 env2 : Env) (hd : env2.dateOf = env1.dateOf)
    (hl : env2.localeCompare = env1.localeCompare) (sortKey : String) (l : List Task) :
    sortTasks env2 sortKey l = sortTasks env1 sortKey l := by
  unfold sortTasks
  have hr : sortsBefore env2 sortKey = sortsBefore env1 sortKey := by
    funext a b
    simp [sortsBefore, compareTasks_host env1 env2 hd hl]
  rw [hr]

/-- A second call of `render` by the same host changes nothing more. -/
theorem afterRender_idem (env1 env2 : Env) (hd : env2.dateOf = env1.dateOf)
    (hl : env2.localeCompare = env1.localeCompare)
    (hloc : ∀ a b, env1.localeCompare a b < 0 → ¬ env1.localeCompare b a < 0)
    (s : Store) :
    afterRender env2 (afterRender env1 s) = afterRender env1 s := by
  unfold afterRender
  rw [render_store env1 s]
  by_cases h : aliasesStore s = true
  · rw [if_pos h, render_store]
    have h2 : aliasesStore { s with tasks := sortTasks env1 s.currentSort s.tasks } = true := by
      simpa [aliasesStore] using h
    rw [if_pos h2]
    simp only
    rw [sortTasks_host env1 env2 hd hl, sortTasks_idem env1 _ hloc]
  · rw [if_neg h, render_store, if_neg h]

/-! ## Importing twice -/

theorem importMap_ids (env : Env) (recs : List (Raw × String × Bool))
    (h : ∀ x ∈ recs, x.1.id.truthy = true) :
    ∀ k, (importMap env k recs).map (fun t => t.id) = recs.map (fun x => x.1.id) := by
  induction recs with
  | nil => intro k; rfl
  | cons x xs ih =>
    intro k
    obtain ⟨r, text, completed⟩ := x
    have hx : r.id.truthy = true := h (r, text, completed) (List.mem_cons_self _ _)
    unfold importMap
    rw [if_pos hx, List.map_cons, List.map_cons,
      ih (fun y hy => h y (List.mem_cons_of_mem _ hy)) k]
    rfl

theorem importedTasks_second (env1 env2 : Env) (s : Store) (elems : List Elem)
    (hids : idsGiven (.tasks elems)) (s1 : Store)
    (hs1 : s1.tasks.Perm (importedTasks env1 s elems ++ s.tasks)) :
    importedTasks env2 s1 elems = [] := by
  have hrecs : ∀ x ∈ elems.filterMap validRecord, x.1.id.truthy = true := by
    intro x hx
    obtain ⟨e, he, hex⟩ := List.mem_filterMap.mp hx
    exact hids e he x.1 x.2.1 x.2.2 hex
  unfold importedTasks
  rw [List.filter_eq_nil_iff]
  intro t ht
  simp only [decide_eq_true_eq, not_not]
  have hid2 : t.id ∈ (importMap env2 0 (elems.filterMap validRecord)).map (fun u => u.id) :=
    List.mem_map.mpr ⟨t, ht, rfl⟩
  rw [importMap_ids env2 _ hrecs 0, ← importMap_ids env1 _ hrecs 0] at hid2
  obtain ⟨t1, ht1, hidt1⟩ := List.mem_map.mp hid2
  rw [(hs1.map (fun u => u.id)).mem_iff, List.map_append, List.mem_append]
  by_cases hex : t1.id ∈ s.tasks.map (fun u => u.id)
  · exact Or.inr (hidt1 ▸ hex)
  · refine Or.inl (List.mem_map.mpr ⟨t1, ?_, hidt1⟩)
    unfold importedTasks
    exact List.mem_filter.mpr ⟨ht1, by simpa using hex⟩

/-- C27: for a file whose valid records all carry a truthy id, a second import
of the file right after the first, by the same host, leaves the store as the
first import left it, and a count it reports is 0. -/
theorem import_twice (env1 env2 : Env) (hd : env2.dateOf = env1.dateOf)
    (hl : env2.localeCompare = env1.localeCompare)
    (hloc : ∀ a b, env1.localeCompare a b < 0 → ¬ env1.localeCompare b a < 0)
    (s : Store) (data : Payload) (hids : idsGiven data) :
    (importTasks env2 (importTasks env1 s data).1 data).1 = (importTasks env1 s data).1 ∧
    ∀ n, (importTasks env2 (importTasks env1 s data).1 data).2 = .ok n → n = 0 := by
  cases data with
  | unparsable => exact ⟨rfl, fun n h => by cases h⟩
  | nullValue => exact ⟨rfl, fun n h => by cases h⟩
  | noTasksArray => exact ⟨rfl, fun n h => by cases h⟩
  | tasks elems =>
    by_cases hvalid : elems.filterMap validRecord = []
    · have h1 := (importTasks_tasks env1 s elems).1 hvalid
      have h2 := (importTasks_tasks env2 s elems).1 hvalid
      rw [h1]
      simp only
      rw [h2]
      exact ⟨rfl, fun n h => by cases h⟩
    · obtain ⟨h1, -⟩ := (importTasks_tasks env1 s elems).2 hvalid
      obtain ⟨h3, h4⟩ := (importTasks_tasks env2 (importTasks env1 s (.tasks elems)).1 elems).2
        hvalid
      have hperm : (importTasks env1 s (.tasks elems)).1.tasks.Perm
          (importedTasks env1 s elems ++ s.tasks) := by
        rw [h1]
        exact afterRender_tasks_perm env1 _
      have hnil := importedTasks_second env1 env2 s elems hids _ hperm
      rw [hnil] at h3 h4
      simp only [List.nil_append] at h3 h4
      constructor
      · rw [h3, h1]
        exact afterRender_idem env1 env2 hd hl hloc _
      · intro n hn
        rw [h4] at hn
        split at hn
        · cases hn
          rfl
        · cases hn

/-- A second import, five seconds later, of the file with one record of low
priority. -/
theorem import_twice_witness :
    laterHost.dateOf = utcHost.dateOf ∧
    laterHost.localeCompare = utcHost.localeCompare ∧
    (∀ a b, utcHost.localeCompare a b < 0 → ¬ utcHost.localeCompare b a < 0) ∧
    idsGiven lowRecordFile ∧
    (importTasks laterHost (importTasks utcHost priorityView lowRecordFile).1 lowRecordFile).1
      = (importTasks utcHost priorityView lowRecordFile).1 ∧
    ∀ n, (importTasks laterHost (importTasks utcHost priorityView lowRecordFile).1
      lowRecordFile).2 = .ok n → n = 0 :=
  have hloc : ∀ a b, utcHost.localeCompare a b < 0 → ¬ utcHost.localeCompare b a < 0 := by
    intro a b h
    simp only [utcHost, hostAt] at h ⊢
    by_cases h1 : a.data < b.data
    · have h2 : ¬ b.data < a.data := not_lt.mpr (le_of_lt h1)
      rw [if_neg h2]
      split <;> omega
    · rw [if_neg h1] at h
      split at h <;> omega
  have hids : idsGiven lowRecordFile := by
    intro e he r text completed hv
    simp only [List.mem_singleton] at he
    subst he
    simp only [validRecord, Option.some.injEq, Prod.mk.injEq] at hv
    obtain ⟨h1, -, -⟩ := hv
    subst h1
    rfl
  ⟨rfl, rfl, hloc, hids, import_twice utcHost laterHost rfl rfl hloc priorityView _ hids⟩

/-! ## Bulk actions -/

theorem bulkCompleted_id (env : Env) (sel : List JVal) (t : Task) :
    (bulkCompleted env sel t).id = t.id := by
  unfold bulkCompleted
  split <;> rfl

theorem bulkCompleteStep_cons (env : Env) (i : JVal) (a : Task) (l : List Task) (n : Nat)
    (ha : a.id ≠ i) :
    bulkCompleteStep env (a :: l, n) i =
      (a :: (bulkCompleteStep env (l, n) i).1, (bulkCompleteStep env (l, n) i).2) := by
  have hf : findTask (a :: l) i = findTask l i := by
    unfold findTask
    rw [List.find?_cons_of_neg _ (by simpa using ha)]
  unfold bulkCompleteStep
  simp only [hf]
  cases findTask l i with
  | none => rfl
  | some task =>
    simp only
    split
    · simp [modifyFirst, ha]
    · rfl

theorem bulkCompleteStep_absent (env : Env) (i : JVal) (l : List Task) (n : Nat)
    (h : ∀ t ∈ l, t.id ≠ i) : bulkCompleteStep env (l, n) i = (l, n) := by
  have hf : findTask l i = none := by
    unfold findTask
    rw [List.find?_eq_none]
    intro t ht
    simpa using h t ht
  unfold bulkCompleteStep
  simp [hf]

theorem map_bulkCompleted_absent (env : Env) (i : JVal) (l : List Task)
    (h : ∀ t ∈ l, t.id ≠ i) : l.map (bulkCompleted env [i]) = l := by
  induction l with
  | nil => rfl
  | cons a l ih =>
    have ha : a.id ≠ i := h a (List.mem_cons_self _ _)
    rw [List.map_cons, ih (fun t ht => h t (List.mem_cons_of_mem _ ht))]
    simp [bulkCompleted, ha]

theorem countP_absent (i : JVal) (l : List Task) (h : ∀ t ∈ l, t.id ≠ i) :
    l.countP (fun t => decide (t.id = i) && !t.completed) = 0 := by
  rw [List.countP_eq_zero]
  intro t ht
  simp [h t ht]

/-- One round of the `forEach` on a collection with pairwise distinct ids. -/
theorem bulkCompleteStep_eq (env : Env) (i : JVal) :
    ∀ (l : List Task) (n : Nat), (l.map (fun t => t.id)).Nodup →
      bulkCompleteStep env (l, n) i =
        (l.map (bulkCompleted env [i]),
         n + l.countP (fun t => decide (t.id = i) && !t.completed)) := by
  intro l
  induction l with
  | nil => intro n _; rfl
  | cons a l ih =>
    intro n hn
    rw [List.map_cons, List.nodup_cons] at hn
    by_cases ha : a.id = i
    · have habs : ∀ t ∈ l, t.id ≠ i := by
        intro t ht hti
        exact hn.1 (List.mem_map.mpr ⟨t, ht, hti.trans ha.symm⟩)
      have hf : findTask (a :: l) i = some a := by
        unfold findTask
        rw [List.find?_cons_of_pos _ (by simpa using ha)]
      rw [List.map_cons, map_bulkCompleted_absent env i l habs, List.countP_cons,
        countP_absent i l habs]
      unfold bulkCompleteStep
      simp only [hf]
      cases hc : a.completed
      · simp [modifyFirst, ha, bulkCompleted, hc]
      · simp [ha, bulkCompleted, hc]
    · rw [bulkCompleteStep_cons env i a l n ha, ih n hn.2, List.map_cons, List.countP_cons]
      simp [bulkCompleted, ha]

theorem bulkCompleted_step (env : Env) (i : JVal) (rest : List JVal) (t : Task) :
    bulkCompleted env rest (bulkCompleted env [i] t) = bulkCompleted env (i :: rest) t := by
  unfold bulkCompleted
  by_cases h1 : t.id = i <;> by_cases h2 : t.completed = false <;>
    by_cases h3 : t.id ∈ rest <;> simp [h1, h2, h3]

theorem countP_step (env : Env) (i : JVal) (rest : List JVal) (l : List Task) :
    l.countP (fun t => decide (t.id = i) && !t.completed) +
      (l.map (bulkCompleted env [i])).countP
        (fun t => decide (t.id ∈ rest) && !t.completed) =
    l.countP (fun t => decide (t.id ∈ i :: rest) && !t.completed) := by
  induction l with
  | nil => rfl
  | cons a l ih =>
    rw [List.map_cons, List.countP_cons, List.countP_cons, List.countP_cons, ← ih]
    have : (if (decide (a.id = i) && !a.completed) = true then 1 else 0) +
        (if (decide ((bulkCompleted env [i] a).id ∈ rest) &&
          !(bulkCompleted env [i] a).completed) = true then 1 else 0) =
        (if (decide (a.id ∈ i :: rest) && !a.completed) = true then 1 else 0) := by
      unfold bulkCompleted
      by_cases h1 : a.id = i <;> by_cases h2 : a.completed = false <;>
        by_cases h3 : a.id ∈ rest <;> simp [h1, h2, h3]
    omega

/-- The `forEach` of `bulkAction('complete')` on a collection with pairwise
distinct ids. -/
theorem bulkComplete_fold (env : Env) :
    ∀ (ids : List JVal) (l : List Task) (n : Nat), (l.map (fun t => t.id)).Nodup →
      ids.foldl (bulkCompleteStep env) (l, n) =
        (l.map (bulkCompleted env ids),
         n + l.countP (fun t => decide (t.id ∈ ids) && !t.completed)) := by
  intro ids
  induction ids with
  | nil =>
    intro l n _
    have hid : bulkCompleted env [] = id := by
      funext t
      simp [bulkCompleted]
    simp [hid]
  | cons i rest ih =>
    intro l n hn
    have hn2 : ((l.map (bulkCompleted env [i])).map (fun t => t.id)).Nodup := by
      rw [List.map_map]
      have : ((fun t => t.id) ∘ bulkCompleted env [i]) = (fun t : Task => t.id) := by
        funext t
        exact bulkCompleted_id env [i] t
      rw [this]
      exact hn
    rw [List.foldl_cons, bulkCompleteStep_eq env i l n hn, ih _ _ hn2, List.map_map]
    have hmap : (bulkCompleted env rest ∘ bulkCompleted env [i]) = bulkCompleted env (i :: rest) := by
      funext t
      exact bulkCompleted_step env i rest t
    rw [hmap, ← countP_step env i rest l]
    simp [Nat.add_assoc]

/-- C13 (fails on the code): when two active tasks carry the selected id, bulk
action "complete" marks the first of them only and reports 1. -/
theorem bulkComplete_marks_first_twin :
    (bulkAction utcHost twinStore "complete").2 = 1 ∧
    (bulkAction utcHost twinStore "complete").1.tasks.map (fun t => (t.id, t.text, t.completed))
      = [(.str "x", "First", true), (.str "x", "Second", false)] := by
  decide

/-- C13 (as amended): on a collection with pairwise distinct ids and a
non-empty selection, bulk action "complete" reports the number of tasks whose
id is selected and which were not completed; the collection holds the same
tasks, each as `bulkCompleted` leaves it (marked completed when selected and
not completed, untouched otherwise), and holds them in the same order when
`render` works on a fresh array. -/
theorem bulkAction_complete (env : Env) (s : Store)
    (hn : (s.tasks.map (fun t => t.id)).Nodup) (hsel : s.selectedTasks ≠ []) :
    (bulkAction env s "complete").2 =
      s.tasks.countP (fun t => decide (t.id ∈ s.selectedTasks) && !t.completed) ∧
    (bulkAction env s "complete").1.tasks.Perm
      (s.tasks.map (bulkCompleted env s.selectedTasks)) ∧
    (aliasesStore s = false →
      (bulkAction env s "complete").1.tasks = s.tasks.map (bulkCompleted env s.selectedTasks)) := by
  have hlen : s.selectedTasks.length ≠ 0 := fun h => hsel (List.length_eq_zero.mp h)
  have hsw : bulkSwitch env s "complete" =
      (s.tasks.map (bulkCompleted env s.selectedTasks),
       s.tasks.countP (fun t => decide (t.id ∈ s.selectedTasks) && !t.completed)) := by
    unfold bulkSwitch
    rw [if_pos rfl, bulkComplete_fold env _ _ _ hn, Nat.zero_add]
  unfold bulkAction
  rw [if_neg hlen]
  simp only [hsw]
  split
  · refine ⟨rfl, afterRender_tasks_perm env _, ?_⟩
    intro hfresh
    rw [afterRender_of_fresh]
    simpa [aliasesStore] using hfresh
  · exact ⟨rfl, List.Perm.refl _, fun _ => rfl⟩

/-- The scenario of bulk action "complete": an active task, a completed task
and an absent id are selected; one task is affected. -/
theorem bulkAction_complete_witness :
    (selectionStore.tasks.map (fun t => t.id)).Nodup ∧
    selectionStore.selectedTasks ≠ [] ∧
    (bulkAction utcHost selectionStore "complete").2 = 1 ∧
    (bulkAction utcHost selectionStore "complete").1.tasks.map
        (fun t => (t.id, t.completed, t.completedAt, t.updatedAt))
      = [(.str "a", true, .str "2024-03-15T17:00:00.000Z", .str "2024-03-15T17:00:00.000Z"),
         (.str "t1", true, .str "2024-03-14T17:00:00.000Z", .str "2024-03-14T17:00:00.000Z")] ∧
    (bulkAction utcHost selectionStore "complete").2 =
      selectionStore.tasks.countP
        (fun t => decide (t.id ∈ selectionStore.selectedTasks) && !t.completed) ∧
    (bulkAction utcHost selectionStore "complete").1.tasks.Perm
      (selectionStore.tasks.map (bulkCompleted utcHost selectionStore.selectedTasks)) ∧
    (aliasesStore selectionStore = false →
      (bulkAction utcHost selectionStore "complete").1.tasks
        = selectionStore.tasks.map (bulkCompleted utcHost selectionStore.selectedTasks)) :=
  ⟨by decide, by decide, by decide, by decide,
   bulkAction_complete utcHost selectionStore (by decide) (by decide)⟩

/-- C14 (fails on the code): with task a and an id that is no longer in the
collection selected, a confirmed bulk action "delete" removes one task of two
and reports 2. -/
theorem bulkDelete_counts_selection :
    staleSelectionStore.tasks.map (fun t => t.id) = [.str "a", .str "b"] ∧
    (bulkAction utcHost staleSelectionStore "delete").1.tasks.map (fun t => t.id)
      = [.str "b"] ∧
    (bulkAction utcHost staleSelectionStore "delete").2 = 2 := by
  decide

/-- A confirmed bulk action "delete" with a non-empty selection reports the
number of selected ids; it keeps exactly the tasks whose id is not selected,
in their order when `render` works on a fresh array. -/
theorem bulkAction_delete (env : Env) (s : Store) (hconfirm : env.confirm = true)
    (hsel : s.selectedTasks ≠ []) :
    (bulkAction env s "delete").2 = s.selectedTasks.length ∧
    (bulkAction env s "delete").1.tasks.Perm
      (s.tasks.filter (fun t => decide (t.id ∉ s.selectedTasks))) ∧
    (aliasesStore s = false →
      (bulkAction env s "delete").1.tasks
        = s.tasks.filter (fun t => decide (t.id ∉ s.selectedTasks))) := by
  have hlen : s.selectedTasks.length ≠ 0 := fun h => hsel (List.length_eq_zero.mp h)
  have hsw : bulkSwitch env s "delete" =
      (s.tasks.filter (fun t => decide (t.id ∉ s.selectedTasks)), s.selectedTasks.length) := by
    unfold bulkSwitch
    simp [hconfirm]
  unfold bulkAction
  rw [if_neg hlen]
  simp only [hsw]
  rw [if_pos (Nat.pos_of_ne_zero hlen)]
  refine ⟨rfl, afterRender_tasks_perm env _, ?_⟩
  intro hfresh
  rw [afterRender_of_fresh]
  simpa [aliasesStore] using hfresh

/-! ## Clearing completed tasks -/

/-- C15 (fails on the code): on the store as `loadTasks` leaves it, holding
[a, t1 completed, b] with b created after a, a confirmed `clearCompleted`
reports 1 and leaves [b, a]: the call of `render` inside it has sorted the
collection by creation time. -/
theorem clearCompleted_reorders :
    justLoaded.tasks.map (fun t => (t.id, t.completed))
      = [(.str "a", false), (.str "t1", true), (.str "b", false)] ∧
    (clearCompleted utcHost justLoaded).2 = 1 ∧
    (clearCompleted utcHost justLoaded).1.tasks.map (fun t => (t.id, t.completed))
      = [(.str "b", false), (.str "a", false)] := by
  decide

/-- A confirmed `clearCompleted` reports the number of completed tasks and
keeps exactly the tasks that are not completed, unmodified, and in their
order when `render` works on a fresh array; without a completed task it
reports 0 and leaves the store unchanged. -/
theorem clearCompleted_spec (env : Env) (s : Store) (hconfirm : env.confirm = true) :
    (clearCompleted env s).2 = (s.tasks.filter (fun t => t.completed)).length ∧
    (clearCompleted env s).1.tasks.Perm (s.tasks.filter (fun t => !t.completed)) ∧
    (aliasesStore s = false →
      (clearCompleted env s).1.tasks = s.tasks.filter (fun t => !t.completed)) ∧
    ((s.tasks.filter (fun t => t.completed)).length = 0 → clearCompleted env s = (s, 0)) := by
  unfold clearCompleted
  by_cases h0 : (s.tasks.filter (fun t => t.completed)).length = 0
  · have hnone : ∀ t ∈ s.tasks, t.completed = false := by
      intro t ht
      by_contra hc
      have hmem : t ∈ s.tasks.filter (fun t => t.completed) :=
        List.mem_filter.mpr ⟨ht, by simpa using hc⟩
      rw [List.length_eq_zero.mp h0] at hmem
      cases hmem
    have hkeep : s.tasks.filter (fun t => !t.completed) = s.tasks := by
      rw [List.filter_eq_self]
      intro t ht
      simp [hnone t ht]
    rw [if_pos h0, hkeep]
    exact ⟨h0.symm, List.Perm.refl _, fun _ => rfl, fun _ => rfl⟩
  · rw [if_neg h0, if_pos hconfirm]
    refine ⟨rfl, afterRender_tasks_perm env _, ?_, fun h => absurd h h0⟩
    intro hfresh
    simp only
    rw [afterRender_of_fresh]
    simpa [aliasesStore] using hfresh

/-! ## The rendered view -/

theorem getFilteredTasks_eq_spec (env : Env) (s : Store) :
    (getFilteredTasks env s).1 = specStatus env s.currentFilter s.tasks := by
  unfold getFilteredTasks specStatus
  split_ifs <;> rfl

theorem jsIncludes_empty (x : String) : jsIncludes x "" = true := by
  simp [jsIncludes]

theorem filterThrowing_eq_filter (env : Env) (sq : String) (query : String)
    (hq : sq = env.toLowerCase query) :
    ∀ l : List Task, (∀ t ∈ l, categoryIsText t) →
      filterThrowing (searchMatch env sq) l = some (l.filter (specSearchMatch env query)) := by
  intro l
  induction l with
  | nil => intro _; rfl
  | cons a l ih =>
    intro h
    have ha : categoryIsText a := h a (List.mem_cons_self _ _)
    have hm : searchMatch env sq a = some (specSearchMatch env query a) := by
      unfold searchMatch specSearchMatch
      rw [← hq]
      by_cases htext : jsIncludes (env.toLowerCase a.text) sq = true
      · simp [htext]
      · simp only [htext, Bool.false_eq_true, if_false, Bool.false_or]
        cases hcat : a.category with
        | str c => by_cases hc : c = "" <;> simp [hc]
        | undefined => simp [JVal.truthy]
        | null => simp [JVal.truthy]
        | bool b =>
          cases b
          · simp [JVal.truthy]
          · obtain ⟨c, hc⟩ := ha (by simp [hcat, JVal.truthy])
            rw [hcat] at hc
            cases hc
        | num n =>
          by_cases hn : n = 0
          · simp [JVal.truthy, hn]
          · obtain ⟨c, hc⟩ := ha (by simp [hcat, JVal.truthy, hn])
            rw [hcat] at hc
            cases hc
    unfold filterThrowing
    rw [hm, ih (fun t ht => h t (List.mem_cons_of_mem _ ht))]
    simp only [List.filter_cons]

/-- C24 (fails on the code): while the search box holds "milk", a task whose
text does not contain it and whose category is the number 5 makes `render`
throw; there is no view.  Nor is there one, without any search, for a task
that has no priority. -/
theorem render_throws_on_numeric_category :
    (render utcHost numericCategoryStore).view = none ∧
    (render utcHost numericCategoryStore).store = numericCategoryStore ∧
    (render utcHost noPriorityStore).view = none := by
  decide

/-- C24 (as amended): when the stored search query is the lower case of the
query typed, every category is text or absent and every priority is text, the
view of `render` is the sort of the result of the status stage, then the
search stage, then the category stage of the specification. -/
theorem render_view_eq_spec (env : Env) (s : Store) (query : String)
    (hq : s.searchQuery = env.toLowerCase query)
    (hcat : ∀ t ∈ s.tasks, categoryIsText t)
    (hprio : ∀ t ∈ s.tasks, priorityIsText t) :
    (render env s).view = some (specView env s query) := by
  have hbase := getFilteredTasks_eq_spec env s
  have hmem : ∀ t ∈ specStatus env s.currentFilter s.tasks, t ∈ s.tasks := by
    intro t ht
    rw [← hbase] at ht
    exact mem_getFilteredTasks env s t ht
  have hmap : ∀ l : List Task, (∀ t ∈ l, t ∈ s.tasks) →
      mapThrowing createTaskHtml (sortTasks env s.currentSort l)
        = some (sortTasks env s.currentSort l) := by
    intro l hl
    apply mapThrowing_createTaskHtml
    intro t ht
    exact hprio t (hl t ((sortTasks_perm env _ l).mem_iff.mp ht))
  have hsub : ∀ t ∈ specStatus env s.currentFilter s.tasks, categoryIsText t := by
    intro t ht
    apply hcat
    unfold specStatus at ht
    split_ifs at ht
    · exact List.mem_of_mem_filter ht
    · exact List.mem_of_mem_filter ht
    · exact List.mem_of_mem_filter ht
    · exact ht
  unfold specView specCategory
  by_cases hs : s.searchQuery = ""
  · have hall : (specStatus env s.currentFilter s.tasks).filter (specSearchMatch env query)
        = specStatus env s.currentFilter s.tasks := by
      rw [List.filter_eq_self]
      intro t _
      unfold specSearchMatch
      rw [← hq, hs, jsIncludes_empty]
      rfl
    rw [hall]
    by_cases hc : s.currentCategory = .str "all"
    · simp only [render, hs, hc, hbase, ne_eq, not_true_eq_false, if_false, if_true]
      exact hmap _ hmem
    · simp only [render, hs, hc, hbase, ne_eq, not_true_eq_false, not_false_eq_true,
        if_false, if_true]
      exact hmap _ (fun t ht => hmem t (List.mem_of_mem_filter ht))
  · have hf := filterThrowing_eq_filter env s.searchQuery query hq _ hsub
    by_cases hc : s.currentCategory = .str "all"
    · simp only [render, hs, hc, hbase, hf, ne_eq, not_true_eq_false, not_false_eq_true,
        if_false, if_true, Option.map_some']
      exact hmap _ (fun t ht => hmem t (List.mem_of_mem_filter ht))
    · simp only [render, hs, hc, hbase, hf, ne_eq, not_false_eq_true, if_true,
        Option.map_some']
      exact hmap _ (fun t ht => hmem t (List.mem_of_mem_filter (List.mem_of_mem_filter ht)))

/-- The view of the search for "HOME": the task of category "Home". -/
theorem render_view_eq_spec_witness :
    homeSearchStore.searchQuery = utcHost.toLowerCase "HOME" ∧
    (∀ t ∈ homeSearchStore.tasks, categoryIsText t) ∧
    (∀ t ∈ homeSearchStore.tasks, priorityIsText t) ∧
    (render utcHost homeSearchStore).view = some (specView utcHost homeSearchStore "HOME") ∧
    (specView utcHost homeSearchStore "HOME").map (fun t => t.text) = ["Clean windows"] :=
  have hcat : ∀ t ∈ homeSearchStore.tasks, categoryIsText t := by
    intro t ht
    simp only [homeSearchStore, List.mem_cons, List.mem_singleton, List.not_mem_nil,
      or_false] at ht
    rcases ht with ht | ht <;> subst ht
    · intro _
      exact ⟨"Home", rfl⟩
    · intro h
      exact absurd h (by decide)
  have hprio : ∀ t ∈ homeSearchStore.tasks, priorityIsText t := by
    intro t ht
    simp only [homeSearchStore, List.mem_cons, List.mem_singleton, List.not_mem_nil,
      or_false] at ht
    rcases ht with ht | ht <;> subst ht <;> exact ⟨_, rfl⟩
  ⟨by decide, hcat, hprio,
   render_view_eq_spec utcHost homeSearchStore "HOME" (by decide) hcat hprio, by decide⟩

/-! ## Reordering: no-ops and permutation -/

theorem split_at_index {l : List Task} {i : Nat} (hi : i < l.length) :
    l.take i ++ l[i] :: l.drop (i + 1) = l := by
  rw [List.getElem_cons_drop, List.take_append_drop]

theorem moveTask_perm (i j : Nat) (l : List Task) : (moveTask i j l).Perm l := by
  by_cases hi : i < l.length
  · rw [moveTask_eq j hi]
    refine List.perm_middle.trans ?_
    rw [List.take_append_drop, List.eraseIdx_eq_take_drop_succ]
    refine List.perm_middle.symm.trans ?_
    rw [split_at_index hi]
  · unfold moveTask
    rw [List.getElem?_eq_none (Nat.le_of_not_lt hi)]

theorem moveTask_same {l : List Task} {i : Nat} (hi : i < l.length) : moveTask i i l = l := by
  have hlen : (l.take i).length = i := by
    rw [List.length_take]
    omega
  rw [moveTask_eq i hi, List.eraseIdx_eq_take_drop_succ, List.take_left' hlen,
    List.drop_left' hlen, split_at_index hi]

/-- Taking the moved task out of the result gives the collection without it:
the other tasks keep their relative order. -/
theorem moveTask_others {l : List Task} {i : Nat} (j : Nat) (hi : i < l.length) :
    ∃ k, (moveTask i j l)[k]? = l[i]? ∧ (moveTask i j l).eraseIdx k = l.eraseIdx i := by
  refine ⟨((l.eraseIdx i).take j).length, ?_, ?_⟩
  · rw [moveTask_eq j hi, List.getElem?_append_right (Nat.le_refl _), Nat.sub_self,
      List.getElem?_eq_getElem hi]
    simp
  · rw [moveTask_eq j hi, List.eraseIdx_append_of_length_le (Nat.le_refl _), Nat.sub_self]
    simp

theorem findIndex_lt {l : List Task} {taskId : JVal} {i : Nat}
    (h : findIndex l taskId = some i) : i < l.length := by
  unfold findIndex at h
  exact (List.findIdx?_eq_some_iff_findIdx_eq.mp h).1

/-- With an id that is not in the collection, `reorderTask` does nothing. -/
theorem reorderTask_absent (env : Env) (s : Store) (a b : JVal)
    (h : findIndex s.tasks a = none ∨ findIndex s.tasks b = none) :
    reorderTask env s a b = s := by
  unfold reorderTask
  rcases h with h | h
  · rw [h]
  · rw [h]
    cases findIndex s.tasks a <;> rfl

/-- With the same id twice, `reorderTask` does nothing but its call of
`render`. -/
theorem reorderTask_same (env : Env) (s : Store) (a : JVal) (i : Nat)
    (h : findIndex s.tasks a = some i) :
    reorderTask env s a a = afterRender env s := by
  unfold reorderTask
  rw [h]
  simp only
  rw [moveTask_same (findIndex_lt h)]

/-- After `reorderTask` the collection holds the same tasks. -/
theorem reorderTask_perm (env : Env) (s : Store) (a b : JVal) :
    (reorderTask env s a b).tasks.Perm s.tasks := by
  unfold reorderTask
  split
  · exact (afterRender_tasks_perm env _).trans (moveTask_perm _ _ _)
  · exact List.Perm.refl _

/-- When `render` works on a fresh array, `reorderTask` leaves the result of
its two `splice` calls. -/
theorem reorderTask_of_fresh (env : Env) (s : Store) (a b : JVal) (i j : Nat)
    (ha : findIndex s.tasks a = some i) (hb : findIndex s.tasks b = some j)
    (hfresh : aliasesStore s = false) :
    reorderTask env s a b = { s with tasks := moveTask i j s.tasks } := by
  unfold reorderTask
  rw [ha, hb]
  simp only
  rw [afterRender_of_fresh]
  simpa [aliasesStore] using hfresh

/-- C25 (fails on the code): on the store as `loadTasks` leaves it, holding
[a, t1, b] with b created after a, `reorderTask(a, a)` leaves [b, a, t1]: the
call of `render` inside it has sorted the collection by creation time. -/
theorem reorderTask_same_id_reorders :
    justLoaded.tasks.map (fun t => t.id) = [.str "a", .str "t1", .str "b"] ∧
    (reorderTask utcHost justLoaded (.str "a") (.str "a")).tasks.map (fun t => t.id)
      = [.str "b", .str "a", .str "t1"] := by
  decide

/-- C26 (fails on the code): on the store as `loadTasks` leaves it, holding
[a, t1, b] with b created after a, `reorderTask(t1, b)` leaves [b, a, t1]: the
tasks a and b, neither of them moved, have changed places. -/
theorem reorderTask_reorders_others :
    justLoaded.tasks.map (fun t => t.id) = [.str "a", .str "t1", .str "b"] ∧
    (reorderTask utcHost justLoaded (.str "t1") (.str "b")).tasks.map (fun t => t.id)
      = [.str "b", .str "a", .str "t1"] := by
  decide

end TaskFlow
